import Mathlib

/-!
Verification of the tolerant-parsing and incremental-tree-materialization
engine of the json-viewer repository.  The definitions below are a shallow
embedding of `src/utils/jsonParser.ts` (the `JsonParser` class) and of the
path-resolution loop of `src/components/JsonTableView.tsx`.  JavaScript
strings are modelled as Lean `String` (reasoning happens on `String.data`),
JS `number`-valued JSON leaves keep their source token, and the mutable
`this.stats` field of the class is threaded explicitly through the methods
that read or write it.
-/

set_option maxHeartbeats 1000000

/-! ## Basic string helpers (JS primitives used by the source) -/

/-- Test that `p` is a leading run of `l` (semantics of JS `startsWith`). -/
def listHasLead : List Char → List Char → Bool
  | _, [] => true
  | [], _ :: _ => false
  | a :: as, b :: bs => a == b && listHasLead as bs

/-- JS `s.startsWith p`. -/
def strHasLead (s p : String) : Bool :=
  listHasLead s.data p.data

/-- Test that `sub` occurs as a contiguous run somewhere in `l`
(semantics of JS `includes`). -/
def listHasSub : List Char → List Char → Bool
  | [], sub => sub.isEmpty
  | a :: as, sub => listHasLead (a :: as) sub || listHasSub as sub

/-- JS `s.includes sub`. -/
def containsStr (s sub : String) : Bool :=
  listHasSub s.data sub.data

/-- JS whitespace class used by `trim` (space, tab, newline, carriage
return, vertical tab, form feed, no-break space, BOM). -/
def jsWhitespace (c : Char) : Bool :=
  c == ' ' || c == '\t' || c == '\n' || c == '\r' ||
  c == Char.ofNat 0x0B || c == Char.ofNat 0x0C ||
  c == Char.ofNat 0xA0 || c == Char.ofNat 0xFEFF

/-- JS `String.prototype.trim`. -/
def jsTrim (s : String) : String :=
  ⟨((s.data.dropWhile jsWhitespace).reverse.dropWhile jsWhitespace).reverse⟩

/-- JS `toLowerCase` (ASCII case folding suffices for the inputs at play). -/
def lowerStr (s : String) : String :=
  ⟨s.data.map Char.toLower⟩

/-- Fuel-driven digit accumulation for decimal rendering (the fuel is a
structural-recursion device; `n + 1` units always suffice). -/
def natCharsGo : Nat → Nat → List Char → List Char
  | 0, _, acc => acc
  | fuel + 1, n, acc =>
    if n < 10 then Char.ofNat (48 + n) :: acc
    else natCharsGo fuel (n / 10) (Char.ofNat (48 + n % 10) :: acc)

/-- Decimal digits of a natural number, most significant first
(JS number-to-string for the non-negative integers used as array indices). -/
def natCharsAux (n : Nat) : List Char := natCharsGo (n + 1) n []

/-- JS `String(n)` for a natural number `n`. -/
def natRepr (n : Nat) : String := ⟨natCharsAux n⟩

/-- The synthetic key of an array element: JS template literal `[${index}]`. -/
def idxKey (i : Nat) : String := "[" ++ natRepr i ++ "]"

/-- Path construction of `processValue`:
`const currentPath = path ? `${path}.${key}` : key`. -/
def joinKey (p k : String) : String :=
  if p = "" then k else p ++ "." ++ k

/-- Splitting on a literal dot, JS `s.split "."` (keeps empty pieces). -/
def splitDotAux : List Char → List Char → List (List Char)
  | [], cur => [cur.reverse]
  | c :: rest, cur =>
    if c = '.' then cur.reverse :: splitDotAux rest []
    else splitDotAux rest (c :: cur)

/-- JS `s.split "."`. -/
def splitDot (s : String) : List String :=
  (splitDotAux s.data []).map (fun l => ⟨l⟩)

/-! ## The Value model (`JsonValue` of `src/types/json.ts`)

The recursive tagged union; objects keep their fields in insertion order.
Number leaves store the numeric literal token of the source text (the
engine never computes with the numeric value; it only re-renders it). -/

mutual
inductive JsonValue where
  | str (s : String)
  | num (tok : String)
  | boolean (b : Bool)
  | null
  | obj (fs : JsonFields)
  | arr (es : JsonElems)
  deriving DecidableEq, Repr
inductive JsonFields where
  | nil
  | cons (k : String) (v : JsonValue) (rest : JsonFields)
  deriving DecidableEq, Repr
inductive JsonElems where
  | nil
  | cons (v : JsonValue) (rest : JsonElems)
  deriving DecidableEq, Repr
end

/-- Build an object value from a list of fields (helper for examples). -/
def jsonObjOf : List (String × JsonValue) → JsonValue
  | l => .obj (l.foldr (fun kv r => .cons kv.1 kv.2 r) .nil)

/-- Build an array value from a list of elements (helper for examples). -/
def jsonArrOf : List JsonValue → JsonValue
  | l => .arr (l.foldr .cons .nil)

/-- Number of fields of an object (JS `Object.keys(value).length`). -/
def fieldsLen : JsonFields → Nat
  | .nil => 0
  | .cons _ _ r => fieldsLen r + 1

/-- Number of elements of an array (JS `value.length`). -/
def elemsLen : JsonElems → Nat
  | .nil => 0
  | .cons _ r => elemsLen r + 1

/-- `JsonParser.getValueType` (null, `Array.isArray`, `typeof`). -/
def getValueType : JsonValue → String
  | .null => "null"
  | .arr _ => "array"
  | .obj _ => "object"
  | .str _ => "string"
  | .num _ => "number"
  | .boolean _ => "boolean"

/-- Whether a value is a container (object or array). -/
def isContainer : JsonValue → Bool
  | .obj _ => true
  | .arr _ => true
  | _ => false

mutual
/-- `JsonParser.countNodes`: one per value plus all descendants. -/
def countNodes : JsonValue → Nat
  | .obj fs => 1 + countNodesF fs
  | .arr es => 1 + countNodesE es
  | _ => 1
def countNodesF : JsonFields → Nat
  | .nil => 0
  | .cons _ v r => countNodesF r + countNodes v
def countNodesE : JsonElems → Nat
  | .nil => 0
  | .cons v r => countNodesE r + countNodes v
end

/-! ## Node, stats, parse-result records (`src/types/json.ts`) -/

/-- A flattened tree-position record (`JsonNode` of `src/types/json.ts`).
`childCount` is the optional field set only for containers. -/
structure JsonNode where
  key : String
  value : JsonValue
  type : String
  path : String
  depth : Nat
  isExpanded : Bool
  childCount : Option Nat
  deriving DecidableEq, Repr

/-- The traversal statistics (`JsonStats`); `typeDistribution` is a JS
object modelled as an insertion-ordered association list. -/
structure JsonStats where
  totalNodes : Nat
  maxDepth : Nat
  typeDistribution : List (String × Nat)
  arrayLengths : List Nat
  objectSizes : List Nat
  deriving DecidableEq, Repr

/-- The stats value installed by `resetStats` (and the initial field value). -/
def initStats : JsonStats := ⟨0, 0, [], [], []⟩

/-- Location info of a parse failure.  The fields are JS numbers (the
manual validator can report `position: -1`), so they are modelled as
integers; an absent field is `none`. -/
structure ErrorDetails where
  line : Option Int
  column : Option Int
  position : Option Int
  deriving DecidableEq, Repr

/-- `ParseResult` of `src/types/json.ts`. -/
structure ParseResult where
  success : Bool
  data : Option JsonValue
  error : Option String
  errorDetails : Option ErrorDetails
  deriving DecidableEq, Repr

/-! ## The node flattener (`convertToNodes` / `processValue`)

`processValue` mutates `this.stats` and appends to the `nodes` array; the
embedding threads the stats and returns the appended nodes. -/

/-- `this.stats.typeDistribution[type] = (this.stats.typeDistribution[type] || 0) + 1`. -/
def bumpType (d : List (String × Nat)) (t : String) : List (String × Nat) :=
  if d.any (fun p => p.1 == t) then
    d.map (fun p => if p.1 == t then (p.1, p.2 + 1) else p)
  else d ++ [(t, 1)]

/-- The per-node stats update at the top of `processValue`. -/
def statsVisit (st : JsonStats) (t : String) (depth : Nat) : JsonStats :=
  { st with
    totalNodes := st.totalNodes + 1
    maxDepth := max st.maxDepth depth
    typeDistribution := bumpType st.typeDistribution t }

mutual
/-- `JsonParser.processValue` (the `depth < 2` default-expansion flatten). -/
def processValue (v : JsonValue) (key path : String) (depth : Nat)
    (st : JsonStats) : List JsonNode × JsonStats :=
  let curPath := joinKey path key
  let t := getValueType v
  let st1 := statsVisit st t depth
  match v with
  | .arr es =>
    let node : JsonNode := ⟨key, v, t, curPath, depth, decide (depth < 2), some (elemsLen es)⟩
    let st2 := { st1 with arrayLengths := st1.arrayLengths ++ [elemsLen es] }
    if node.isExpanded then
      let r := processElems es 0 curPath (depth + 1) st2
      (node :: r.1, r.2)
    else ([node], st2)
  | .obj fs =>
    let node : JsonNode := ⟨key, v, t, curPath, depth, decide (depth < 2), some (fieldsLen fs)⟩
    let st2 := { st1 with objectSizes := st1.objectSizes ++ [fieldsLen fs] }
    if node.isExpanded then
      let r := processFields fs curPath (depth + 1) st2
      (node :: r.1, r.2)
    else ([node], st2)
  | _ => ([⟨key, v, t, curPath, depth, decide (depth < 2), none⟩], st1)
/-- The `keys.forEach` loop of `processValue` over object fields. -/
def processFields (fs : JsonFields) (path : String) (depth : Nat)
    (st : JsonStats) : List JsonNode × JsonStats :=
  match fs with
  | .nil => ([], st)
  | .cons k v rest =>
    let r1 := processValue v k path depth st
    let r2 := processFields rest path depth r1.2
    (r1.1 ++ r2.1, r2.2)
/-- The `value.forEach((item, index) => ...)` loop of `processValue`. -/
def processElems (es : JsonElems) (i : Nat) (path : String) (depth : Nat)
    (st : JsonStats) : List JsonNode × JsonStats :=
  match es with
  | .nil => ([], st)
  | .cons v rest =>
    let r1 := processValue v (idxKey i) path depth st
    let r2 := processElems rest (i + 1) path depth r1.2
    (r1.1 ++ r2.1, r2.2)
end

/-- `JsonParser.convertToNodes`: `resetStats()` then flatten from the root
key at depth 0 (the incoming stats value is discarded by the reset). -/
def convertToNodes (data : JsonValue) (rootKey : String) :
    List JsonNode × JsonStats :=
  processValue data rootKey "" 0 initStats

/-! ## The incremental tree editor -/

/-- JS `findIndex` paired with the subsequent element access:
first index whose node has the wanted path, together with that node. -/
def findNode : List JsonNode → String → Option (Nat × JsonNode)
  | [], _ => none
  | n :: rest, p =>
    if n.path == p then some (0, n)
    else (findNode rest p).map (fun im => (im.1 + 1, im.2))

/-- The `Object.keys(objectValue).forEach` loop of `expandNode` in the
degenerate case where a node typed `"object"` holds an array value
(JS `Object.keys` on an array yields the decimal index strings). -/
def processArrayAsObjectFields (es : JsonElems) (i : Nat) (path : String)
    (depth : Nat) (st : JsonStats) : List JsonNode × JsonStats :=
  match es with
  | .nil => ([], st)
  | .cons v rest =>
    let r1 := processValue v (natRepr i) path depth st
    let r2 := processArrayAsObjectFields rest (i + 1) path depth r1.2
    (r1.1 ++ r2.1, r2.2)

/-- The child-materialization block of `expandNode` (the two `if` branches
guarded by `node.type === "array" && Array.isArray(node.value)` and
`node.type === "object" && node.value !== null && typeof node.value === "object"`). -/
def expandChildren (node : JsonNode) (st : JsonStats) :
    List JsonNode × JsonStats :=
  if node.type == "array" then
    match node.value with
    | .arr es => processElems es 0 node.path (node.depth + 1) st
    | _ => ([], st)
  else if node.type == "object" then
    match node.value with
    | .obj fs => processFields fs node.path (node.depth + 1) st
    | .arr es => processArrayAsObjectFields es 0 node.path (node.depth + 1) st
    | _ => ([], st)
  else ([], st)

/-- `JsonParser.expandNode`: locate by path, no-op when absent or already
expanded, else flip the flag and splice the materialized children in
immediately after the target. -/
def expandNode (nodes : List JsonNode) (targetPath : String)
    (st : JsonStats) : List JsonNode × JsonStats :=
  match findNode nodes targetPath with
  | none => (nodes, st)
  | some im =>
    if im.2.isExpanded then (nodes, st)
    else
      let base := nodes.set im.1 { im.2 with isExpanded := true }
      let r := expandChildren im.2 st
      (base.take (im.1 + 1) ++ r.1 ++ base.drop (im.1 + 1), r.2)

/-- The descendant test of `collapseNode`:
`path.startsWith(targetPath + ".") || path.startsWith(targetPath + "[")`. -/
def descendantTest (targetPath : String) (n : JsonNode) : Bool :=
  strHasLead n.path (targetPath ++ ".") || strHasLead n.path (targetPath ++ "[")

/-- `JsonParser.collapseNode`: locate by path, no-op when absent or not
expanded, else flip the flag and remove the contiguous run of following
nodes matching the descendant test (the loop breaks at the first miss). -/
def collapseNode (nodes : List JsonNode) (targetPath : String) :
    List JsonNode :=
  match findNode nodes targetPath with
  | none => nodes
  | some im =>
    if !im.2.isExpanded then nodes
    else
      let base := nodes.set im.1 { im.2 with isExpanded := false }
      base.take (im.1 + 1) ++ (base.drop (im.1 + 1)).dropWhile (descendantTest targetPath)

/-- `JsonParser.collapseAllNodes`: snapshot the currently expanded
containers, then collapse each against the shrinking sequence. -/
def collapseAllNodes (nodes : List JsonNode) : List JsonNode :=
  let collapsible := nodes.filter
    (fun n => (n.type == "object" || n.type == "array") && n.isExpanded)
  collapsible.foldl (fun acc n => collapseNode acc n.path) nodes

mutual
/-- `JsonParser.processValueWithExpandAll`: full flatten with every
container forced open. -/
def processValueWithExpandAll (v : JsonValue) (key path : String)
    (depth : Nat) : List JsonNode :=
  let curPath := joinKey path key
  let t := getValueType v
  match v with
  | .arr es =>
    ⟨key, v, t, curPath, depth, true, some (elemsLen es)⟩ ::
      processElemsWithExpandAll es 0 curPath (depth + 1)
  | .obj fs =>
    ⟨key, v, t, curPath, depth, true, some (fieldsLen fs)⟩ ::
      processFieldsWithExpandAll fs curPath (depth + 1)
  | _ => [⟨key, v, t, curPath, depth, false, none⟩]
/-- Field loop of `processValueWithExpandAll`. -/
def processFieldsWithExpandAll (fs : JsonFields) (path : String)
    (depth : Nat) : List JsonNode :=
  match fs with
  | .nil => []
  | .cons k v rest =>
    processValueWithExpandAll v k path depth ++
      processFieldsWithExpandAll rest path depth
/-- Element loop of `processValueWithExpandAll`. -/
def processElemsWithExpandAll (es : JsonElems) (i : Nat) (path : String)
    (depth : Nat) : List JsonNode :=
  match es with
  | .nil => []
  | .cons v rest =>
    processValueWithExpandAll v (idxKey i) path depth ++
      processElemsWithExpandAll rest (i + 1) path depth
end

/-- `JsonParser.expandAllNodes`: find the node keyed `"root"` and rebuild
the whole sequence from its value; no-op when absent. -/
def expandAllNodes (nodes : List JsonNode) : List JsonNode :=
  match nodes.find? (fun n => n.key == "root") with
  | none => nodes
  | some rootNode => processValueWithExpandAll rootNode.value "root" "" 0

/-! ## The search engine -/

/-- `JsonParser.getSearchableValue`. -/
def getSearchableValue : JsonValue → String
  | .null => "null"
  | .obj _ => ""
  | .arr _ => ""
  | .str s => s
  | .num tok => tok
  | .boolean b => if b then "true" else "false"

/-- JS `Set.prototype.add` on the insertion-ordered model. -/
def addUnique (l : List String) (s : String) : List String :=
  if l.any (· == s) then l else l ++ [s]

mutual
/-- `JsonParser.findMatchingPaths`: record every path whose key or scalar
rendering contains the query. -/
def findMatchingPaths (v : JsonValue) (key path sq : String) (cs : Bool)
    (mp : List String) : List String :=
  let curPath := joinKey path key
  let keyMatch := if cs then containsStr key sq else containsStr (lowerStr key) sq
  let sv := getSearchableValue v
  let valueMatch := if cs then containsStr sv sq else containsStr (lowerStr sv) sq
  let mp1 := if keyMatch || valueMatch then addUnique mp curPath else mp
  match v with
  | .arr es => findMatchingElems es 0 curPath sq cs mp1
  | .obj fs => findMatchingFields fs curPath sq cs mp1
  | _ => mp1
/-- Field loop of `findMatchingPaths`. -/
def findMatchingFields (fs : JsonFields) (path sq : String) (cs : Bool)
    (mp : List String) : List String :=
  match fs with
  | .nil => mp
  | .cons k v rest =>
    findMatchingFields rest path sq cs (findMatchingPaths v k path sq cs mp)
/-- Element loop of `findMatchingPaths`. -/
def findMatchingElems (es : JsonElems) (i : Nat) (path sq : String)
    (cs : Bool) (mp : List String) : List String :=
  match es with
  | .nil => mp
  | .cons v rest =>
    findMatchingElems rest (i + 1) path sq cs
      (findMatchingPaths v (idxKey i) path sq cs mp)
end

/-- The `pathParts.forEach` accumulation inside `searchNodes` that adds
every strict ancestor (by dot segments) of one matched path. -/
def ancestorsAux (parts : List String) (cur matchPath : String)
    (acc : List String) : List String :=
  match parts with
  | [] => acc
  | part :: rest =>
    let cur' := if cur = "" then part else cur ++ "." ++ part
    let acc' := if cur' ≠ matchPath then addUnique acc cur' else acc
    ancestorsAux rest cur' matchPath acc'

/-- The `matchingPaths.forEach` loop building `pathsToExpand`. -/
def buildPathsToExpand (mp : List String) : List String :=
  mp.foldl (fun acc m => ancestorsAux (splitDot m) "" m acc) []

mutual
/-- `JsonParser.processValueWithSearch`: flatten expanding exactly the
ancestor closure and the matches themselves. -/
def processValueWithSearch (v : JsonValue) (key path : String) (depth : Nat)
    (pte mp : List String) : List JsonNode :=
  let curPath := joinKey path key
  let t := getValueType v
  let shouldExpand := pte.any (· == curPath) || mp.any (· == curPath)
  let isExp := shouldExpand && (t == "object" || t == "array")
  match v with
  | .arr es =>
    let node : JsonNode := ⟨key, v, t, curPath, depth, isExp, some (elemsLen es)⟩
    if isExp then node :: processElemsWithSearch es 0 curPath (depth + 1) pte mp
    else [node]
  | .obj fs =>
    let node : JsonNode := ⟨key, v, t, curPath, depth, isExp, some (fieldsLen fs)⟩
    if isExp then node :: processFieldsWithSearch fs curPath (depth + 1) pte mp
    else [node]
  | _ => [⟨key, v, t, curPath, depth, isExp, none⟩]
/-- Field loop of `processValueWithSearch`. -/
def processFieldsWithSearch (fs : JsonFields) (path : String) (depth : Nat)
    (pte mp : List String) : List JsonNode :=
  match fs with
  | .nil => []
  | .cons k v rest =>
    processValueWithSearch v k path depth pte mp ++
      processFieldsWithSearch rest path depth pte mp
/-- Element loop of `processValueWithSearch`. -/
def processElemsWithSearch (es : JsonElems) (i : Nat) (path : String)
    (depth : Nat) (pte mp : List String) : List JsonNode :=
  match es with
  | .nil => []
  | .cons v rest =>
    processValueWithSearch v (idxKey i) path depth pte mp ++
      processElemsWithSearch rest (i + 1) path depth pte mp
end

/-- The `expandedNodes.forEach` loop that records match indices. -/
def matchIndicesOf (en : List JsonNode) (i : Nat) (mp : List String) :
    List Nat :=
  match en with
  | [] => []
  | n :: rest =>
    if mp.any (· == n.path) then i :: matchIndicesOf rest (i + 1) mp
    else matchIndicesOf rest (i + 1) mp

/-- `JsonParser.searchNodes`. -/
def searchNodes (nodes : List JsonNode) (query : String)
    (caseSensitive : Bool) : List JsonNode × List Nat :=
  if jsTrim query = "" then (nodes, [])
  else
    match nodes.find? (fun n => n.key == "root") with
    | none => (nodes, [])
    | some rootNode =>
      let sq := if caseSensitive then query else lowerStr query
      let mp := findMatchingPaths rootNode.value "root" "" sq caseSensitive []
      if mp.isEmpty then (nodes, [])
      else
        let pte := buildPathsToExpand mp
        let en := processValueWithSearch rootNode.value "root" "" 0 pte mp
        (en, matchIndicesOf en 0 mp)

/-- `JsonParser.getStats` (a copy of the current stats field). -/
def getStats (st : JsonStats) : JsonStats := st

/-- `searchNodes` viewed as a method of the stateful class: it never reads
or writes `this.stats`, so the state passes through unchanged. -/
def searchNodesStateful (nodes : List JsonNode) (query : String)
    (caseSensitive : Bool) (st : JsonStats) :
    (List JsonNode × List Nat) × JsonStats :=
  (searchNodes nodes query caseSensitive, st)

/-- `expandAllNodes` viewed as a method of the stateful class. -/
def expandAllNodesStateful (nodes : List JsonNode) (st : JsonStats) :
    List JsonNode × JsonStats :=
  (expandAllNodes nodes, st)

/-! ## The external path resolver (`JsonTableView.getValueFromPath`)

Only the path-grammar part (prefix strip and tokenization loop) is
embedded; the claims are about the grammar it accepts. -/

/-- Loop state of the character scan of `getValueFromPath`. -/
structure TokState where
  parts : List String
  cur : List Char
  inBrackets : Bool
  deriving DecidableEq, Repr

/-- One step of the `for` loop over the clean path characters. -/
def tokStep (s : TokState) (c : Char) : TokState :=
  if c = '[' then
    { parts := if s.cur.isEmpty then s.parts else s.parts ++ [⟨s.cur⟩]
      cur := []
      inBrackets := true }
  else if c = ']' then
    if s.inBrackets && !s.cur.isEmpty then
      { parts := s.parts ++ [⟨s.cur⟩], cur := [], inBrackets := false }
    else
      { parts := s.parts, cur := s.cur, inBrackets := false }
  else if c = '.' && !s.inBrackets then
    { parts := if s.cur.isEmpty then s.parts else s.parts ++ [⟨s.cur⟩]
      cur := []
      inBrackets := s.inBrackets }
  else
    { parts := s.parts, cur := s.cur ++ [c], inBrackets := s.inBrackets }

/-- The tokenization loop of `getValueFromPath` on the already
root-stripped path. -/
def tokenizePath (cleanPath : String) : List String :=
  let s := cleanPath.data.foldl tokStep ⟨[], [], false⟩
  s.parts ++ (if s.cur.isEmpty then [] else [(⟨s.cur⟩ : String)])

/-- The path-grammar part of `getValueFromPath`: `none` encodes the early
returns that yield the root data itself. -/
def resolveTokens (path : String) : Option (List String) :=
  if path = "" || path = "root" then none
  else
    let cleanPath := if strHasLead path "root." then (⟨path.data.drop 5⟩ : String) else path
    if cleanPath = "" then none
    else some (tokenizePath cleanPath)

example : tokenizePath "users.[2].name" = ["users", "2", "name"] := by decide
example : tokenizePath "users[2].name" = ["users", "2", "name"] := by decide
example :
    (convertToNodes (jsonArrOf [.null]) "root").1.map (fun n => n.path) =
      ["root", "root.[0]"] := by decide

/-! ## The strict JSON parse collaborator -/

/-- JSON whitespace accepted by the strict grammar. -/
def jsonWS (c : Char) : Bool :=
  c == ' ' || c == '\t' || c == '\n' || c == '\r'

/-- Skip JSON whitespace. -/
def skipWS (s : List Char) : List Char := s.dropWhile jsonWS

/-- Value of one hex digit. -/
def hexVal (c : Char) : Option Nat :=
  if c.isDigit then some (c.toNat - 48)
  else if 'a' ≤ c && c ≤ 'f' then some (c.toNat - 87)
  else if 'A' ≤ c && c ≤ 'F' then some (c.toNat - 70)
  else none

/-- Scan a JSON string body after the opening quote; strict about raw
control characters and escape forms, like `JSON.parse`. -/
def scanStringBody : Nat → List Char → List Char → Except String (String × List Char)
  | 0, _, _ => .error "Internal scan limit reached"
  | _ + 1, acc, '"' :: rest => .ok (⟨acc.reverse⟩, rest)
  | fuel + 1, acc, '\\' :: e :: rest =>
    match e with
    | '"' => scanStringBody fuel ('"' :: acc) rest
    | '\\' => scanStringBody fuel ('\\' :: acc) rest
    | '/' => scanStringBody fuel ('/' :: acc) rest
    | 'b' => scanStringBody fuel (Char.ofNat 8 :: acc) rest
    | 'f' => scanStringBody fuel (Char.ofNat 12 :: acc) rest
    | 'n' => scanStringBody fuel ('\n' :: acc) rest
    | 'r' => scanStringBody fuel ('\r' :: acc) rest
    | 't' => scanStringBody fuel ('\t' :: acc) rest
    | 'u' =>
      match rest with
      | h1 :: h2 :: h3 :: h4 :: rest2 =>
        match hexVal h1, hexVal h2, hexVal h3, hexVal h4 with
        | some a, some b, some c, some d =>
          scanStringBody fuel (Char.ofNat (a * 4096 + b * 256 + c * 16 + d) :: acc) rest2
        | _, _, _, _ => .error "Bad Unicode escape in JSON"
      | _ => .error "Bad Unicode escape in JSON"
    | _ => .error "Bad escaped character in JSON"
  | _ + 1, _, '\\' :: [] => .error "Unexpected end of JSON input"
  | fuel + 1, acc, c :: rest =>
    if c.toNat < 32 then .error "Unexpected control character in JSON string"
    else scanStringBody fuel (c :: acc) rest
  | _ + 1, _, [] => .error "Unexpected end of JSON input"

/-- Leading digit run of a character list. -/
def digitRun (s : List Char) : List Char × List Char :=
  (s.takeWhile Char.isDigit, s.dropWhile Char.isDigit)

/-- Scan a strict JSON number token (`-?(0|[1-9][0-9]*)(.[0-9]+)?([eE][+-]?[0-9]+)?`). -/
def scanNumberTok (s : List Char) : Option (List Char × List Char) :=
  let sgn : List Char × List Char :=
    match s with
    | '-' :: r => (['-'], r)
    | _ => ([], s)
  match sgn.2 with
  | '0' :: r =>
    match r with
    | c :: _ =>
      if c.isDigit then none
      else scanNumberTail (sgn.1 ++ ['0']) r
    | [] => scanNumberTail (sgn.1 ++ ['0']) []
  | c :: r =>
    if c.isDigit then
      let d := digitRun (c :: r)
      scanNumberTail (sgn.1 ++ d.1) d.2
    else none
  | [] => none
where
  scanNumberTail (acc : List Char) (s : List Char) : Option (List Char × List Char) :=
    let withFrac : Option (List Char × List Char) :=
      match s with
      | '.' :: r =>
        let d := digitRun r
        if d.1.isEmpty then none else some (acc ++ '.' :: d.1, d.2)
      | _ => some (acc, s)
    match withFrac with
    | none => none
    | some fr =>
      match fr.2 with
      | e :: r =>
        if e == 'e' || e == 'E' then
          let sgn2 : List Char × List Char :=
            match r with
            | '+' :: r2 => (['+'], r2)
            | '-' :: r2 => (['-'], r2)
            | _ => ([], r)
          let d := digitRun sgn2.2
          if d.1.isEmpty then none else some (fr.1 ++ e :: sgn2.1 ++ d.1, d.2)
        else some fr
      | [] => some fr

/-- Append one element at the end of an element list. -/
def elemsAppend : JsonElems → JsonValue → JsonElems
  | .nil, v => .cons v .nil
  | .cons w r, v => .cons w (elemsAppend r v)

/-- Insert an object member with `JSON.parse` duplicate-key semantics
(a later duplicate overwrites in place). -/
def objInsert : JsonFields → String → JsonValue → JsonFields
  | .nil, k, v => .cons k v .nil
  | .cons k' v' r, k, v =>
    if k' = k then .cons k' v r else .cons k' v' (objInsert r k v)

mutual
/-- Modelled from the spec: the strict JSON parse step performed by the
external `json-parse-even-better-errors` collaborator (not part of this
repository; the spec describes it as a standard strict JSON parser).
Fuel-indexed recursive descent over the character list. -/
def parseVal : Nat → List Char → Except String (JsonValue × List Char)
  | 0, _ => .error "Internal scan limit reached"
  | fuel + 1, s =>
    match skipWS s with
    | [] => .error "Unexpected end of JSON input"
    | '{' :: rest =>
      match skipWS rest with
      | '}' :: rest2 => .ok (.obj .nil, rest2)
      | _ => match parseMembers fuel rest .nil with
        | .ok fv => .ok (.obj fv.1, fv.2)
        | .error e => .error e
    | '[' :: rest =>
      match skipWS rest with
      | ']' :: rest2 => .ok (.arr .nil, rest2)
      | _ => match parseItems fuel rest .nil with
        | .ok ev => .ok (.arr ev.1, ev.2)
        | .error e => .error e
    | '"' :: rest =>
      match scanStringBody (fuel + 1) [] rest with
      | .ok sv => .ok (.str sv.1, sv.2)
      | .error e => .error e
    | 't' :: rest =>
      if listHasLead rest ['r', 'u', 'e'] then .ok (.boolean true, rest.drop 3)
      else .error "Unexpected token in JSON"
    | 'f' :: rest =>
      if listHasLead rest ['a', 'l', 's', 'e'] then .ok (.boolean false, rest.drop 4)
      else .error "Unexpected token in JSON"
    | 'n' :: rest =>
      if listHasLead rest ['u', 'l', 'l'] then .ok (.null, rest.drop 3)
      else .error "Unexpected token in JSON"
    | s2 =>
      match scanNumberTok s2 with
      | some tr => .ok (.num ⟨tr.1⟩, tr.2)
      | none => .error "Unexpected token in JSON at position"
/-- Object member list after `{` or after a comma. -/
def parseMembers : Nat → List Char → JsonFields →
    Except String (JsonFields × List Char)
  | 0, _, _ => .error "Internal scan limit reached"
  | fuel + 1, s, acc =>
    match skipWS s with
    | '"' :: rest =>
      match scanStringBody (fuel + 1) [] rest with
      | .error e => .error e
      | .ok kr =>
        match skipWS kr.2 with
        | ':' :: rest2 =>
          match parseVal fuel rest2 with
          | .error e => .error e
          | .ok vr =>
            let acc2 := objInsert acc kr.1 vr.1
            match skipWS vr.2 with
            | ',' :: rest3 => parseMembers fuel rest3 acc2
            | '}' :: rest3 => .ok (acc2, rest3)
            | _ => .error "Expected \x27,\x27 or \x27\x7d\x27 after property value in JSON"
        | _ => .error "Expected \x27:\x27 after property name in JSON"
    | _ => .error "Expected property name or \x27\x7d\x27 in JSON"
/-- Array item list after `[` or after a comma. -/
def parseItems : Nat → List Char → JsonElems →
    Except String (JsonElems × List Char)
  | 0, _, _ => .error "Internal scan limit reached"
  | fuel + 1, s, acc =>
    match parseVal fuel s with
    | .error e => .error e
    | .ok vr =>
      let acc2 := elemsAppend acc vr.1
      match skipWS vr.2 with
      | ',' :: rest => parseItems fuel rest acc2
      | ']' :: rest => .ok (acc2, rest)
      | _ => .error "Expected \x27,\x27 or \x27]\x27 after array element in JSON"
end

/-- Modelled from the spec: the whole strict parse (a value followed by
only whitespace), standing in for the external strict JSON parser. -/
def strictParse (text : String) : Except String JsonValue :=
  match parseVal (text.length + 16) text.data with
  | .error e => .error e
  | .ok vr =>
    if (skipWS vr.2).isEmpty then .ok vr.1
    else .error "Unexpected non-whitespace character after JSON"

/-! ## Stage-1 cleaning (`cleanJsonString`)

Each regex `replace` of the source is embedded as a left-to-right scan
with the single-pass, continue-after-match semantics of a JS global
replace.  The fuel argument of a scanner is a structural-recursion
device; one unit per consumed character always suffices. -/

/-- Global replace of an escaped quote by a quote. -/
def replaceEscQuote : List Char → List Char
  | [] => []
  | '\\' :: '"' :: r => '"' :: replaceEscQuote r
  | c :: r => c :: replaceEscQuote r

/-- Global replace of a doubled backslash by a single one. -/
def replaceEscBackslash : List Char → List Char
  | [] => []
  | '\\' :: '\\' :: r => '\\' :: replaceEscBackslash r
  | c :: r => c :: replaceEscBackslash r

/-- Scanner for the quote-run collapse (a run of two or more quotes is
replaced by a single quote; JS `replace` of a `"{2,}` class). -/
def collapseQuotesGo : Nat → List Char → List Char
  | 0, s => s
  | _ + 1, [] => []
  | fuel + 1, c :: r =>
    if c == '"' then '"' :: collapseQuotesGo fuel (r.dropWhile (· == '"'))
    else c :: collapseQuotesGo fuel r

/-- The quote-run collapse pass. -/
def collapseQuotes (s : List Char) : List Char :=
  collapseQuotesGo (s.length + 1) s

/-- Generic split on one character (keeps empty pieces). -/
def splitChAux (sep : Char) : List Char → List Char → List (List Char)
  | [], cur => [cur.reverse]
  | c :: rest, cur =>
    if c = sep then cur.reverse :: splitChAux sep rest []
    else splitChAux sep rest (c :: cur)

/-- Split a character list into newline-separated lines. -/
def splitNL (s : List Char) : List (List Char) := splitChAux '\n' s []

/-- Rejoin lines with newlines. -/
def joinNL : List (List Char) → List Char
  | [] => []
  | [l] => l
  | l :: rest => l ++ '\n' :: joinNL rest

/-- ECMAScript LineTerminator: LF, CR, LS (U+2028) or PS (U+2029).  Both
the dot of a regex (without the `s` flag) and the multiline `$` treat
exactly these four characters as line boundaries. -/
def jsLineTerm (c : Char) : Bool :=
  c == '\n' || c == '\r' || c == Char.ofNat 8232 || c == Char.ofNat 8233

/-- The scan of the line-comment strip.  In `/\/\/.*$/gm` the greedy dot
run stops just before the next LineTerminator (or the end of the input),
where the multiline `$` then holds, so every `//` starts a match and the
text from the `//` up to — but not including — the next LineTerminator is
removed; scanning resumes at the terminator. -/
def stripLineCommentGo : Nat → List Char → List Char
  | 0, s => s
  | _ + 1, [] => []
  | fuel + 1, '/' :: '/' :: r =>
    stripLineCommentGo fuel (r.dropWhile (fun c => !jsLineTerm c))
  | fuel + 1, c :: r => c :: stripLineCommentGo fuel r

/-- The single-line-comment removal pass, JS `replace(/\/\/.*$/gm, "")`. -/
def stripLineComments (s : List Char) : List Char :=
  stripLineCommentGo (s.length + 1) s

/-- Rest of the input after the closing `*/` of a block comment, when the
lazy match finds one. -/
def findStarSlash : List Char → Option (List Char)
  | [] => none
  | '*' :: '/' :: r => some r
  | _ :: r => findStarSlash r

/-- Scanner for the block-comment removal. -/
def stripBlockCommentsGo : Nat → List Char → List Char
  | 0, s => s
  | _ + 1, [] => []
  | fuel + 1, '/' :: '*' :: r =>
    match findStarSlash r with
    | some rest => stripBlockCommentsGo fuel rest
    | none => '/' :: stripBlockCommentsGo fuel ('*' :: r)
  | fuel + 1, c :: r => c :: stripBlockCommentsGo fuel r

/-- The block-comment removal pass. -/
def stripBlockComments (s : List Char) : List Char :=
  stripBlockCommentsGo (s.length + 1) s

/-- Scanner for the trailing-comma removal (a comma, optional whitespace,
then a closing brace or bracket loses the comma). -/
def removeTrailingCommasGo : Nat → List Char → List Char
  | 0, s => s
  | _ + 1, [] => []
  | fuel + 1, ',' :: r =>
    let w := r.takeWhile jsWhitespace
    match r.dropWhile jsWhitespace with
    | c :: r2 =>
      if c == '}' || c == ']' then w ++ c :: removeTrailingCommasGo fuel r2
      else ',' :: removeTrailingCommasGo fuel r
    | [] => ',' :: removeTrailingCommasGo fuel r
  | fuel + 1, c :: r => c :: removeTrailingCommasGo fuel r

/-- The trailing-comma removal pass. -/
def removeTrailingCommas (s : List Char) : List Char :=
  removeTrailingCommasGo (s.length + 1) s

/-- Character-range test on code points. -/
def inRange (c : Char) (lo hi : Nat) : Bool :=
  lo ≤ c.toNat && c.toNat ≤ hi

/-- The control characters removed by the Stage-1 strip
(all of C0 except newline and tab, plus DEL and C1). -/
def isStripCtl (c : Char) : Bool :=
  inRange c 0x00 0x08 || inRange c 0x0B 0x0C || inRange c 0x0E 0x1F ||
  inRange c 0x7F 0x9F

/-- The Stage-1 control-character strip. -/
def stripControlChars (s : List Char) : List Char :=
  s.filter (fun c => !isStripCtl c)

/-- Terminator class of the bare-URL pattern (the complement of the
source's `[^\s,"}\]]`). -/
def urlTermChar (c : Char) : Bool :=
  jsWhitespace c || c == ',' || c == '"' || c == '}' || c == ']'

/-- Recognize the literal scheme `https://` or `http://`. -/
def urlScheme (s : List Char) : Option (List Char × List Char) :=
  if listHasLead s ("https://".data) then some ("https://".data, s.drop 8)
  else if listHasLead s ("http://".data) then some ("http://".data, s.drop 7)
  else none

/-- Scanner for the bare-URL quoting (a colon, whitespace, then an
unquoted `http(s)://...` token is quoted; the replacement writes a single
space after the colon). -/
def quoteUrlsGo : Nat → List Char → List Char
  | 0, s => s
  | _ + 1, [] => []
  | fuel + 1, ':' :: r =>
    let r1 := r.dropWhile jsWhitespace
    match urlScheme r1 with
    | some sr =>
      let run := sr.2.takeWhile (fun c => !urlTermChar c)
      if run.isEmpty then ':' :: quoteUrlsGo fuel r
      else
        ':' :: ' ' :: '"' :: (sr.1 ++ run ++ '"' :: quoteUrlsGo fuel (sr.2.drop run.length))
    | none => ':' :: quoteUrlsGo fuel r
  | fuel + 1, c :: r => c :: quoteUrlsGo fuel r

/-- The bare-URL quoting pass. -/
def quoteUrls (s : List Char) : List Char :=
  quoteUrlsGo (s.length + 1) s

/-- Local-part class of the bare-email pattern. -/
def emailLocalChar (c : Char) : Bool :=
  c.isAlpha || c.isDigit || c == '.' || c == '_' || c == '%' || c == '+' || c == '-'

/-- Domain class of the bare-email pattern. -/
def emailDomChar (c : Char) : Bool :=
  c.isAlpha || c.isDigit || c == '.' || c == '-'

/-- Lookahead `\s*` followed by one of the given closers. -/
def lookaheadCloser (s : List Char) (closers : List Char) : Bool :=
  match s.dropWhile jsWhitespace with
  | [] => false
  | c :: _ => closers.contains c

/-- A domain run is acceptable when it ends in a dot followed by at least
two letters (the backtracking of `[a-zA-Z0-9.-]+\.[a-zA-Z]{2,}` settles on
the trailing letter run). -/
def domainOk (dom : List Char) : Bool :=
  let revd := dom.reverse
  let tld := revd.takeWhile Char.isAlpha
  decide (2 ≤ tld.length) &&
    (match revd.drop tld.length with
     | '.' :: _ => true
     | _ => false)

/-- Scanner for the bare-email quoting. -/
def quoteEmailsGo : Nat → List Char → List Char
  | 0, s => s
  | _ + 1, [] => []
  | fuel + 1, ':' :: r =>
    let r1 := r.dropWhile jsWhitespace
    let loc := r1.takeWhile emailLocalChar
    (match r1.drop loc.length with
     | '@' :: r3 =>
       let dom := r3.takeWhile emailDomChar
       if !loc.isEmpty && !dom.isEmpty && domainOk dom &&
           lookaheadCloser (r3.drop dom.length) [',', '}', ']'] then
         ':' :: ' ' :: '"' :: (loc ++ '@' :: dom ++ '"' :: quoteEmailsGo fuel (r3.drop dom.length))
       else ':' :: quoteEmailsGo fuel r
     | _ => ':' :: quoteEmailsGo fuel r)
  | fuel + 1, c :: r => c :: quoteEmailsGo fuel r

/-- The bare-email quoting pass. -/
def quoteEmails (s : List Char) : List Char :=
  quoteEmailsGo (s.length + 1) s

/-- Scanner for quoting the argument of `@import url(...)`. -/
def quoteImportUrlGo : Nat → List Char → List Char
  | 0, s => s
  | _ + 1, [] => []
  | fuel + 1, s@(c :: r) =>
    if listHasLead s ("@import".data) then
      let afterImp := s.drop 7
      let w := afterImp.takeWhile jsWhitespace
      let r1 := afterImp.dropWhile jsWhitespace
      if !w.isEmpty && listHasLead r1 ("url(".data) then
        let r2 := r1.drop 4
        let content := r2.takeWhile (· ≠ ')')
        match r2.drop content.length with
        | ')' :: r3 =>
          if content.isEmpty then c :: quoteImportUrlGo fuel r
          else
            ("@import".data ++ w ++ "url(".data ++ '"' :: content ++ '"' :: ')' ::
              quoteImportUrlGo fuel r3)
        | _ => c :: quoteImportUrlGo fuel r
      else c :: quoteImportUrlGo fuel r
    else c :: quoteImportUrlGo fuel r

/-- The `@import url(...)` quoting pass. -/
def quoteImportUrl (s : List Char) : List Char :=
  quoteImportUrlGo (s.length + 1) s

/-- Value class of the `src=`/`href=`/`url(` pattern
(the complement of `[^"'\s>,}]`). -/
def srcPathChar (c : Char) : Bool :=
  !(c == '"' || c == Char.ofNat 39 || jsWhitespace c || c == '>' || c == ',' || c == '}')

/-- Recognize one of the attribute lead-ins `src=`, `href=`, `url(`. -/
def srcAttrLead (s : List Char) : Option (List Char × List Char) :=
  if listHasLead s ("src=".data) then some ("src=".data, s.drop 4)
  else if listHasLead s ("href=".data) then some ("href=".data, s.drop 5)
  else if listHasLead s ("url(".data) then some ("url(".data, s.drop 4)
  else none

/-- Best split of the value run: index of the last dot that is followed by
an alphanumeric character (the backtracking choice of
`[^"'\s>,}]+\.[a-zA-Z0-9]+` with a greedy first run). -/
def lastDotAlnumIdx (y : List Char) : Option Nat :=
  let idxs := (List.range y.length).filter (fun k =>
    y.get? k == some '.' &&
      (match y.get? (k + 1) with
       | some c => c.isAlphanum
       | none => false) && decide (1 ≤ k))
  idxs.getLast?

/-- Scanner for the file-path quoting after `src=`, `href=` or `url(`
(the replacement drops the whitespace, which is outside both groups). -/
def quoteSrcPathsGo : Nat → List Char → List Char
  | 0, s => s
  | _ + 1, [] => []
  | fuel + 1, s@(c :: r) =>
    match srcAttrLead s with
    | some pr =>
      let r1 := pr.2.dropWhile jsWhitespace
      let y := r1.takeWhile srcPathChar
      (match lastDotAlnumIdx y with
       | some k =>
         let b := ((y.drop (k + 1)).takeWhile Char.isAlphanum)
         (pr.1 ++ '"' :: (y.take k ++ '.' :: b ++ ['"'])) ++
           quoteSrcPathsGo fuel (r1.drop (k + 1 + b.length))
       | none => c :: quoteSrcPathsGo fuel r)
    | none => c :: quoteSrcPathsGo fuel r

/-- The file-path quoting pass. -/
def quoteSrcPaths (s : List Char) : List Char :=
  quoteSrcPathsGo (s.length + 1) s

/-- Hex-digit class of the color pattern. -/
def hexChar (c : Char) : Bool :=
  c.isDigit || ('a' ≤ c && c ≤ 'f') || ('A' ≤ c && c ≤ 'F')

/-- Scanner for the six-hex-digit color quoting. -/
def quoteColorsGo : Nat → List Char → List Char
  | 0, s => s
  | _ + 1, [] => []
  | fuel + 1, ':' :: r =>
    let r1 := r.dropWhile jsWhitespace
    let hex6 := r1.take 6
    if decide (hex6.length = 6) && hex6.all hexChar &&
        lookaheadCloser (r1.drop 6) [';', '"', '}', ']'] then
      ':' :: ' ' :: '"' :: (hex6 ++ '"' :: quoteColorsGo fuel (r1.drop 6))
    else ':' :: quoteColorsGo fuel r
  | fuel + 1, c :: r => c :: quoteColorsGo fuel r

/-- The color quoting pass. -/
def quoteColors (s : List Char) : List Char :=
  quoteColorsGo (s.length + 1) s

/-- Identifier-token class of the bare-identifier pattern. -/
def identChar (c : Char) : Bool :=
  c.isAlpha || c.isDigit || c == '.' || c == '_' || c == '-'

/-- The callback's numeric-literal test (`^\d+(\.\d+)?$`). -/
def isNumLit (v : List Char) : Bool :=
  let ds := v.takeWhile Char.isDigit
  !ds.isEmpty &&
    (match v.drop ds.length with
     | [] => true
     | '.' :: r => !r.isEmpty && r.all Char.isDigit
     | _ => false)

/-- The callback's keep test: booleans, `null` and plain numbers stay bare. -/
def identKeep (v : List Char) : Bool :=
  let lv : String := ⟨v.map Char.toLower⟩
  lv == "true" || lv == "false" || lv == "null" || isNumLit v

/-- Scanner for the bare-identifier quoting (the final catch-all pass with
its keep-list callback; on keep the original matched text is written back
unchanged, on quote the whitespace is normalized to one space). -/
def quoteIdentsGo : Nat → List Char → List Char
  | 0, s => s
  | _ + 1, [] => []
  | fuel + 1, ':' :: r =>
    let w := r.takeWhile jsWhitespace
    let r1 := r.dropWhile jsWhitespace
    (match r1 with
     | c1 :: _ =>
       if c1.isAlpha then
         let run := r1.takeWhile identChar
         (match r1.drop run.length with
          | '@' :: r3 =>
            let dom := r3.takeWhile emailDomChar
            if !dom.isEmpty && domainOk dom &&
                lookaheadCloser (r3.drop dom.length) [',', '}', ']'] then
              let v := run ++ '@' :: dom
              if identKeep v then
                ':' :: (w ++ v ++ quoteIdentsGo fuel (r3.drop dom.length))
              else
                ':' :: ' ' :: '"' :: (v ++ '"' :: quoteIdentsGo fuel (r3.drop dom.length))
            else ':' :: quoteIdentsGo fuel r
          | rest =>
            if lookaheadCloser rest [',', '}', ']'] then
              if identKeep run then
                ':' :: (w ++ run ++ quoteIdentsGo fuel rest)
              else
                ':' :: ' ' :: '"' :: (run ++ '"' :: quoteIdentsGo fuel rest)
            else ':' :: quoteIdentsGo fuel r)
       else ':' :: quoteIdentsGo fuel r
     | [] => ':' :: quoteIdentsGo fuel r)
  | fuel + 1, c :: r => c :: quoteIdentsGo fuel r

/-- The bare-identifier quoting pass. -/
def quoteIdents (s : List Char) : List Char :=
  quoteIdentsGo (s.length + 1) s

/-- Scan keeping the index of the last occurrence seen so far. -/
def lastIdxOfChGo : List Char → Char → Nat → Option Nat → Option Nat
  | [], _, _, best => best
  | a :: r, c, k, best =>
    lastIdxOfChGo r c (k + 1) (if a == c then some k else best)

/-- Index of the last occurrence of a character. -/
def lastIdxOfCh (s : List Char) (c : Char) : Option Nat :=
  lastIdxOfChGo s c 0 none

/-- Scanner for the blank-line collapse (`\n\s*\n` becomes one newline). -/
def collapseBlankLinesGo : Nat → List Char → List Char
  | 0, s => s
  | _ + 1, [] => []
  | fuel + 1, '\n' :: r =>
    let w := r.takeWhile jsWhitespace
    (match lastIdxOfCh w '\n' with
     | some k => '\n' :: collapseBlankLinesGo fuel (r.drop (k + 1))
     | none => '\n' :: collapseBlankLinesGo fuel r)
  | fuel + 1, c :: r => c :: collapseBlankLinesGo fuel r

/-- The blank-line collapse pass. -/
def collapseBlankLines (s : List Char) : List Char :=
  collapseBlankLinesGo (s.length + 1) s

/-- The serialized-string unwrap at the top of `cleanJsonString`: when the
trimmed input is quote-delimited, parse it as a JSON string, and on
failure strip the outer quotes and unescape manually.  (A quote-delimited
text can only strict-parse to a string value, so the impossible non-string
success also takes the manual branch.) -/
def unwrapSerialized (cleaned : String) : String :=
  let d := cleaned.data
  let quoted :=
    (match d with
     | '"' :: _ => true
     | _ => false) &&
    (match d.getLast? with
     | some '"' => true
     | _ => false)
  if quoted then
    match strictParse cleaned with
    | .ok (.str s) => s
    | _ => ⟨replaceEscBackslash (replaceEscQuote ((d.drop 1).dropLast))⟩
  else cleaned

/-- `JsonParser.cleanJsonString`: the ordered Stage-1 rewrite pipeline. -/
def cleanJsonString (input : String) : String :=
  let cleaned := unwrapSerialized (jsTrim input)
  ⟨collapseBlankLines (quoteIdents (quoteColors (quoteSrcPaths (quoteImportUrl
    (quoteEmails (quoteUrls (stripControlChars (removeTrailingCommas
      (stripBlockComments (stripLineComments (collapseQuotes cleaned.data)))))))))))⟩

/-! ## Stage-2 cleaning (`aggressiveCleanup`) -/

/-- Quote class of the nested-quote repair. -/
def isQuoteCh (c : Char) : Bool := c == '"' || c == Char.ofNat 39

/-- Newline class refused by the JS dot. -/
def jsDotRefused (c : Char) : Bool := c == '\n' || c == '\r'

/-- First occurrence of the closing quote with no newline before it
(the lazy dot run of the nested-quote patterns); returns the content and
the rest after the close. -/
def findCloseNoNL (q : Char) : List Char → Option (List Char × List Char)
  | [] => none
  | c :: r =>
    if c == q then some ([], r)
    else if jsDotRefused c then none
    else (findCloseNoNL q r).map (fun p => (c :: p.1, p.2))

/-- Escape every double quote (first inner replace of the callback). -/
def escQuoteDouble (s : List Char) : List Char :=
  s.foldr (fun c acc => if c == '"' then '\\' :: '"' :: acc else c :: acc) []

/-- Escape every single quote (second inner replace of the callback). -/
def escQuoteSingle (s : List Char) : List Char :=
  s.foldr (fun c acc => if c == Char.ofNat 39 then '\\' :: Char.ofNat 39 :: acc else c :: acc) []

/-- The inner replace applied to one outer match of the nested-quote
repair: every lazily quote-delimited piece has its content re-escaped. -/
def innerQuoteFixGo : Nat → List Char → List Char
  | 0, s => s
  | _ + 1, [] => []
  | fuel + 1, c :: r =>
    if isQuoteCh c then
      match findCloseNoNL c r with
      | some p => c :: (escQuoteSingle (escQuoteDouble p.1) ++ c :: innerQuoteFixGo fuel p.2)
      | none => c :: innerQuoteFixGo fuel r
    else c :: innerQuoteFixGo fuel r

/-- The outer scan of the nested-quote repair: each lazily quote-delimited
run of length at least one gets the inner replace. -/
def nestedQuoteFixGo : Nat → List Char → List Char
  | 0, s => s
  | _ + 1, [] => []
  | fuel + 1, c :: r =>
    if isQuoteCh c then
      match r with
      | c1 :: t2 =>
        if jsDotRefused c1 then c :: nestedQuoteFixGo fuel r
        else
          match findCloseNoNL c t2 with
          | some p =>
            innerQuoteFixGo (r.length + 3) (c :: c1 :: (p.1 ++ [c])) ++
              nestedQuoteFixGo fuel p.2
          | none => c :: nestedQuoteFixGo fuel r
      | [] => [c]
    else c :: nestedQuoteFixGo fuel r

/-- The nested-quote repair pass. -/
def nestedQuoteFix (s : List Char) : List Char :=
  nestedQuoteFixGo (s.length + 1) s

/-- Scanner for the missing-comma repair between adjacent quoted lines
(`"` `\s*`-with-newline `"` becomes `",\n    "`). -/
def commaBetweenStringsGo : Nat → List Char → List Char
  | 0, s => s
  | _ + 1, [] => []
  | fuel + 1, '"' :: r =>
    let w := r.takeWhile jsWhitespace
    if w.contains '\n' then
      match r.drop w.length with
      | '"' :: r2 =>
        '"' :: ',' :: '\n' :: ' ' :: ' ' :: ' ' :: ' ' :: '"' ::
          commaBetweenStringsGo fuel r2
      | _ => '"' :: commaBetweenStringsGo fuel r
    else '"' :: commaBetweenStringsGo fuel r
  | fuel + 1, c :: r => c :: commaBetweenStringsGo fuel r

/-- The missing-comma repair between adjacent quoted lines. -/
def commaBetweenStrings (s : List Char) : List Char :=
  commaBetweenStringsGo (s.length + 1) s

/-- Scanner for the missing-comma repair between adjacent objects
(`}` `\s*`-with-newline `{` becomes `},\n    {`). -/
def commaBetweenObjectsGo : Nat → List Char → List Char
  | 0, s => s
  | _ + 1, [] => []
  | fuel + 1, '}' :: r =>
    let w := r.takeWhile jsWhitespace
    if w.contains '\n' then
      match r.drop w.length with
      | '{' :: r2 =>
        '}' :: ',' :: '\n' :: ' ' :: ' ' :: ' ' :: ' ' :: '{' ::
          commaBetweenObjectsGo fuel r2
      | _ => '}' :: commaBetweenObjectsGo fuel r
    else '}' :: commaBetweenObjectsGo fuel r
  | fuel + 1, c :: r => c :: commaBetweenObjectsGo fuel r

/-- The missing-comma repair between adjacent objects. -/
def commaBetweenObjects (s : List Char) : List Char :=
  commaBetweenObjectsGo (s.length + 1) s

/-- The final aggressive strip: all of C0, DEL and everything up to U+00FF
above DEL. -/
def isAggressiveStrip (c : Char) : Bool :=
  inRange c 0x00 0x08 || inRange c 0x0B 0x0C || inRange c 0x0E 0x1F ||
  inRange c 0x7F 0xFF

/-- `JsonParser.aggressiveCleanup`: BOM strip, full control strip, nested
quote repair, adjacency comma repairs, final character strip. -/
def aggressiveCleanup (input : String) : String :=
  let c0 := input.data
  let c1 :=
    match c0 with
    | b :: r => if b == Char.ofNat 0xFEFF then r else c0
    | [] => c0
  let c2 := c1.filter (fun ch => !(inRange ch 0x00 0x1F || inRange ch 0x7F 0x9F))
  let c3 := nestedQuoteFix c2
  let c4 := commaBetweenStrings c3
  let c5 := commaBetweenObjects c4
  ⟨c5.filter (fun ch => !isAggressiveStrip ch)⟩

/-! ## Stage-3 extraction (`extractJsonFromString`) -/

/-- Scan for the index of the first occurrence, carrying the offset. -/
def idxOfChGo : List Char → Char → Nat → Option Nat
  | [], _, _ => none
  | a :: r, c, k => if a == c then some k else idxOfChGo r c (k + 1)

/-- Index of the first occurrence of a character. -/
def idxOfCh (s : List Char) (c : Char) : Option Nat :=
  idxOfChGo s c 0

/-- The span matched by a greedy `/\{[\s\S]*\}/`-style pattern: from the
first opener that still has a closer after it (equivalently the first
opener when it sits before the last closer) to the last closer. -/
def firstLastSpan (s : List Char) (o c : Char) : Option (List Char) :=
  match idxOfCh s o, lastIdxOfCh s c with
  | some i, some j => if i < j then some ((s.drop i).take (j - i + 1)) else none
  | _, _ => none

/-- `JsonParser.extractJsonFromString`: brace span first, bracket span as
fallback, each run through the Stage-1 cleaning. -/
def extractJsonFromString (input : String) : Option String :=
  match firstLastSpan input.data '{' '}' with
  | some span => some (cleanJsonString ⟨span⟩)
  | none =>
    match firstLastSpan input.data '[' ']' with
    | some span => some (cleanJsonString ⟨span⟩)
    | none => none

/-! ## The error locator -/

/-- Rest of a character list after the first occurrence of a given run. -/
def dropAfterSub : List Char → List Char → Option (List Char)
  | [], sub => if listHasLead [] sub then some [] else none
  | s@(_ :: r), sub =>
    if listHasLead s sub then some (s.drop sub.length)
    else dropAfterSub r sub

/-- Ordered containment of several literal runs (the gaps play the role of
the `.*` pieces of the source's error-message patterns; the messages at
play are single-line, where the two coincide). -/
def seqContains : List Char → List (List Char) → Bool
  | _, [] => true
  | s, p :: ps =>
    match dropAfterSub s p with
    | some r => seqContains r ps
    | none => false

/-- One pattern test of the friendly-message table (`ci` is the `/i` flag). -/
def msgTest (ci : Bool) (parts : List String) (msg : String) : Bool :=
  let m := if ci then (lowerStr msg).data else msg.data
  seqContains m (parts.map (fun p => if ci then (lowerStr p).data else p.data))

/-- The ordered pattern-to-message table of `getFriendlyErrorMessage`. -/
def errorMappings : List ((Bool × List String) × String) :=
  [((true, ["unexpected token", "in json at position"]),
    "Invalid character found - possibly escaped JSON string, unquoted URLs, or control characters"),
   ((true, ["unexpected end of json input"]),
    "JSON appears to be incomplete - missing closing brackets or quotes"),
   ((true, ["expected property name or \x27\x7d\x27"]),
    "Missing property name or invalid object syntax - property names must be quoted"),
   ((true, ["expected \x27,\x27 or \x27\x7d\x27"]),
    "Missing comma between object properties"),
   ((true, ["unterminated string"]),
    "String is missing closing quote"),
   ((true, ["expected \x27,\x27 or \x27]\x27"]),
    "Missing comma between array elements"),
   ((true, ["trailing comma"]),
    "Remove the trailing comma"),
   ((true, ["unexpected token", ","]),
    "Trailing comma is not allowed in JSON"),
   ((true, ["unexpected token", "position", ","]),
    "Trailing comma found - JSON doesn\x27t allow trailing commas"),
   ((true, ["duplicate", "key"]),
    "Duplicate property names are not allowed"),
   ((true, ["control character"]),
    "Invalid control characters found - these have been automatically removed"),
   ((true, ["unterminated string"]),
    "String is missing closing quote - possibly escaped JSON string"),
   ((false, ["unexpected token \x27\x2f\x27"]),
    "JSON does not support comments. Please remove \x2f\x2f or \x2f* *\x2f comments"),
   ((true, ["invalid character"]),
    "Invalid characters detected - URLs and emails must be quoted"),
   ((true, ["unexpected token"]),
    "Unexpected character found - check for invalid characters or syntax")]

/-- `JsonParser.getFriendlyErrorMessage`: first matching pattern wins. -/
def getFriendlyErrorMessage (message : String) : String :=
  match errorMappings.find? (fun e => msgTest e.1.1 e.1.2 message) with
  | some e => e.2
  | none =>
    "Invalid JSON format - this may be an escaped JSON string or API response with formatting issues. Automatic cleanup attempted."

/-- Trim of a raw character list (both ends, JS whitespace). -/
def trimList (l : List Char) : List Char :=
  ((l.dropWhile jsWhitespace).reverse.dropWhile jsWhitespace).reverse

/-- Last character test. -/
def endsWithCh (l : List Char) (c : Char) : Bool :=
  l.getLast? == some c

/-- `JsonParser.getPositionFromLineColumn` (1-based line and column to a
0-based offset, clamped to the input length). -/
def getPositionFromLineColumn (input : List Char) (line col : Nat) : Nat :=
  let lines := splitNL input
  let base := (((lines.take (line - 1)).map (fun l => l.length + 1)).foldl (· + ·) 0)
  min (base + (col - 1)) input.length

/-- Line/column (1-based) of a 0-based offset, computed the way the
source does it: split the text before the offset on newlines. -/
def lineColAt (input : List Char) (j : Nat) : Int × Int :=
  let ls := splitNL (input.take j)
  ((ls.length : Int), (((ls.getLast?.getD []).length + 1 : Nat) : Int))

/-- The per-line quote scan of Strategy 0 of `findErrorLocationManually`:
returns the `inString` flag and the recorded string start column. -/
def lineQuoteScanGo : List Char → Nat → Bool → Option Nat → Bool →
    Bool × Option Nat
  | [], _, inS, start, _ => (inS, start)
  | c :: r, col, inS, start, esc =>
    if esc then lineQuoteScanGo r (col + 1) inS start false
    else if c == '\\' then lineQuoteScanGo r (col + 1) inS start true
    else if c == '"' then
      if !inS then lineQuoteScanGo r (col + 1) true (some col) false
      else lineQuoteScanGo r (col + 1) false none false
    else lineQuoteScanGo r (col + 1) inS start false

/-- Strategy 0: an unterminated string on a line whose successor does not
continue it. -/
def strategy0Go (input : List Char) : List (List Char) → Nat → Option ErrorDetails
  | [], _ => none
  | line :: rest, idx =>
    let sc := lineQuoteScanGo line 0 false none false
    let hit :=
      sc.1 && sc.2.isSome &&
        !(match rest with
          | [] => false
          | nl :: _ =>
            match nl.dropWhile jsWhitespace with
            | '"' :: _ => true
            | _ => false)
    if hit then
      some ⟨some ((idx + 1 : Nat) : Int), some ((line.length + 1 : Nat) : Int),
            some ((getPositionFromLineColumn input (idx + 1) (line.length + 1) : Nat) : Int)⟩
    else strategy0Go input rest (idx + 1)

/-- Strategy 1: a line that fails to end in a comma, `{` or `[` although
the next line opens a quoted property. -/
def strategy1Go (input : List Char) : List (List Char) → Nat → Option ErrorDetails
  | [], _ => none
  | [_], _ => none
  | cur :: next :: rest, idx =>
    let ct := trimList cur
    let nt := trimList next
    let shapeOk :=
      !ct.isEmpty &&
        (match nt with
         | '"' :: _ => true
         | _ => false) && nt.contains ':'
    if shapeOk &&
        !(endsWithCh ct ',' || endsWithCh ct '{' || endsWithCh ct '[') then
      some ⟨some ((idx + 1 : Nat) : Int), some ((cur.length + 1 : Nat) : Int),
            some ((getPositionFromLineColumn input (idx + 1) (cur.length + 1) : Nat) : Int)⟩
    else strategy1Go input (next :: rest) (idx + 1)

/-- The forward scan inside `validateJsonAndFindError` checking that an
opened string is closed before a newline or the end of input. -/
def closeQuoteSearch : List Char → Bool
  | [] => false
  | '\\' :: rest =>
    match rest with
    | [] => false
    | _ :: r => closeQuoteSearch r
  | '"' :: _ => true
  | '\n' :: _ => false
  | _ :: r => closeQuoteSearch r

/-- Offset of the first non-whitespace character. -/
def firstNonWSIdx : List Char → Nat → Option Nat
  | [], _ => none
  | c :: r, k => if !jsWhitespace c then some k else firstNonWSIdx r (k + 1)

/-- The main loop of `JsonParser.validateJsonAndFindError`: line/column
tracking (updated before the checks, as in the source), string state with
escapes and an unterminated-string lookahead, and a bracket stack with
location records. -/
def vjGo : Nat → List Char → Nat → Nat → Nat → Bool → Bool →
    List (Char × Nat × Nat) → List Char → Option ErrorDetails
  | 0, _, _, _, _, _, _, _, _ => none
  | _ + 1, [], _, line, col, inS, _, stack, input =>
    match stack with
    | top :: _ => some ⟨some ((top.2.1 : Nat) : Int), some ((top.2.2 : Nat) : Int), some (-1)⟩
    | [] =>
      if inS then some ⟨some ((line : Nat) : Int), some ((col : Nat) : Int), some ((input.length : Int) - 1)⟩
      else none
  | fuel + 1, c :: r, i, line, col, inS, esc, stack, input =>
    let lc := if c == '\n' then (line + 1, 1) else (line, col + 1)
    if esc then vjGo fuel r (i + 1) lc.1 lc.2 inS false stack input
    else if c == '\\' && inS then vjGo fuel r (i + 1) lc.1 lc.2 inS true stack input
    else if c == '"' then
      if !inS then
        if closeQuoteSearch r then vjGo fuel r (i + 1) lc.1 lc.2 true false stack input
        else some ⟨some ((lc.1 : Nat) : Int), some ((lc.2 : Nat) : Int), some ((i : Nat) : Int)⟩
      else vjGo fuel r (i + 1) lc.1 lc.2 false false stack input
    else if inS then vjGo fuel r (i + 1) lc.1 lc.2 inS false stack input
    else if c == '{' || c == '[' then
      vjGo fuel r (i + 1) lc.1 lc.2 inS false ((c, lc.1, lc.2) :: stack) input
    else if c == '}' || c == ']' then
      let expected := if c == '}' then '{' else '['
      match stack with
      | [] => some ⟨some ((lc.1 : Nat) : Int), some ((lc.2 : Nat) : Int), some ((i : Nat) : Int)⟩
      | top :: stack2 =>
        if top.1 ≠ expected then
          some ⟨some ((lc.1 : Nat) : Int), some ((lc.2 : Nat) : Int), some ((i : Nat) : Int)⟩
        else
          if stack2.isEmpty then
            match firstNonWSIdx r 0 with
            | some off =>
              let j := i + 1 + off
              let l2 := lineColAt input j
              some ⟨some l2.1, some l2.2, some ((j : Nat) : Int)⟩
            | none => vjGo fuel r (i + 1) lc.1 lc.2 inS false stack2 input
          else vjGo fuel r (i + 1) lc.1 lc.2 inS false stack2 input
    else if c == ':' || c == ',' then vjGo fuel r (i + 1) lc.1 lc.2 inS false stack input
    else if !jsWhitespace c && !stack.isEmpty then
      some ⟨some ((lc.1 : Nat) : Int), some ((lc.2 : Nat) : Int), some ((i : Nat) : Int)⟩
    else vjGo fuel r (i + 1) lc.1 lc.2 inS false stack input

/-- `JsonParser.validateJsonAndFindError`. -/
def validateJsonAndFindError (input : String) : Option ErrorDetails :=
  vjGo (input.length + 1) input.data 0 1 1 false false [] input.data

/-- Strategy 3 of `findErrorLocationManually`: plain character scan for a
bracket mismatch (its line/column come from splitting the text before the
offending character). -/
def bracketScanGo : Nat → List Char → Nat → Bool → Bool → List Char →
    List Char → Option ErrorDetails
  | 0, _, _, _, _, _, _ => none
  | _ + 1, [], _, _, _, _, _ => none
  | fuel + 1, c :: r, i, inS, esc, stack, input =>
    if esc then bracketScanGo fuel r (i + 1) inS false stack input
    else if c == '\\' && inS then bracketScanGo fuel r (i + 1) inS true stack input
    else if c == '"' then bracketScanGo fuel r (i + 1) (!inS) false stack input
    else if inS then bracketScanGo fuel r (i + 1) inS false stack input
    else if c == '{' || c == '[' then
      bracketScanGo fuel r (i + 1) inS false (c :: stack) input
    else if c == '}' || c == ']' then
      let expected := if c == '}' then '{' else '['
      match stack with
      | [] =>
        let l2 := lineColAt input i
        some ⟨some l2.1, some l2.2, some ((i : Nat) : Int)⟩
      | top :: stack2 =>
        if top ≠ expected then
          let l2 := lineColAt input i
          some ⟨some l2.1, some l2.2, some ((i : Nat) : Int)⟩
        else bracketScanGo fuel r (i + 1) inS false stack2 input
    else bracketScanGo fuel r (i + 1) inS false stack input

/-- Index of the first comma directly followed (modulo whitespace) by a
closing brace or bracket (the trailing-comma scan). -/
def trailingCommaIdx : List Char → Nat → Option Nat
  | [], _ => none
  | ',' :: r, i =>
    (match r.dropWhile jsWhitespace with
     | c :: _ => if c == '}' || c == ']' then some i else trailingCommaIdx r (i + 1)
     | [] => trailingCommaIdx r (i + 1))
  | _ :: r, i => trailingCommaIdx r (i + 1)

/-- The trailing-comma strategy of `findErrorLocationManually`. -/
def trailingCommaScan (input : List Char) : Option ErrorDetails :=
  (trailingCommaIdx input 0).map (fun p =>
    let l2 := lineColAt input p
    ⟨some l2.1, some l2.2, some ((p : Nat) : Int)⟩)

/-- Literal lead of the `processingTime` pattern. -/
def ptLit : List Char := "\"processingTime\":".data

/-- Match of the `processingTime`-then-`checksum` adjacency pattern at one
position; returns the offset just after the number, which is the position
the source reports. -/
def ptMatchAt (s : List Char) : Option Nat :=
  if listHasLead s ptLit then
    let r1 := s.drop 17
    let w1 := r1.takeWhile jsWhitespace
    let r2 := r1.drop w1.length
    let d := r2.takeWhile (fun c => c.isDigit || c == '.')
    if d.isEmpty then none
    else
      let r3 := r2.drop d.length
      let w2 := r3.takeWhile jsWhitespace
      if w2.contains '\n' && listHasLead (r3.drop w2.length) ("\"checksum\"".data) then
        some (17 + w1.length + d.length)
      else none
  else none

/-- Scan for the first `processingTime` adjacency match. -/
def ptScan : List Char → Nat → Option Nat
  | [], _ => none
  | s@(_ :: r), i =>
    match ptMatchAt s with
    | some off => some (i + off)
    | none => ptScan r (i + 1)

/-- The `processingTime` strategy of `findErrorLocationManually`. -/
def processingTimeScan (input : List Char) : Option ErrorDetails :=
  (ptScan input 0).map (fun ne =>
    let l2 := lineColAt input ne
    ⟨some l2.1, some l2.2, some ((ne : Nat) : Int)⟩)

/-- `JsonParser.findErrorLocationManually`: the strategies in source
order, first hit wins (the error message argument is only logged by the
source and does not influence the result). -/
def findErrorLocationManually (input : String) (_errMsg : String) :
    Option ErrorDetails :=
  let lines := splitNL input.data
  match strategy0Go input.data lines 0 with
  | some d => some d
  | none =>
    match strategy1Go input.data lines 0 with
    | some d => some d
    | none =>
      match validateJsonAndFindError input with
      | some d => some d
      | none =>
        match bracketScanGo (input.length + 1) input.data 0 false false [] input.data with
        | some d => some d
        | none =>
          match trailingCommaScan input.data with
          | some d => some d
          | none =>
            match processingTimeScan input.data with
            | some d => some d
            | none => none

/-! ## Error assembly and the staged parse pipeline -/

/-- The error thrown by the strict-parse collaborator (the optional
location fields mirror the `JsonParseError` interface of the source).
Modelled from the spec: the spec allows the collaborator to supply no
structured location, in which case the locator works purely from the raw
message and text; the model exercises that path. -/
structure JsErr where
  message : String
  line : Option Int
  column : Option Int
  position : Option Int
  deriving DecidableEq, Repr

/-- JS falsiness of an optional number (`undefined` and `0` are falsy). -/
def jsFalsyNumOpt (o : Option Int) : Bool :=
  match o with
  | none => true
  | some n => n == 0

/-- JS `String(i)` for an integer. -/
def intRepr (i : Int) : String :=
  if i < 0 then "-" ++ natRepr i.natAbs else natRepr i.toNat

/-- `JsonParser.getDetailedErrorFromBetterParser`: copy the structured
location when present, derive line/column from a bare position, fall back
to the manual locator when nothing is set, and append the
`(Line L, Column C)` suffix when both are known. -/
def getDetailedErrorFromBetterParser (e : JsErr) (input : String) : ParseResult :=
  let d0 : ErrorDetails := ⟨e.line, e.column, e.position⟩
  let d1 :=
    if d0.position.isSome && (jsFalsyNumOpt d0.line || jsFalsyNumOpt d0.column) then
      let p := (d0.position.getD 0).toNat
      let ls := splitNL (input.data.take p)
      { d0 with
        line := some ((ls.length : Nat) : Int)
        column := some (((ls.getLast?.getD []).length + 1 : Nat) : Int) }
    else d0
  let friendly :=
    if e.message ≠ "" then getFriendlyErrorMessage e.message
    else "Invalid JSON format"
  let d2 :=
    if jsFalsyNumOpt d1.position && jsFalsyNumOpt d1.line && jsFalsyNumOpt d1.column then
      match findErrorLocationManually input e.message with
      | some m => m
      | none => d1
    else d1
  let friendly2 :=
    if !jsFalsyNumOpt d2.line && !jsFalsyNumOpt d2.column then
      friendly ++ " (Line " ++ intRepr (d2.line.getD 0) ++ ", Column " ++
        intRepr (d2.column.getD 0) ++ ")"
    else friendly
  ⟨false, none, some friendly2, some d2⟩

/-- A successful `ParseResult`. -/
def successResult (v : JsonValue) : ParseResult := ⟨true, some v, none, none⟩

/-- `JsonParser.parseJson`: empty check, strict parse, Stage-1 clean,
Stage-2 aggressive clean, Stage-3 extraction, and on total failure the
detailed error derived from the first error (telemetry calls are
fire-and-forget side effects outside the embedded state). -/
def parseJson (input : String) : ParseResult :=
  if jsTrim input = "" then ⟨false, none, some "Input is empty", none⟩
  else
    match strictParse input with
    | .ok data => successResult data
    | .error msg1 =>
      let e1 : JsErr := ⟨msg1, none, none, none⟩
      let cleaned1 := cleanJsonString input
      match strictParse cleaned1 with
      | .ok data => successResult data
      | .error _ =>
        let cleaned2 := aggressiveCleanup cleaned1
        match strictParse cleaned2 with
        | .ok data => successResult data
        | .error _ =>
          match extractJsonFromString input with
          | some extracted =>
            (match strictParse extracted with
             | .ok data => successResult data
             | .error _ => getDetailedErrorFromBetterParser e1 input)
          | none => getDetailedErrorFromBetterParser e1 input

/-! ## Claim C6 and C8: concrete pipeline evaluations -/

/-- C6: for the concrete input `{"a": "hello}` (unterminated string),
`parseJson` returns a result with `success := false` whose
`errorDetails.line` equals 1. -/
theorem c6_unterminated_string_line :
    (parseJson "\x7b\"a\": \"hello\x7d").success = false ∧
      (parseJson "\x7b\"a\": \"hello\x7d").errorDetails.bind ErrorDetails.line =
        some 1 := by
  decide

/-- C8: the code refutes the claimed scenario.  For the concrete input
`{"site": http://example.com}` the Stage-1 pipeline strips the `//` of the
bare URL as a line comment before the URL-quoting rewrite can run, leaving
`{"site": http:`; every stage then fails and `parseJson` reports failure
instead of the claimed success with `site = "http://example.com"`. -/
theorem c8_bare_url_failure :
    cleanJsonString "\x7b\"site\": http://example.com\x7d" = "\x7b\"site\": http:" ∧
      (parseJson "\x7b\"site\": http://example.com\x7d").success = false ∧
      (parseJson "\x7b\"site\": http://example.com\x7d").data = none := by
  decide

/-! ## Counterexamples for the corrected claims -/

/-- C1 counterexample: flattening the one-element array produces the path
`root.[0]`, which contains the substring `.[` — the flattener joins the
bracketed index with a dot, unlike the claimed `parent[i]` grammar. -/
theorem c1_counterexample :
    (convertToNodes (jsonArrOf [JsonValue.null]) "root").1.map
        (fun n => n.path) = ["root", "root.[0]"] ∧
      containsStr "root.[0]" ".[" = true := by
  decide

/-- C2 counterexample: expanding the collapsed root of `{"a": {"b": 1}}`
materializes two levels (the node `root.a.b` of depth 2 is inserted and
the inserted container `root.a` arrives with `isExpanded = true`),
refuting the claim that one level is materialized regardless of the
target's depth. -/
theorem c2_counterexample :
    (expandNode
        (collapseNode
          (convertToNodes (jsonObjOf [("a", jsonObjOf [("b", JsonValue.num "1")])]) "root").1
          "root")
        "root" initStats).1.map (fun n => (n.path, n.depth, n.isExpanded)) =
      [("root", 0, true), ("root.a", 1, true), ("root.a.b", 2, false)] := by
  decide

/-- C3 counterexample: with the object key `a.b` alongside the nested
`a.b` position, `convertToNodes` emits the path `root.a.b` twice, so the
paths are not pairwise distinct for keys containing a dot. -/
theorem c3_counterexample :
    (convertToNodes
        (jsonObjOf [("a.b", JsonValue.num "1"), ("a", jsonObjOf [("b", JsonValue.num "2")])])
        "root").1.map (fun n => n.path) =
      ["root", "root.a.b", "root.a", "root.a.b"] ∧
      ¬ ((convertToNodes
        (jsonObjOf [("a.b", JsonValue.num "1"), ("a", jsonObjOf [("b", JsonValue.num "2")])])
        "root").1.map (fun n => n.path)).Nodup := by
  decide

/-- C5 counterexample: for the fresh flatten of `{"a": 1}`, the root is a
container path, yet `collapseNode (expandNode nodes "root") "root"` has
length 1 while `nodes` has length 2 — `expandNode` is a no-op on the
already-expanded root and the collapse then removes its child. -/
theorem c5_counterexample :
    (convertToNodes (jsonObjOf [("a", JsonValue.num "1")]) "root").1.length = 2 ∧
      ((convertToNodes (jsonObjOf [("a", JsonValue.num "1")]) "root").1.head?.map
        (fun n => n.type)) = some "object" ∧
      (collapseNode
        (expandNode (convertToNodes (jsonObjOf [("a", JsonValue.num "1")]) "root").1
          "root" initStats).1
        "root").length = 1 := by
  decide

/-- C9 counterexample: `convertToNodes {"root": 1} "r"` does contain a
node keyed `"root"` (the claim's example clause is wrong), and
`searchNodes` on that sequence does not return the input unchanged — it
rebuilds a one-node sequence from the interior `"root"`-keyed node. -/
theorem c9_counterexample :
    ((convertToNodes (jsonObjOf [("root", JsonValue.num "1")]) "r").1.map
        (fun n => n.key)) = ["r", "root"] ∧
      searchNodes (convertToNodes (jsonObjOf [("root", JsonValue.num "1")]) "r").1
          "root" false ≠
        ((convertToNodes (jsonObjOf [("root", JsonValue.num "1")]) "r").1, []) := by
  decide

/-! ## Claim C7: the extraction stage -/

theorem stringDataEq (a b : String) (h : a.data = b.data) : a = b := by
  cases a
  cases b
  exact congrArg String.mk h

theorem listHasLead_nil (s : List Char) : listHasLead s [] = true := by
  cases s <;> rfl

theorem listHasLead_self_append (a b : List Char) : listHasLead (a ++ b) a = true := by
  induction a with
  | nil => exact listHasLead_nil b
  | cons x r ih => simp [listHasLead, ih]

theorem listHasLead_cancel (x s p : List Char) :
    listHasLead (x ++ s) (x ++ p) = listHasLead s p := by
  induction x with
  | nil => rfl
  | cons a r ih => simp [listHasLead, ih]

theorem listHasLead_trans : ∀ (s p q : List Char),
    listHasLead s p = true → listHasLead p q = true → listHasLead s q = true
  | s, _, [], _, _ => listHasLead_nil s
  | s, p, q₀ :: q', hs, hq => by
    match p, hq with
    | p₀ :: p', hq =>
      match s, hs with
      | s₀ :: s', hs =>
        simp [listHasLead] at hs hq ⊢
        refine ⟨by rw [hs.1, hq.1], listHasLead_trans s' p' q' hs.2 hq.2⟩

theorem listHasLead_length : ∀ (s p : List Char),
    listHasLead s p = true → p.length ≤ s.length
  | _, [], _ => by simp
  | s, p₀ :: p', h => by
    match s, h with
    | s₀ :: s', h =>
      simp [listHasLead] at h
      simpa using listHasLead_length s' p' h.2

/-- `childCount` as a function of the value. -/
def ccOf : JsonValue → Option Nat
  | .arr es => some (elemsLen es)
  | .obj fs => some (fieldsLen fs)
  | _ => none

/-- The head node written by any of the flatten traversals for the
current value, parameterized by the expansion flag. -/
def headNode (v : JsonValue) (key path : String) (depth : Nat) (e : Bool) : JsonNode :=
  ⟨key, v, getValueType v, joinKey path key, depth, e, ccOf v⟩

/-- Children block of `processValueWithExpandAll`. -/
def pveaChildren (v : JsonValue) (curPath : String) (depth : Nat) : List JsonNode :=
  match v with
  | .obj fs => processFieldsWithExpandAll fs curPath (depth + 1)
  | .arr es => processElemsWithExpandAll es 0 curPath (depth + 1)
  | _ => []

theorem pvea_eq (v : JsonValue) (key path : String) (depth : Nat) :
    processValueWithExpandAll v key path depth =
      headNode v key path depth (isContainer v) ::
        pveaChildren v (joinKey path key) depth := by
  cases v <;> rfl

mutual
theorem pvea_length : ∀ (v : JsonValue) (key path : String) (depth : Nat),
    (processValueWithExpandAll v key path depth).length = countNodes v
  | .str s, _, _, _ => rfl
  | .num t, _, _, _ => rfl
  | .boolean b, _, _, _ => rfl
  | .null, _, _, _ => rfl
  | .obj fs, key, path, depth => by
    simp only [processValueWithExpandAll, countNodes, List.length_cons]
    rw [pfea_length fs (joinKey path key) (depth + 1)]
    omega
  | .arr es, key, path, depth => by
    simp only [processValueWithExpandAll, countNodes, List.length_cons]
    rw [peea_length es 0 (joinKey path key) (depth + 1)]
    omega
theorem pfea_length : ∀ (fs : JsonFields) (path : String) (depth : Nat),
    (processFieldsWithExpandAll fs path depth).length = countNodesF fs
  | .nil, _, _ => rfl
  | .cons k v r, path, depth => by
    simp only [processFieldsWithExpandAll, countNodesF, List.length_append]
    rw [pvea_length v k path depth, pfea_length r path depth]
    omega
theorem peea_length : ∀ (es : JsonElems) (i : Nat) (path : String) (depth : Nat),
    (processElemsWithExpandAll es i path depth).length = countNodesE es
  | .nil, _, _, _ => rfl
  | .cons v r, i, path, depth => by
    simp only [processElemsWithExpandAll, countNodesE, List.length_append]
    rw [pvea_length v (idxKey i) path depth, peea_length r (i + 1) path depth]
    omega
end

theorem joinKey_ne_empty (path k : String) (h : path ≠ "") : joinKey path k ≠ "" := by
  unfold joinKey
  rw [if_neg h]
  intro hbad
  have := congrArg String.data hbad
  rw [String.data_append, String.data_append] at this
  simp at this

theorem strHasLead_join_dot (path k : String) (h : path ≠ "") :
    strHasLead (joinKey path k) (path ++ ".") = true := by
  unfold joinKey strHasLead
  rw [if_neg h, String.data_append, String.data_append]
  exact listHasLead_self_append _ _

theorem strHasLead_join_dot_trans (s : String) (path k : String) (h : path ≠ "")
    (hs : strHasLead s (joinKey path k ++ ".") = true) :
    strHasLead s (path ++ ".") = true := by
  refine listHasLead_trans _ _ _ hs ?_
  unfold joinKey
  rw [if_neg h]
  show listHasLead (path ++ "." ++ k ++ ".").data (path ++ ".").data = true
  rw [String.data_append, String.data_append, String.data_append,
    List.append_assoc, List.append_assoc]
  rw [← List.append_assoc]
  exact listHasLead_self_append _ _

mutual
theorem pvea_path_lead : ∀ (v : JsonValue) (key path : String) (depth : Nat)
    (n : JsonNode), joinKey path key ≠ "" →
    n ∈ processValueWithExpandAll v key path depth →
    n.path = joinKey path key ∨ strHasLead n.path (joinKey path key ++ ".") = true
  | v, key, path, depth, n, hne, hmem => by
    rw [pvea_eq] at hmem
    rcases List.mem_cons.mp hmem with rfl | hmem2
    · exact Or.inl rfl
    · cases v with
      | obj fs =>
        exact Or.inr (pfea_path_lead fs (joinKey path key) (depth + 1) n hne hmem2)
      | arr es =>
        exact Or.inr (peea_path_lead es 0 (joinKey path key) (depth + 1) n hne hmem2)
      | str s => simp [pveaChildren] at hmem2
      | num t => simp [pveaChildren] at hmem2
      | boolean b => simp [pveaChildren] at hmem2
      | null => simp [pveaChildren] at hmem2
theorem pfea_path_lead : ∀ (fs : JsonFields) (path : String) (depth : Nat)
    (n : JsonNode), path ≠ "" →
    n ∈ processFieldsWithExpandAll fs path depth →
    strHasLead n.path (path ++ ".") = true
  | .nil, _, _, _, _, hmem => by simp [processFieldsWithExpandAll] at hmem
  | .cons k v r, path, depth, n, hne, hmem => by
    simp only [processFieldsWithExpandAll, List.mem_append] at hmem
    rcases hmem with hmem | hmem
    · rcases pvea_path_lead v k path depth n (joinKey_ne_empty path k hne) hmem with
        heq | hlead
      · rw [heq]
        exact strHasLead_join_dot path k hne
      · exact strHasLead_join_dot_trans n.path path k hne hlead
    · exact pfea_path_lead r path depth n hne hmem
theorem peea_path_lead : ∀ (es : JsonElems) (i : Nat) (path : String) (depth : Nat)
    (n : JsonNode), path ≠ "" →
    n ∈ processElemsWithExpandAll es i path depth →
    strHasLead n.path (path ++ ".") = true
  | .nil, _, _, _, _, _, hmem => by simp [processElemsWithExpandAll] at hmem
  | .cons v r, i, path, depth, n, hne, hmem => by
    simp only [processElemsWithExpandAll, List.mem_append] at hmem
    rcases hmem with hmem | hmem
    · rcases pvea_path_lead v (idxKey i) path depth n
        (joinKey_ne_empty path (idxKey i) hne) hmem with heq | hlead
      · rw [heq]
        exact strHasLead_join_dot path (idxKey i) hne
      · exact strHasLead_join_dot_trans n.path path (idxKey i) hne hlead
    · exact peea_path_lead r (i + 1) path depth n hne hmem
end

theorem processValue_shape (v : JsonValue) (key path : String) (depth : Nat)
    (st : JsonStats) :
    ∃ rest, (processValue v key path depth st).1 =
      headNode v key path depth (decide (depth < 2)) :: rest := by
  cases v <;>
    simp only [processValue, headNode, getValueType, ccOf] <;>
    first
      | exact ⟨_, rfl⟩
      | (split
         · exact ⟨_, rfl⟩
         · exact ⟨_, rfl⟩)

theorem convertToNodes_expandAll (v : JsonValue) :
    expandAllNodes (convertToNodes v "root").1 =
      processValueWithExpandAll v "root" "" 0 := by
  obtain ⟨rest, hshape⟩ := processValue_shape v "root" "" 0 initStats
  unfold expandAllNodes convertToNodes
  rw [hshape, List.find?_cons_of_pos _ (by rfl)]
  rfl

theorem dropWhile_nil_of_all {α : Type _} (p : α → Bool) :
    ∀ (l : List α), (∀ x ∈ l, p x = true) → l.dropWhile p = []
  | [], _ => rfl
  | a :: r, h => by
    rw [List.dropWhile_cons_of_pos (h a (by simp))]
    exact dropWhile_nil_of_all p r (fun x hx => h x (by simp [hx]))

theorem findNode_none_of : ∀ (ns : List JsonNode) (p : String),
    (∀ n ∈ ns, n.path ≠ p) → findNode ns p = none
  | [], _, _ => rfl
  | n :: rest, p, h => by
    unfold findNode
    rw [if_neg (by simpa using h n (by simp)), findNode_none_of rest p
      (fun m hm => h m (by simp [hm]))]
    rfl

theorem collapseNode_noop (ns : List JsonNode) (p : String)
    (h : ∀ n ∈ ns, n.path ≠ p) : collapseNode ns p = ns := by
  unfold collapseNode
  rw [findNode_none_of ns p h]

theorem foldl_collapse_stationary : ∀ (l : List JsonNode) (acc : List JsonNode),
    (∀ n ∈ l, ∀ m ∈ acc, m.path ≠ n.path) →
    l.foldl (fun acc2 n => collapseNode acc2 n.path) acc = acc
  | [], _, _ => rfl
  | n :: rest, acc, h => by
    simp only [List.foldl_cons]
    rw [collapseNode_noop acc n.path (fun m hm => h n (by simp) m hm)]
    exact foldl_collapse_stationary rest acc (fun n2 hn2 m hm => h n2 (by simp [hn2]) m hm)

theorem collapseNode_root_all (hd : JsonNode) (tail : List JsonNode)
    (hpath : hd.path = "root") (hexp : hd.isExpanded = true)
    (htail : ∀ n ∈ tail, strHasLead n.path ("root" ++ ".") = true) :
    collapseNode (hd :: tail) "root" = [{ hd with isExpanded := false }] := by
  unfold collapseNode
  have hfind : findNode (hd :: tail) "root" = some (0, hd) := by
    unfold findNode
    rw [if_pos (by simp [hpath])]
  rw [hfind]
  simp only [hexp]
  rw [List.set_cons_zero]
  simp only [List.take, List.drop]
  rw [dropWhile_nil_of_all _ tail
    (fun n hn => by
      unfold descendantTest
      rw [htail n hn]
      rfl)]
  rfl

theorem containerType (v : JsonValue) (hv : isContainer v = true) :
    (getValueType v == "object" || getValueType v == "array") = true := by
  cases v <;> simp_all [isContainer, getValueType]

theorem ne_root_of_lead (s : String) (h : strHasLead s ("root" ++ ".") = true) :
    s ≠ "root" := by
  intro heq
  rw [heq] at h
  exact absurd h (by decide)

theorem collapseAll_of_full (v : JsonValue) (hv : isContainer v = true) :
    collapseAllNodes (processValueWithExpandAll v "root" "" 0) =
      [{ headNode v "root" "" 0 true with isExpanded := false }] := by
  have hchild : ∀ n ∈ pveaChildren v "root" 0,
      strHasLead n.path ("root" ++ ".") = true := by
    intro n hn
    cases v with
    | obj fs => exact pfea_path_lead fs "root" 1 n (by decide) hn
    | arr es => exact peea_path_lead es 0 "root" 1 n (by decide) hn
    | str s => simp [pveaChildren] at hn
    | num t => simp [pveaChildren] at hn
    | boolean b => simp [pveaChildren] at hn
    | null => simp [pveaChildren] at hn
  have hfull : processValueWithExpandAll v "root" "" 0 =
      headNode v "root" "" 0 true :: pveaChildren v "root" 0 := by
    rw [pvea_eq, hv]
    rfl
  rw [hfull]
  have hpred : (((headNode v "root" "" 0 true).type == "object" ||
      (headNode v "root" "" 0 true).type == "array") &&
      (headNode v "root" "" 0 true).isExpanded) = true := by
    simp only [headNode]
    simp [containerType v hv]
  show List.foldl (fun acc n => collapseNode acc n.path)
      (headNode v "root" "" 0 true :: pveaChildren v "root" 0)
      (List.filter
        (fun n => (n.type == "object" || n.type == "array") && n.isExpanded)
        (headNode v "root" "" 0 true :: pveaChildren v "root" 0)) =
      [{ headNode v "root" "" 0 true with isExpanded := false }]
  rw [List.filter_cons, hpred, if_pos rfl]
  simp only [List.foldl_cons]
  have hstep : collapseNode
      (headNode v "root" "" 0 true :: pveaChildren v "root" 0)
      (headNode v "root" "" 0 true).path =
      [{ headNode v "root" "" 0 true with isExpanded := false }] := by
    have : (headNode v "root" "" 0 true).path = "root" := rfl
    rw [this]
    exact collapseNode_root_all _ _ rfl rfl hchild
  rw [hstep]
  refine foldl_collapse_stationary _ _ ?_
  intro n hn m hm
  have hn2 : n ∈ pveaChildren v "root" 0 := List.mem_of_mem_filter hn
  have hm2 : m = { headNode v "root" "" 0 true with isExpanded := false } := by
    simpa using hm
  rw [hm2]
  show "root" ≠ n.path
  exact fun heq => (ne_root_of_lead n.path (hchild n hn2)) heq.symm

/-- C4: for every JSON value `v`, `expandAllNodes (convertToNodes v)` has
exactly `countNodes v` entries (the root plus one node per object key and
array element, recursively), and `collapseAllNodes` of that fully
expanded sequence has length 1 when the root value is an object or array
and length `countNodes v` (namely 1) when the root value is a scalar. -/
theorem c4_flatten_counts (v : JsonValue) :
    (expandAllNodes (convertToNodes v "root").1).length = countNodes v ∧
      (collapseAllNodes (expandAllNodes (convertToNodes v "root").1)).length =
        (if isContainer v then 1 else countNodes v) := by
  refine ⟨by rw [convertToNodes_expandAll, pvea_length], ?_⟩
  rw [convertToNodes_expandAll]
  by_cases hv : isContainer v = true
  · rw [collapseAll_of_full v hv, if_pos hv]
    rfl
  · have hv2 : isContainer v = false := by
      revert hv
      cases isContainer v <;> simp
    rw [if_neg (by simp [hv2])]
    cases v <;> simp_all [isContainer] <;>
      simp [collapseAllNodes, processValueWithExpandAll, countNodes, List.filter]

/-! ## Claim C10: stats accumulation -/

/-- Total number of visits recorded by the type distribution. -/
def tdSum (d : List (String × Nat)) : Nat := (d.map Prod.snd).sum

theorem bumpType_keys (d : List (String × Nat)) (t : String) :
    (bumpType d t).map Prod.fst =
      (if d.any (fun p => p.1 == t) then d.map Prod.fst
       else d.map Prod.fst ++ [t]) := by
  unfold bumpType
  by_cases h : d.any (fun p => p.1 == t)
  · rw [if_pos h, if_pos h, List.map_map]
    refine List.map_congr_left ?_
    intro p _
    simp only [Function.comp_apply]
    split <;> rfl
  · rw [if_neg h, if_neg h]
    simp

theorem bump_noop_of_absent (t : String) : ∀ (d : List (String × Nat)),
    (∀ q ∈ d, q.1 ≠ t) →
    d.map (fun p => if p.1 == t then (p.1, p.2 + 1) else p) = d
  | [], _ => rfl
  | p :: d', h => by
    have hp : ¬(p.1 == t) = true := by
      simpa using h p (by simp)
    simp only [List.map_cons, if_neg hp]
    rw [bump_noop_of_absent t d' (fun q hq => h q (by simp [hq]))]

theorem bump_incr_sum (t : String) : ∀ (d : List (String × Nat)),
    (d.map Prod.fst).Nodup → d.any (fun p => p.1 == t) = true →
    tdSum (d.map (fun p => if p.1 == t then (p.1, p.2 + 1) else p)) =
      tdSum d + 1
  | [], _, hany => by simp at hany
  | p :: d', hnd, hany => by
    simp only [List.map_cons, List.nodup_cons] at hnd
    by_cases hp : (p.1 == t) = true
    · have hpt : p.1 = t := by simpa using hp
      have habs : ∀ q ∈ d', q.1 ≠ t := by
        intro q hq hqt
        apply hnd.1
        rw [hpt, ← hqt]
        exact List.mem_map_of_mem Prod.fst hq
      simp only [List.map_cons, if_pos hp]
      rw [bump_noop_of_absent t d' habs]
      simp [tdSum]
      omega
    · have hany' : d'.any (fun p => p.1 == t) = true := by
        simp only [List.any_cons, hp, Bool.false_or] at hany
        exact hany
      simp only [List.map_cons, if_neg hp]
      have := bump_incr_sum t d' hnd.2 hany'
      simp only [tdSum, List.map_cons, List.sum_cons] at this ⊢
      omega

theorem bumpType_facts (d : List (String × Nat)) (t : String)
    (h : (d.map Prod.fst).Nodup) :
    tdSum (bumpType d t) = tdSum d + 1 ∧
      ((bumpType d t).map Prod.fst).Nodup := by
  constructor
  · unfold bumpType
    by_cases hany : d.any (fun p => p.1 == t) = true
    · rw [if_pos hany]
      exact bump_incr_sum t d h hany
    · rw [if_neg hany]
      simp [tdSum]
  · rw [bumpType_keys]
    by_cases hany : d.any (fun p => p.1 == t) = true
    · rw [if_pos hany]
      exact h
    · rw [if_neg hany]
      have habs : t ∉ d.map Prod.fst := by
        intro hmem
        obtain ⟨q, hq, hqt⟩ := List.mem_map.mp hmem
        exact hany (List.any_eq_true.mpr ⟨q, hq, by simp [hqt]⟩)
      simp [List.nodup_append, h, habs]

/-- What one run of a stats-writing traversal does to the stats field:
`k` more total nodes, array and object entries only appended, max depth
only raised, and (for a distribution with distinct keys) `k` more
recorded type visits. -/
def statsExtends (st st2 : JsonStats) (k : Nat) : Prop :=
  st2.totalNodes = st.totalNodes + k ∧
  (∃ a, st2.arrayLengths = st.arrayLengths ++ a) ∧
  (∃ o, st2.objectSizes = st.objectSizes ++ o) ∧
  st.maxDepth ≤ st2.maxDepth ∧
  ((st.typeDistribution.map Prod.fst).Nodup →
    tdSum st2.typeDistribution = tdSum st.typeDistribution + k ∧
    (st2.typeDistribution.map Prod.fst).Nodup)

theorem statsExtends_refl (st : JsonStats) : statsExtends st st 0 :=
  ⟨rfl, ⟨[], by simp⟩, ⟨[], by simp⟩, Nat.le_refl _, fun h => ⟨rfl, h⟩⟩

theorem statsExtends_trans {st st2 st3 : JsonStats} {k m : Nat}
    (h1 : statsExtends st st2 k) (h2 : statsExtends st2 st3 m) :
    statsExtends st st3 (k + m) := by
  obtain ⟨t1, ⟨a1, ha1⟩, ⟨o1, ho1⟩, m1, d1⟩ := h1
  obtain ⟨t2, ⟨a2, ha2⟩, ⟨o2, ho2⟩, m2, d2⟩ := h2
  refine ⟨by omega, ⟨a1 ++ a2, by rw [ha2, ha1, List.append_assoc]⟩,
    ⟨o1 ++ o2, by rw [ho2, ho1, List.append_assoc]⟩, Nat.le_trans m1 m2, ?_⟩
  intro hnd
  obtain ⟨s1, n1⟩ := d1 hnd
  obtain ⟨s2, n2⟩ := d2 n1
  exact ⟨by omega, n2⟩

theorem statsVisit_extends (st : JsonStats) (t : String) (depth : Nat) :
    statsExtends st (statsVisit st t depth) 1 := by
  refine ⟨rfl, ⟨[], by simp [statsVisit]⟩, ⟨[], by simp [statsVisit]⟩,
    by simp [statsVisit], ?_⟩
  intro hnd
  exact bumpType_facts st.typeDistribution t hnd

theorem arrPush_extends (st : JsonStats) (n : Nat) :
    statsExtends st { st with arrayLengths := st.arrayLengths ++ [n] } 0 :=
  ⟨rfl, ⟨[n], rfl⟩, ⟨[], by simp⟩, Nat.le_refl _, fun h => ⟨rfl, h⟩⟩

theorem objPush_extends (st : JsonStats) (n : Nat) :
    statsExtends st { st with objectSizes := st.objectSizes ++ [n] } 0 :=
  ⟨rfl, ⟨[], by simp⟩, ⟨[n], rfl⟩, Nat.le_refl _, fun h => ⟨rfl, h⟩⟩

mutual
theorem processValue_stats : ∀ (v : JsonValue) (key path : String) (depth : Nat)
    (st : JsonStats),
    statsExtends st (processValue v key path depth st).2
      (processValue v key path depth st).1.length
  | .str s, key, path, depth, st => statsVisit_extends st "string" depth
  | .num t, key, path, depth, st => statsVisit_extends st "number" depth
  | .boolean b, key, path, depth, st => statsVisit_extends st "boolean" depth
  | .null, key, path, depth, st => statsVisit_extends st "null" depth
  | .obj fs, key, path, depth, st => by
    have h1 := statsVisit_extends st "object" depth
    have h2 := objPush_extends (statsVisit st "object" depth) (fieldsLen fs)
    have h3 := processFields_stats fs (joinKey path key) (depth + 1)
      { statsVisit st "object" depth with
        objectSizes := (statsVisit st "object" depth).objectSizes ++ [fieldsLen fs] }
    show statsExtends st (processValue (.obj fs) key path depth st).2
      (processValue (.obj fs) key path depth st).1.length
    by_cases hd : decide (depth < 2) = true
    · have hcomb := statsExtends_trans (statsExtends_trans h1 h2) h3
      simp only [Nat.add_zero, Nat.add_comm 1] at hcomb
      simp only [processValue, getValueType, hd, if_true, List.length_cons]
      exact hcomb
    · have hd2 : decide (depth < 2) = false := by
        revert hd
        cases decide (depth < 2) <;> simp
      have hcomb := statsExtends_trans h1 h2
      simp only [Nat.add_zero] at hcomb
      simp only [processValue, getValueType, hd2, Bool.false_eq_true, if_false,
        List.length_singleton]
      exact hcomb
  | .arr es, key, path, depth, st => by
    have h1 := statsVisit_extends st "array" depth
    have h2 := arrPush_extends (statsVisit st "array" depth) (elemsLen es)
    have h3 := processElems_stats es 0 (joinKey path key) (depth + 1)
      { statsVisit st "array" depth with
        arrayLengths := (statsVisit st "array" depth).arrayLengths ++ [elemsLen es] }
    show statsExtends st (processValue (.arr es) key path depth st).2
      (processValue (.arr es) key path depth st).1.length
    by_cases hd : decide (depth < 2) = true
    · have hcomb := statsExtends_trans (statsExtends_trans h1 h2) h3
      simp only [Nat.add_zero, Nat.add_comm 1] at hcomb
      simp only [processValue, getValueType, hd, if_true, List.length_cons]
      exact hcomb
    · have hd2 : decide (depth < 2) = false := by
        revert hd
        cases decide (depth < 2) <;> simp
      have hcomb := statsExtends_trans h1 h2
      simp only [Nat.add_zero] at hcomb
      simp only [processValue, getValueType, hd2, Bool.false_eq_true, if_false,
        List.length_singleton]
      exact hcomb
theorem processFields_stats : ∀ (fs : JsonFields) (path : String) (depth : Nat)
    (st : JsonStats),
    statsExtends st (processFields fs path depth st).2
      (processFields fs path depth st).1.length
  | .nil, _, _, st => statsExtends_refl st
  | .cons k v r, path, depth, st => by
    have h1 := processValue_stats v k path depth st
    have h2 := processFields_stats r path depth (processValue v k path depth st).2
    show statsExtends st (processFields (.cons k v r) path depth st).2
      (processFields (.cons k v r) path depth st).1.length
    simp only [processFields, List.length_append]
    exact statsExtends_trans h1 h2
theorem processElems_stats : ∀ (es : JsonElems) (i : Nat) (path : String)
    (depth : Nat) (st : JsonStats),
    statsExtends st (processElems es i path depth st).2
      (processElems es i path depth st).1.length
  | .nil, _, _, _, st => statsExtends_refl st
  | .cons v r, i, path, depth, st => by
    have h1 := processValue_stats v (idxKey i) path depth st
    have h2 := processElems_stats r (i + 1) path depth
      (processValue v (idxKey i) path depth st).2
    show statsExtends st (processElems (.cons v r) i path depth st).2
      (processElems (.cons v r) i path depth st).1.length
    simp only [processElems, List.length_append]
    exact statsExtends_trans h1 h2
end

theorem processArrayAsObjectFields_stats : ∀ (es : JsonElems) (i : Nat)
    (path : String) (depth : Nat) (st : JsonStats),
    statsExtends st (processArrayAsObjectFields es i path depth st).2
      (processArrayAsObjectFields es i path depth st).1.length
  | .nil, _, _, _, st => statsExtends_refl st
  | .cons v r, i, path, depth, st => by
    have h1 := processValue_stats v (natRepr i) path depth st
    have h2 := processArrayAsObjectFields_stats r (i + 1) path depth
      (processValue v (natRepr i) path depth st).2
    show statsExtends st (processArrayAsObjectFields (.cons v r) i path depth st).2
      (processArrayAsObjectFields (.cons v r) i path depth st).1.length
    simp only [processArrayAsObjectFields, List.length_append]
    exact statsExtends_trans h1 h2

theorem expandChildren_stats (node : JsonNode) (st : JsonStats) :
    statsExtends st (expandChildren node st).2 (expandChildren node st).1.length := by
  unfold expandChildren
  by_cases h1 : (node.type == "array") = true
  · rw [if_pos h1]
    cases hv : node.value <;>
      first
        | exact processElems_stats _ 0 node.path (node.depth + 1) st
        | exact statsExtends_refl st
  · rw [if_neg (by simp_all)]
    by_cases h2 : (node.type == "object") = true
    · rw [if_pos h2]
      cases hv : node.value <;>
        first
          | exact processFields_stats _ node.path (node.depth + 1) st
          | exact processArrayAsObjectFields_stats _ 0 node.path (node.depth + 1) st
          | exact statsExtends_refl st
    · rw [if_neg (by simp_all)]
      exact statsExtends_refl st

theorem findNode_sound : ∀ (ns : List JsonNode) (p : String) (i : Nat)
    (node : JsonNode), findNode ns p = some (i, node) →
    ns.get? i = some node ∧ node.path = p ∧
      ∀ j, j < i → ∀ m, ns.get? j = some m → m.path ≠ p
  | [], _, _, _, h => by simp [findNode] at h
  | n :: rest, p, i, node, h => by
    unfold findNode at h
    by_cases hn : (n.path == p) = true
    · rw [if_pos hn] at h
      obtain ⟨rfl, rfl⟩ : 0 = i ∧ n = node := by simpa using h
      exact ⟨rfl, by simpa using hn, fun j hj => by omega⟩
    · rw [if_neg hn] at h
      match hf : findNode rest p with
      | none => rw [hf] at h; simp at h
      | some im =>
        rw [hf] at h
        obtain ⟨hi, hnode⟩ : im.1 + 1 = i ∧ im.2 = node := by simpa using h
        obtain ⟨hg, hp2, hfirst⟩ := findNode_sound rest p im.1 im.2 (by rw [hf])
        subst hi
        subst hnode
        refine ⟨by simpa using hg, hp2, ?_⟩
        intro j hj m hm
        match j with
        | 0 =>
          have hmn : n = m := by simpa using hm
          subst hmn
          simpa using hn
        | j' + 1 =>
          exact hfirst j' (by omega) m (by simpa using hm)

theorem expandNode_stats (ns : List JsonNode) (p : String) (st : JsonStats) :
    ∃ k, (expandNode ns p st).1.length = ns.length + k ∧
      statsExtends st (expandNode ns p st).2 k := by
  unfold expandNode
  match hf : findNode ns p with
  | none => exact ⟨0, by simp, statsExtends_refl st⟩
  | some im =>
    by_cases he : im.2.isExpanded = true
    · simp only [he, if_true]
      exact ⟨0, by simp, statsExtends_refl st⟩
    · have he2 : im.2.isExpanded = false := by
        revert he
        cases im.2.isExpanded <;> simp
      simp only [he2, Bool.false_eq_true, if_false]
      have hi := (findNode_sound ns p im.1 im.2 hf).1
      have hlt : im.1 < ns.length := by
        by_contra hge
        rw [List.get?_eq_none.mpr (by omega)] at hi
        simp at hi
      refine ⟨(expandChildren im.2 st).1.length, ?_, expandChildren_stats im.2 st⟩
      simp only [List.length_append, List.length_take, List.length_drop,
        List.length_set]
      omega

/-- C10: `expandNode` accumulates onto the stored stats without resetting
them — the total-node counter and the type-distribution total grow by one
per materialized node, the array-length and object-size lists are only
appended to, and the max depth never decreases — while the stateful views
of `searchNodes` and `expandAllNodes` pass the stats through untouched;
consequently, when an `expandNode` after a `convertToNodes` inserts
children, `getStats` no longer equals the stats of that `convertToNodes`. -/
theorem c10_stats_accumulation (v : JsonValue) (rk p : String) :
    (∀ (ns : List JsonNode) (q : String) (cs : Bool) (st : JsonStats),
        (searchNodesStateful ns q cs st).2 = st) ∧
      (∀ (ns : List JsonNode) (st : JsonStats),
        (expandAllNodesStateful ns st).2 = st) ∧
      (∃ k,
        (expandNode (convertToNodes v rk).1 p (convertToNodes v rk).2).1.length =
          (convertToNodes v rk).1.length + k ∧
        (expandNode (convertToNodes v rk).1 p (convertToNodes v rk).2).2.totalNodes =
          (convertToNodes v rk).2.totalNodes + k ∧
        (∃ a, (expandNode (convertToNodes v rk).1 p (convertToNodes v rk).2).2.arrayLengths =
          (convertToNodes v rk).2.arrayLengths ++ a) ∧
        (∃ o, (expandNode (convertToNodes v rk).1 p (convertToNodes v rk).2).2.objectSizes =
          (convertToNodes v rk).2.objectSizes ++ o) ∧
        (convertToNodes v rk).2.maxDepth ≤
          (expandNode (convertToNodes v rk).1 p (convertToNodes v rk).2).2.maxDepth ∧
        tdSum (expandNode (convertToNodes v rk).1 p (convertToNodes v rk).2).2.typeDistribution =
          tdSum (convertToNodes v rk).2.typeDistribution + k) ∧
      ((convertToNodes v rk).1.length <
          (expandNode (convertToNodes v rk).1 p (convertToNodes v rk).2).1.length →
        getStats (expandNode (convertToNodes v rk).1 p (convertToNodes v rk).2).2 ≠
          getStats (convertToNodes v rk).2) := by
  have hconv := processValue_stats v rk "" 0 initStats
  have hnd0 : ((initStats.typeDistribution).map Prod.fst).Nodup := by
    simp [initStats]
  have hndc : (((convertToNodes v rk).2.typeDistribution).map Prod.fst).Nodup :=
    (hconv.2.2.2.2 hnd0).2
  obtain ⟨k, hlen, hext⟩ := expandNode_stats (convertToNodes v rk).1 p (convertToNodes v rk).2
  obtain ⟨htot, ha, ho, hmax, htd⟩ := hext
  refine ⟨fun _ _ _ _ => rfl, fun _ _ => rfl,
    ⟨k, hlen, htot, ha, ho, hmax, (htd hndc).1⟩, ?_⟩
  intro hlt heq
  have hk : 1 ≤ k := by omega
  have := congrArg JsonStats.totalNodes heq
  simp only [getStats] at this
  omega

/-- C10 witness: expanding the collapsed depth-2 container of a concrete
tree inserts a child, and the stats after the expansion differ from the
stats of the preceding `convertToNodes`. -/
theorem c10_witness :
    getStats (expandNode
        (convertToNodes (jsonObjOf [("a", jsonObjOf [("b", jsonObjOf [("c", JsonValue.num "1")])])]) "root").1
        "root.a.b"
        (convertToNodes (jsonObjOf [("a", jsonObjOf [("b", jsonObjOf [("c", JsonValue.num "1")])])]) "root").2).2 ≠
      getStats (convertToNodes (jsonObjOf [("a", jsonObjOf [("b", jsonObjOf [("c", JsonValue.num "1")])])]) "root").2 :=
  (c10_stats_accumulation
    (jsonObjOf [("a", jsonObjOf [("b", jsonObjOf [("c", JsonValue.num "1")])])])
    "root" "root.a.b").2.2.2 (by decide)

/-! ## Claim C2 (amended): one-level materialization for deep targets -/

/-- Fields as a pair list. -/
def fieldsOf : JsonFields → List (String × JsonValue)
  | .nil => []
  | .cons k v r => (k, v) :: fieldsOf r

/-- Elements paired with their indices. -/
def elemsWithIdx : JsonElems → Nat → List (Nat × JsonValue)
  | .nil, _ => []
  | .cons v r, i => (i, v) :: elemsWithIdx r (i + 1)

theorem fieldsOf_length : ∀ (fs : JsonFields), (fieldsOf fs).length = fieldsLen fs
  | .nil => rfl
  | .cons k v r => by simp [fieldsOf, fieldsLen, fieldsOf_length r]

theorem elemsWithIdx_length : ∀ (es : JsonElems) (i : Nat),
    (elemsWithIdx es i).length = elemsLen es
  | .nil, _ => rfl
  | .cons v r, i => by simp [elemsWithIdx, elemsLen, elemsWithIdx_length r (i + 1)]

theorem processValue_deep (v : JsonValue) (key path : String) (depth : Nat)
    (st : JsonStats) (h : 2 ≤ depth) :
    (processValue v key path depth st).1 = [headNode v key path depth false] := by
  have hd : decide (depth < 2) = false := by
    simp
    omega
  cases v <;>
    simp only [processValue, getValueType, ccOf, headNode, hd,
      Bool.false_eq_true, if_false]

theorem processFields_deep : ∀ (fs : JsonFields) (path : String) (depth : Nat)
    (st : JsonStats), 2 ≤ depth →
    (processFields fs path depth st).1 =
      (fieldsOf fs).map (fun kv => headNode kv.2 kv.1 path depth false)
  | .nil, _, _, _, _ => rfl
  | .cons k v r, path, depth, st, h => by
    simp only [processFields, fieldsOf, List.map_cons]
    rw [processValue_deep v k path depth st h,
      processFields_deep r path depth (processValue v k path depth st).2 h]
    rfl

theorem processElems_deep : ∀ (es : JsonElems) (i : Nat) (path : String)
    (depth : Nat) (st : JsonStats), 2 ≤ depth →
    (processElems es i path depth st).1 =
      (elemsWithIdx es i).map (fun p => headNode p.2 (idxKey p.1) path depth false)
  | .nil, _, _, _, _, _ => rfl
  | .cons v r, i, path, depth, st, h => by
    simp only [processElems, elemsWithIdx, List.map_cons]
    rw [processValue_deep v (idxKey i) path depth st h,
      processElems_deep r (i + 1) path depth (processValue v (idxKey i) path depth st).2 h]
    rfl

theorem processArrayAsObjectFields_deep : ∀ (es : JsonElems) (i : Nat)
    (path : String) (depth : Nat) (st : JsonStats), 2 ≤ depth →
    (processArrayAsObjectFields es i path depth st).1 =
      (elemsWithIdx es i).map (fun p => headNode p.2 (natRepr p.1) path depth false)
  | .nil, _, _, _, _, _ => rfl
  | .cons v r, i, path, depth, st, h => by
    simp only [processArrayAsObjectFields, elemsWithIdx, List.map_cons]
    rw [processValue_deep v (natRepr i) path depth st h,
      processArrayAsObjectFields_deep r (i + 1) path depth
        (processValue v (natRepr i) path depth st).2 h]
    rfl

/-- C2 (amended): `expandNode` on a collapsed container found at a depth
of at least 1 materializes exactly one level: the result splices in a
block of nodes that are each an immediate child of the target (depth one
more than the target, path the target's path joined with the child key)
and that all arrive with `isExpanded = false`, one per immediate child of
the target's value.  (For a depth-0 target the `depth < 2` default policy
of `processValue` auto-expands the inserted depth-1 children one level
further, which is the counterexample's behaviour.) -/
theorem c2_amended_one_level (ns : List JsonNode) (p : String) (st : JsonStats)
    (i : Nat) (target : JsonNode)
    (hfind : findNode ns p = some (i, target))
    (hcol : target.isExpanded = false)
    (hdep : 1 ≤ target.depth) :
    ∃ kids,
      (expandNode ns p st).1 =
        (ns.set i { target with isExpanded := true }).take (i + 1) ++ kids ++
          (ns.set i { target with isExpanded := true }).drop (i + 1) ∧
      (∀ n ∈ kids, n.depth = target.depth + 1 ∧ n.isExpanded = false ∧
        n.path = joinKey target.path n.key) ∧
      (∀ es, target.type = "array" → target.value = .arr es →
        kids.length = elemsLen es) ∧
      (∀ fs, target.type = "object" → target.value = .obj fs →
        kids.length = fieldsLen fs) := by
  have hdd : 2 ≤ target.depth + 1 := by omega
  refine ⟨(expandChildren target st).1, ?_, ?_, ?_, ?_⟩
  · unfold expandNode
    rw [hfind]
    simp only [hcol, Bool.false_eq_true, if_false]
  · intro n hn
    unfold expandChildren at hn
    by_cases h1 : (target.type == "array") = true
    · rw [if_pos h1] at hn
      match hv : target.value with
      | .arr es =>
        rw [hv, processElems_deep es 0 target.path (target.depth + 1) st hdd] at hn
        obtain ⟨q, _, rfl⟩ := List.mem_map.mp hn
        exact ⟨rfl, rfl, rfl⟩
      | .obj fs => rw [hv] at hn; simp at hn
      | .str s => rw [hv] at hn; simp at hn
      | .num t => rw [hv] at hn; simp at hn
      | .boolean b => rw [hv] at hn; simp at hn
      | .null => rw [hv] at hn; simp at hn
    · rw [if_neg h1] at hn
      by_cases h2 : (target.type == "object") = true
      · rw [if_pos h2] at hn
        match hv : target.value with
        | .obj fs =>
          rw [hv, processFields_deep fs target.path (target.depth + 1) st hdd] at hn
          obtain ⟨q, _, rfl⟩ := List.mem_map.mp hn
          exact ⟨rfl, rfl, rfl⟩
        | .arr es =>
          rw [hv, processArrayAsObjectFields_deep es 0 target.path
            (target.depth + 1) st hdd] at hn
          obtain ⟨q, _, rfl⟩ := List.mem_map.mp hn
          exact ⟨rfl, rfl, rfl⟩
        | .str s => rw [hv] at hn; simp at hn
        | .num t => rw [hv] at hn; simp at hn
        | .boolean b => rw [hv] at hn; simp at hn
        | .null => rw [hv] at hn; simp at hn
      · rw [if_neg h2] at hn
        simp at hn
  · intro es ht hv
    unfold expandChildren
    rw [if_pos (by simp [ht]), hv,
      processElems_deep es 0 target.path (target.depth + 1) st hdd]
    simp [elemsWithIdx_length]
  · intro fs ht hv
    have h1 : ¬(target.type == "array") = true := by simp [ht]
    unfold expandChildren
    rw [if_neg h1, if_pos (by simp [ht]), hv,
      processFields_deep fs target.path (target.depth + 1) st hdd]
    simp [fieldsOf_length]

/-- C2 witness: expanding the collapsed depth-2 object of a concrete
fresh flatten inserts exactly its one immediate child, collapsed. -/
theorem c2_amended_witness :
    ∃ kids,
      (expandNode
          (convertToNodes (jsonObjOf [("a", jsonObjOf [("b", jsonObjOf [("c", JsonValue.num "1")])])]) "root").1
          "root.a.b" initStats).1 =
        ((convertToNodes (jsonObjOf [("a", jsonObjOf [("b", jsonObjOf [("c", JsonValue.num "1")])])]) "root").1.set 2
            { (⟨"b", jsonObjOf [("c", JsonValue.num "1")], "object", "root.a.b", 2, false, some 1⟩ : JsonNode) with
              isExpanded := true }).take 3 ++ kids ++
          ((convertToNodes (jsonObjOf [("a", jsonObjOf [("b", jsonObjOf [("c", JsonValue.num "1")])])]) "root").1.set 2
            { (⟨"b", jsonObjOf [("c", JsonValue.num "1")], "object", "root.a.b", 2, false, some 1⟩ : JsonNode) with
              isExpanded := true }).drop 3 ∧
      (∀ n ∈ kids, n.depth = 3 ∧ n.isExpanded = false ∧
        n.path = joinKey "root.a.b" n.key) ∧
      (∀ es, "object" = "array" → jsonObjOf [("c", JsonValue.num "1")] = .arr es →
        kids.length = elemsLen es) ∧
      (∀ fs, "object" = "object" → jsonObjOf [("c", JsonValue.num "1")] = .obj fs →
        kids.length = fieldsLen fs) :=
  c2_amended_one_level
    (convertToNodes (jsonObjOf [("a", jsonObjOf [("b", jsonObjOf [("c", JsonValue.num "1")])])]) "root").1
    "root.a.b" initStats 2
    ⟨"b", jsonObjOf [("c", JsonValue.num "1")], "object", "root.a.b", 2, false, some 1⟩
    (by decide) (by decide) (by decide)

/-! ## Claim C9 (amended): root lookup by the literal key -/

mutual
/-- Every object key anywhere in the value satisfies `p`. -/
def keysAll (p : String → Bool) : JsonValue → Bool
  | .obj fs => keysAllF p fs
  | .arr es => keysAllE p es
  | _ => true
/-- Field version of `keysAll`. -/
def keysAllF (p : String → Bool) : JsonFields → Bool
  | .nil => true
  | .cons k v r => p k && keysAll p v && keysAllF p r
/-- Element version of `keysAll`. -/
def keysAllE (p : String → Bool) : JsonElems → Bool
  | .nil => true
  | .cons v r => keysAll p v && keysAllE p r
end

theorem idxKey_data (i : Nat) : (idxKey i).data = '[' :: ((natRepr i).data ++ [']']) := by
  unfold idxKey
  rw [String.data_append, String.data_append]
  rfl

theorem idxKey_ne_root (i : Nat) : idxKey i ≠ "root" := by
  intro h
  have := congrArg String.data h
  rw [idxKey_data] at this
  simp at this

mutual
theorem processValue_keysAll : ∀ (p : String → Bool), (∀ i, p (idxKey i) = true) →
    ∀ (v : JsonValue) (key path : String) (depth : Nat) (st : JsonStats)
    (n : JsonNode), keysAll p v = true → p key = true →
    n ∈ (processValue v key path depth st).1 → p n.key = true
  | p, hidx, v, key, path, depth, st, n, hv, hkey, hmem => by
    cases v with
    | obj fs =>
      by_cases hd : decide (depth < 2) = true
      · simp only [processValue, getValueType, hd, if_true] at hmem
        rcases List.mem_cons.mp hmem with rfl | hmem2
        · exact hkey
        · exact processFields_keysAll p hidx fs (joinKey path key) (depth + 1) _ n
            (by simpa [keysAll] using hv) hmem2
      · have hd2 : decide (depth < 2) = false := by
          revert hd
          cases decide (depth < 2) <;> simp
        simp only [processValue, getValueType, hd2, Bool.false_eq_true,
          if_false, List.mem_singleton] at hmem
        subst hmem
        exact hkey
    | arr es =>
      by_cases hd : decide (depth < 2) = true
      · simp only [processValue, getValueType, hd, if_true] at hmem
        rcases List.mem_cons.mp hmem with rfl | hmem2
        · exact hkey
        · exact processElems_keysAll p hidx es 0 (joinKey path key) (depth + 1) _ n
            (by simpa [keysAll] using hv) hmem2
      · have hd2 : decide (depth < 2) = false := by
          revert hd
          cases decide (depth < 2) <;> simp
        simp only [processValue, getValueType, hd2, Bool.false_eq_true,
          if_false, List.mem_singleton] at hmem
        subst hmem
        exact hkey
    | str s =>
      simp only [processValue, List.mem_singleton] at hmem
      subst hmem
      exact hkey
    | num t =>
      simp only [processValue, List.mem_singleton] at hmem
      subst hmem
      exact hkey
    | boolean b =>
      simp only [processValue, List.mem_singleton] at hmem
      subst hmem
      exact hkey
    | null =>
      simp only [processValue, List.mem_singleton] at hmem
      subst hmem
      exact hkey
theorem processFields_keysAll : ∀ (p : String → Bool), (∀ i, p (idxKey i) = true) →
    ∀ (fs : JsonFields) (path : String) (depth : Nat) (st : JsonStats)
    (n : JsonNode), keysAllF p fs = true →
    n ∈ (processFields fs path depth st).1 → p n.key = true
  | p, hidx, .nil, _, _, _, n, _, hmem => by simp [processFields] at hmem
  | p, hidx, .cons k v r, path, depth, st, n, hf, hmem => by
    simp only [keysAllF, Bool.and_eq_true] at hf
    simp only [processFields, List.mem_append] at hmem
    rcases hmem with hmem | hmem
    · exact processValue_keysAll p hidx v k path depth st n hf.1.2 hf.1.1 hmem
    · exact processFields_keysAll p hidx r path depth _ n hf.2 hmem
theorem processElems_keysAll : ∀ (p : String → Bool), (∀ i, p (idxKey i) = true) →
    ∀ (es : JsonElems) (i : Nat) (path : String) (depth : Nat) (st : JsonStats)
    (n : JsonNode), keysAllE p es = true →
    n ∈ (processElems es i path depth st).1 → p n.key = true
  | p, hidx, .nil, _, _, _, _, n, _, hmem => by simp [processElems] at hmem
  | p, hidx, .cons v r, i, path, depth, st, n, he, hmem => by
    simp only [keysAllE, Bool.and_eq_true] at he
    simp only [processElems, List.mem_append] at hmem
    rcases hmem with hmem | hmem
    · exact processValue_keysAll p hidx v (idxKey i) path depth st n he.1 (hidx i) hmem
    · exact processElems_keysAll p hidx r (i + 1) path depth _ n he.2 hmem
end

/-- C9 (amended): `searchNodes` and `expandAllNodes` locate the tree root
only by the literal key `"root"`: on any sequence containing no node with
that key, `searchNodes` returns the input with no matches for every query
and `expandAllNodes` returns the input unchanged; and `convertToNodes`
with a root key different from `"root"` produces such a sequence provided
no object key of the value is itself the literal `"root"` (the extra
proviso the original claim's example clause was missing). -/
theorem c9_amended_root_key_lookup :
    (∀ (ns : List JsonNode) (q : String) (cs : Bool),
        (∀ n ∈ ns, ¬(n.key = "root")) →
        searchNodes ns q cs = (ns, []) ∧ expandAllNodes ns = ns) ∧
      (∀ (v : JsonValue) (rk : String), rk ≠ "root" →
        keysAll (fun k => !(k == "root")) v = true →
        ∀ n ∈ (convertToNodes v rk).1, ¬(n.key = "root")) := by
  constructor
  · intro ns q cs h
    have hfind : ns.find? (fun n => n.key == "root") = none := by
      rw [List.find?_eq_none]
      intro x hx
      simpa using h x hx
    constructor
    · unfold searchNodes
      by_cases ht : jsTrim q = ""
      · rw [if_pos ht]
      · rw [if_neg ht, hfind]
    · unfold expandAllNodes
      rw [hfind]
  · intro v rk hrk hkeys n hmem
    have := processValue_keysAll (fun k => !(k == "root"))
      (fun i => by simpa using idxKey_ne_root i) v rk "" 0 initStats n hkeys
      (by simpa using hrk) hmem
    simpa using this

/-- C9 witness: a concrete rootless sequence on which both operations are
the identity. -/
theorem c9_amended_witness :
    searchNodes (convertToNodes (jsonObjOf [("x", JsonValue.num "1")]) "r").1 "x" false =
      ((convertToNodes (jsonObjOf [("x", JsonValue.num "1")]) "r").1, []) ∧
      expandAllNodes (convertToNodes (jsonObjOf [("x", JsonValue.num "1")]) "r").1 =
        (convertToNodes (jsonObjOf [("x", JsonValue.num "1")]) "r").1 :=
  c9_amended_root_key_lookup.1
    (convertToNodes (jsonObjOf [("x", JsonValue.num "1")]) "r").1 "x" false
    (by decide)

/-! ## Claim C1 (amended): the path grammars of flattener and resolver -/

/-- One abstract path segment below the root: an object key or an array
index. -/
inductive PathSeg where
  | key (s : String)
  | idx (n : Nat)
  deriving DecidableEq, Repr

/-- Well-formedness of a segment: an object key is nonempty and contains
none of the three structural characters of the grammar. -/
def segWF : PathSeg → Bool
  | .key s => !s.data.isEmpty && s.data.all (fun c => !(c == '.' || c == '[' || c == ']'))
  | .idx _ => true

/-- The node key `processValue` receives for the segment. -/
def segKey : PathSeg → String
  | .key s => s
  | .idx n => idxKey n

/-- The token the resolver should produce for the segment. -/
def segTok : PathSeg → String
  | .key s => s
  | .idx n => natRepr n

/-- One step of the flattener's path construction: the source's own
`joinKey`, applied to the segment's key. -/
def codeStep (acc : String) (sg : PathSeg) : String :=
  joinKey acc (segKey sg)

/-- The path the flattener builds for the segments: every segment,
bracketed indices included, is joined with a dot. -/
def renderCode (segs : List PathSeg) : String :=
  segs.foldl codeStep "root"

/-- One step of the normative grammar of the spec: object keys joined
with a dot, array indices appended with no dot before the bracket. -/
def specStep (acc : String) : PathSeg → String
  | .key s => acc ++ "." ++ s
  | .idx n => acc ++ idxKey n

/-- The path the spec's grammar describes for the segments. -/
def renderSpec (segs : List PathSeg) : String :=
  segs.foldl specStep "root"

/-- Character chunk a segment contributes to the rendered path (`dotted`
selects the code grammar, which puts a dot before brackets too). -/
def chunkOf (dotted : Bool) : PathSeg → List Char
  | .key s => '.' :: s.data
  | .idx n => (if dotted then ['.'] else []) ++ '[' :: ((natRepr n).data ++ [']'])

/-- Concatenation of the chunks of a segment list. -/
def chunksCat (dotted : Bool) : List PathSeg → List Char
  | [] => []
  | sg :: rest => chunkOf dotted sg ++ chunksCat dotted rest

/-- Push the pending token, if any (shape shared by the branches of the
tokenization loop and by its final flush). -/
def tvPush (parts : List String) (cur : List Char) : List String :=
  if cur.isEmpty then parts else parts ++ [(⟨cur⟩ : String)]

/-- Final flush of the loop state, exactly as `tokenizePath` performs it. -/
def tvFinish (s : TokState) : List String :=
  s.parts ++ (if s.cur.isEmpty then [] else [(⟨s.cur⟩ : String)])

theorem tvFinish_eq (parts : List String) (cur : List Char) (b : Bool) :
    tvFinish ⟨parts, cur, b⟩ = tvPush parts cur := by
  cases cur <;> simp [tvFinish, tvPush]

theorem tokenizePath_eq (cp : String) :
    tokenizePath cp = tvFinish (cp.data.foldl tokStep ⟨[], [], false⟩) := rfl

theorem tokStep_plain (parts : List String) (cur : List Char) (b : Bool) (c : Char)
    (h1 : c ≠ '[') (h2 : c ≠ ']') (h3 : c = '.' → b = true) :
    tokStep ⟨parts, cur, b⟩ c = ⟨parts, cur ++ [c], b⟩ := by
  have hcond : (decide (c = '.') && !b) = false := by
    cases hcc : decide (c = '.') with
    | false => rfl
    | true =>
      rw [h3 (of_decide_eq_true hcc)]
      rfl
  unfold tokStep
  rw [if_neg h1, if_neg h2, if_neg (by rw [hcond]; exact Bool.false_ne_true)]

theorem foldl_tokStep_plain (b : Bool) :
    ∀ (cs : List Char), (∀ c ∈ cs, c ≠ '[' ∧ c ≠ ']' ∧ (c = '.' → b = true)) →
    ∀ (parts : List String) (cur : List Char),
    cs.foldl tokStep ⟨parts, cur, b⟩ = ⟨parts, cur ++ cs, b⟩
  | [], _, parts, cur => by simp
  | c :: cs, h, parts, cur => by
    have hc := h c (List.mem_cons_self c cs)
    rw [List.foldl_cons, tokStep_plain parts cur b c hc.1 hc.2.1 hc.2.2,
      foldl_tokStep_plain b cs (fun x hx => h x (List.mem_cons_of_mem c hx)) parts (cur ++ [c]),
      List.append_assoc]
    rfl

theorem tokStep_dot (parts : List String) (cur : List Char) :
    tokStep ⟨parts, cur, false⟩ '.' = ⟨tvPush parts cur, [], false⟩ := by
  simp [tokStep, tvPush]

theorem tokStep_lbrack (parts : List String) (cur : List Char) (b : Bool) :
    tokStep ⟨parts, cur, b⟩ '[' = ⟨tvPush parts cur, [], true⟩ := by
  simp [tokStep, tvPush]

theorem tokStep_rbrack (parts : List String) (cur : List Char) (h : cur ≠ []) :
    tokStep ⟨parts, cur, true⟩ ']' = ⟨parts ++ [(⟨cur⟩ : String)], [], false⟩ := by
  have hcur : cur.isEmpty = false := by
    cases cur with
    | nil => exact absurd rfl h
    | cons x xs => rfl
  simp [tokStep, hcur]

theorem natCharsGo_digits : ∀ (fuel n : Nat) (acc : List Char),
    (∀ c ∈ acc, c.isDigit = true) → ∀ c ∈ natCharsGo fuel n acc, c.isDigit = true
  | 0, _, acc, hacc => hacc
  | fuel + 1, n, acc, hacc => by
    unfold natCharsGo
    split
    · intro c hc
      rcases List.mem_cons.mp hc with rfl | hmem
      · rename_i hlt
        interval_cases n <;> decide
      · exact hacc c hmem
    · refine natCharsGo_digits fuel (n / 10) _ ?_
      intro c hc
      rcases List.mem_cons.mp hc with rfl | hmem
      · have hm : n % 10 < 10 := Nat.mod_lt _ (by decide)
        set m := n % 10 with hmdef
        interval_cases m <;> decide
      · exact hacc c hmem

theorem natRepr_digits (n : Nat) : ∀ c ∈ (natRepr n).data, c.isDigit = true := by
  intro c hc
  exact natCharsGo_digits (n + 1) n [] (by intro x hx; simp at hx) c hc

theorem natCharsGo_ne_nil : ∀ (fuel n : Nat) (acc : List Char),
    acc ≠ [] → natCharsGo fuel n acc ≠ []
  | 0, _, _, hacc => hacc
  | fuel + 1, n, acc, hacc => by
    unfold natCharsGo
    split
    · simp
    · exact natCharsGo_ne_nil fuel (n / 10) _ (by simp)

theorem natRepr_ne_nil (n : Nat) : (natRepr n).data ≠ [] := by
  show natCharsGo (n + 1) n [] ≠ []
  unfold natCharsGo
  split
  · simp
  · exact natCharsGo_ne_nil n (n / 10) _ (by simp)

theorem digit_plain (b : Bool) (c : Char) (h : c.isDigit = true) :
    c ≠ '[' ∧ c ≠ ']' ∧ (c = '.' → b = true) := by
  refine ⟨?_, ?_, ?_⟩
  · intro he
    rw [he] at h
    exact absurd h (by decide)
  · intro he
    rw [he] at h
    exact absurd h (by decide)
  · intro he
    rw [he] at h
    exact absurd h (by decide)

theorem segWF_key (s : String) (h : segWF (.key s) = true) :
    s.data ≠ [] ∧ ∀ c ∈ s.data, c ≠ '.' ∧ c ≠ '[' ∧ c ≠ ']' := by
  simp only [segWF, Bool.and_eq_true, List.all_eq_true] at h
  constructor
  · intro hbad
    rw [hbad] at h
    exact absurd h.1 (by decide)
  · intro c hc
    have := h.2 c hc
    simp only [Bool.not_eq_true', Bool.or_eq_false_iff] at this
    exact ⟨by simpa using this.1.1, by simpa using this.1.2, by simpa using this.2⟩

theorem tvPush_nil (parts : List String) : tvPush parts [] = parts := rfl

theorem tvPush_ne (parts : List String) (cur : List Char) (h : cur ≠ []) :
    tvPush parts cur = parts ++ [(⟨cur⟩ : String)] := by
  unfold tvPush
  rw [if_neg (by cases cur; exact absurd rfl h; simp)]

theorem runChunks (dotted : Bool) :
    ∀ (segs : List PathSeg), (∀ sg ∈ segs, segWF sg = true) →
    ∀ (parts : List String) (cur : List Char),
    tvFinish ((chunksCat dotted segs).foldl tokStep ⟨parts, cur, false⟩) =
      tvPush parts cur ++ segs.map segTok
  | [], _, parts, cur => by
    simp [chunksCat, tvFinish_eq]
  | .key s :: rest, h, parts, cur => by
    have hwf := segWF_key s (h _ (List.mem_cons_self _ _))
    have hrest : ∀ sg ∈ rest, segWF sg = true :=
      fun sg hsg => h sg (List.mem_cons_of_mem _ hsg)
    show tvFinish ((('.' :: s.data ++ chunksCat dotted rest).foldl tokStep
      ⟨parts, cur, false⟩)) = tvPush parts cur ++ (s :: rest.map segTok)
    rw [List.cons_append, List.foldl_cons, tokStep_dot, List.foldl_append,
      foldl_tokStep_plain false s.data
        (fun c hc => ⟨(hwf.2 c hc).2.1, (hwf.2 c hc).2.2,
          fun he => absurd he (hwf.2 c hc).1⟩) _ [],
      List.nil_append, runChunks dotted rest hrest _ s.data,
      tvPush_ne _ _ hwf.1]
    simp
  | .idx n :: rest, h, parts, cur => by
    have hrest : ∀ sg ∈ rest, segWF sg = true :=
      fun sg hsg => h sg (List.mem_cons_of_mem _ hsg)
    have hmid : ∀ (P : List String) (C : List Char),
        (('[' :: ((natRepr n).data ++ [']'])) ++
          chunksCat dotted rest).foldl tokStep ⟨P, C, false⟩ =
        (chunksCat dotted rest).foldl tokStep
          ⟨tvPush P C ++ [natRepr n], [], false⟩ := by
      intro P C
      rw [List.cons_append, List.foldl_cons, tokStep_lbrack, List.append_assoc,
        List.foldl_append,
        foldl_tokStep_plain true (natRepr n).data
          (fun c hc => digit_plain true c (natRepr_digits n c hc)) _ [],
        List.nil_append, List.singleton_append, List.foldl_cons,
        tokStep_rbrack _ _ (natRepr_ne_nil n)]
    cases dotted with
    | false =>
      show tvFinish ((('[' :: ((natRepr n).data ++ [']'])) ++
        chunksCat false rest).foldl tokStep ⟨parts, cur, false⟩) =
        tvPush parts cur ++ (natRepr n :: rest.map segTok)
      rw [hmid parts cur, runChunks false rest hrest _ [], tvPush_nil]
      simp
    | true =>
      show tvFinish ((('.' :: ('[' :: ((natRepr n).data ++ [']']))) ++
        chunksCat true rest).foldl tokStep ⟨parts, cur, false⟩) =
        tvPush parts cur ++ (natRepr n :: rest.map segTok)
      rw [List.cons_append, List.foldl_cons, tokStep_dot,
        hmid (tvPush parts cur) [], tvPush_nil,
        runChunks true rest hrest _ [], tvPush_nil]
      simp

theorem chunkOf_true (sg : PathSeg) :
    chunkOf true sg = '.' :: (segKey sg).data := by
  cases sg with
  | key s => rfl
  | idx n => simp [chunkOf, segKey, idxKey_data]

theorem renderFold_code : ∀ (segs : List PathSeg) (acc : String), acc ≠ "" →
    (segs.foldl codeStep acc).data = acc.data ++ chunksCat true segs
  | [], acc, _ => by simp [chunksCat]
  | sg :: rest, acc, hacc => by
    rw [List.foldl_cons,
      renderFold_code rest (codeStep acc sg) (joinKey_ne_empty acc (segKey sg) hacc)]
    show (joinKey acc (segKey sg)).data ++ chunksCat true rest =
      acc.data ++ chunksCat true (sg :: rest)
    unfold joinKey
    rw [if_neg hacc, String.data_append, String.data_append, chunksCat, chunkOf_true]
    show acc.data ++ ['.'] ++ (segKey sg).data ++ chunksCat true rest =
      acc.data ++ ('.' :: (segKey sg).data ++ chunksCat true rest)
    simp

theorem renderFold_spec : ∀ (segs : List PathSeg) (acc : String),
    (segs.foldl specStep acc).data = acc.data ++ chunksCat false segs
  | [], acc => by simp [chunksCat]
  | .key s :: rest, acc => by
    rw [List.foldl_cons, renderFold_spec rest (specStep acc (.key s))]
    show (acc ++ "." ++ s).data ++ chunksCat false rest =
      acc.data ++ chunksCat false (.key s :: rest)
    rw [String.data_append, String.data_append, chunksCat]
    show acc.data ++ ['.'] ++ s.data ++ chunksCat false rest =
      acc.data ++ (('.' :: s.data) ++ chunksCat false rest)
    simp
  | .idx n :: rest, acc => by
    rw [List.foldl_cons, renderFold_spec rest (specStep acc (.idx n))]
    show (acc ++ idxKey n).data ++ chunksCat false rest =
      acc.data ++ chunksCat false (.idx n :: rest)
    rw [String.data_append, idxKey_data, chunksCat]
    show acc.data ++ ('[' :: ((natRepr n).data ++ [']'])) ++ chunksCat false rest =
      acc.data ++ (([] ++ '[' :: ((natRepr n).data ++ [']'])) ++ chunksCat false rest)
    simp

theorem resolveChunks (dotted : Bool) (segs : List PathSeg) (p : String)
    (hwf : ∀ sg ∈ segs, segWF sg = true)
    (hdata : p.data = ("root").data ++ chunksCat dotted segs)
    (hdotlead : ∃ tl, chunksCat dotted segs = '.' :: tl ∧ tl ≠ []) :
    resolveTokens p = some (segs.map segTok) := by
  obtain ⟨tl, htl, htlne⟩ := hdotlead
  have hpdata : p.data = 'r' :: 'o' :: 'o' :: 't' :: '.' :: tl := by
    rw [hdata, htl]
    rfl
  have hne1 : p ≠ "" := by
    intro h
    rw [h] at hpdata
    exact absurd (hpdata : ([] : List Char) = _) (by simp)
  have hne2 : p ≠ "root" := by
    intro h
    rw [h] at hpdata
    exact absurd (hpdata : (['r', 'o', 'o', 't'] : List Char) = _) (by simp)
  have hlead : strHasLead p "root." = true := by
    show listHasLead p.data ("root.").data = true
    rw [hpdata]
    show listHasLead ('r' :: 'o' :: 'o' :: 't' :: '.' :: tl)
      ['r', 'o', 'o', 't', '.'] = true
    simp [listHasLead, listHasLead_nil]
  have hclean : (⟨p.data.drop 5⟩ : String) = (⟨tl⟩ : String) := by
    rw [hpdata]
    rfl
  have hrun := runChunks dotted segs hwf [] []
  rw [htl, List.foldl_cons, tokStep_dot, tvPush_nil,
    List.nil_append] at hrun
  simp only [resolveTokens, decide_eq_false hne1, decide_eq_false hne2,
    Bool.or_self, Bool.false_eq_true, if_false, hlead, if_true]
  rw [hclean, tokenizePath_eq]
  have hne3 : (⟨tl⟩ : String) ≠ "" :=
    fun h => htlne (congrArg String.data h)
  rw [if_neg hne3]
  show some (tvFinish (tl.foldl tokStep ⟨[], [], false⟩)) = _
  rw [hrun]

theorem segKey_data_ne (sg : PathSeg) (h : segWF sg = true) :
    (segKey sg).data ≠ [] := by
  cases sg with
  | key s => exact (segWF_key s h).1
  | idx n =>
    rw [segKey, idxKey_data]
    simp

/-- C1 (amended): the flattener joins EVERY child segment with a dot —
the child of an array at index `i` gets path `parent.[i]`, not the
claimed `parent[i]` (so produced paths do contain the substring `.[`) —
but the external resolver tokenizes both the code's dotted grammar and
the spec's dot-free grammar to the same token list, except at a root
whose value is an array, where the spec grammar (and only it) picks up a
spurious leading `root` token. -/
theorem c1_amended_path_grammar :
    (∀ (v : JsonValue) (es : JsonElems) (i : Nat) (path : String) (depth : Nat)
        (st : JsonStats), path ≠ "" →
      ∃ rest, (processElems (.cons v es) i path depth st).1 =
          headNode v (idxKey i) path depth (decide (depth < 2)) :: rest ∧
        (headNode v (idxKey i) path depth (decide (depth < 2))).path =
          path ++ "." ++ "[" ++ natRepr i ++ "]") ∧
      (∀ segs : List PathSeg, (∀ sg ∈ segs, segWF sg = true) → segs ≠ [] →
        resolveTokens (renderCode segs) = some (segs.map segTok)) ∧
      (∀ (s₀ : String) (rest : List PathSeg),
        (∀ sg ∈ PathSeg.key s₀ :: rest, segWF sg = true) →
        resolveTokens (renderSpec (PathSeg.key s₀ :: rest)) =
          some ((PathSeg.key s₀ :: rest).map segTok)) ∧
      resolveTokens (renderSpec [PathSeg.idx 0]) = some ["root", "0"] ∧
      resolveTokens (renderCode [PathSeg.idx 0]) = some ["0"] := by
  refine ⟨?_, ?_, ?_, by decide, by decide⟩
  · intro v es i path depth st hpath
    obtain ⟨r, hr⟩ := processValue_shape v (idxKey i) path depth st
    refine ⟨r ++ (processElems es (i + 1) path depth
      (processValue v (idxKey i) path depth st).2).1, ?_, ?_⟩
    · show (processValue v (idxKey i) path depth st).1 ++
        (processElems es (i + 1) path depth
          (processValue v (idxKey i) path depth st).2).1 = _
      rw [hr, List.cons_append]
    · show joinKey path (idxKey i) = path ++ "." ++ "[" ++ natRepr i ++ "]"
      unfold joinKey idxKey
      rw [if_neg hpath]
      refine stringDataEq _ _ ?_
      simp [String.data_append]
  · intro segs hwf hne
    refine resolveChunks true segs _ hwf (renderFold_code segs "root" (by decide)) ?_
    cases segs with
    | nil => exact absurd rfl hne
    | cons sg rest =>
      refine ⟨(segKey sg).data ++ chunksCat true rest, ?_, ?_⟩
      · rw [chunksCat, chunkOf_true]
        rfl
      · intro hbad
        exact segKey_data_ne sg (hwf sg (List.mem_cons_self _ _))
          (List.append_eq_nil.mp hbad).1
  · intro s₀ rest hwf
    refine resolveChunks false (PathSeg.key s₀ :: rest) _ hwf
      (renderFold_spec (PathSeg.key s₀ :: rest) "root") ?_
    refine ⟨s₀.data ++ chunksCat false rest, rfl, ?_⟩
    intro hbad
    exact (segWF_key s₀ (hwf _ (List.mem_cons_self _ _))).1
      (List.append_eq_nil.mp hbad).1

/-- C1 witness: the flattener head-node path at a concrete array element,
and the resolver's tokens of a concrete rendered path. -/
theorem c1_amended_witness :
    (∃ rest, (processElems (.cons JsonValue.null .nil) 0 "root" 1 initStats).1 =
        headNode JsonValue.null (idxKey 0) "root" 1 (decide (1 < 2)) :: rest ∧
      (headNode JsonValue.null (idxKey 0) "root" 1 (decide (1 < 2))).path =
        "root" ++ "." ++ "[" ++ natRepr 0 ++ "]") ∧
      resolveTokens (renderCode [PathSeg.key "users", PathSeg.idx 2, PathSeg.key "name"]) =
        some ([PathSeg.key "users", PathSeg.idx 2, PathSeg.key "name"].map segTok) :=
  ⟨c1_amended_path_grammar.1 JsonValue.null .nil 0 "root" 1 initStats (by decide),
   c1_amended_path_grammar.2.1
     [PathSeg.key "users", PathSeg.idx 2, PathSeg.key "name"] (by decide) (by decide)⟩

/-! ## Claim C3 (amended): path uniqueness -/

/-- A usable object key for the dot-joined path grammar: nonempty and
dot-free. -/
def goodKey (k : String) : Bool :=
  !k.data.isEmpty && k.data.all (fun c => !(c == '.'))

/-- The keys of an object, in order. -/
def fieldKeys : JsonFields → List String
  | .nil => []
  | .cons k _ r => k :: fieldKeys r

/-- No key occurs twice (JS object literals cannot even represent a
duplicate, but the Value type can). -/
def distinctKeys : List String → Bool
  | [] => true
  | k :: r => !(r.any (· == k)) && distinctKeys r

mutual
/-- Every object key anywhere in the value is a `goodKey` and every
object's key list is duplicate-free. -/
def wfKeys : JsonValue → Bool
  | .obj fs => distinctKeys (fieldKeys fs) && wfKeysF fs
  | .arr es => wfKeysE es
  | _ => true
/-- Field version of `wfKeys`. -/
def wfKeysF : JsonFields → Bool
  | .nil => true
  | .cons k v r => goodKey k && wfKeys v && wfKeysF r
/-- Element version of `wfKeys`. -/
def wfKeysE : JsonElems → Bool
  | .nil => true
  | .cons v r => wfKeys v && wfKeysE r
end

/-- Number of dots in a character list. -/
def countDots (l : List Char) : Nat := l.count '.'

theorem goodKey_spec (k : String) (h : goodKey k = true) :
    k.data ≠ [] ∧ ∀ c ∈ k.data, c ≠ '.' := by
  simp only [goodKey, Bool.and_eq_true, List.all_eq_true] at h
  constructor
  · intro hbad
    rw [hbad] at h
    exact absurd h.1 (by decide)
  · intro c hc
    have := h.2 c hc
    simpa using this

theorem countDots_of_dotfree (l : List Char) (h : ∀ c ∈ l, c ≠ '.') :
    countDots l = 0 :=
  List.count_eq_zero.mpr (fun hmem => h '.' hmem rfl)

theorem countDots_append (a b : List Char) :
    countDots (a ++ b) = countDots a + countDots b :=
  List.count_append '.' a b

theorem countDots_join (path k : String) (hp : path ≠ "")
    (hk : ∀ c ∈ k.data, c ≠ '.') :
    countDots (joinKey path k).data = countDots path.data + 1 := by
  unfold joinKey
  rw [if_neg hp, String.data_append, String.data_append, countDots_append,
    countDots_append, countDots_of_dotfree k.data hk]
  rfl

theorem listHasLead_exists : ∀ (l q : List Char),
    listHasLead l q = true → ∃ t, l = q ++ t
  | l, [], _ => ⟨l, rfl⟩
  | [], q :: qs, h => by simp [listHasLead] at h
  | a :: as, b :: bs, h => by
    simp only [listHasLead, Bool.and_eq_true, beq_iff_eq] at h
    obtain ⟨t, ht⟩ := listHasLead_exists as bs h.2
    exact ⟨t, by rw [h.1, ht]; rfl⟩

theorem takeWhile_dotfree (k : List Char) (hk : ∀ c ∈ k, c ≠ '.') :
    ∀ (r : List Char), (r = [] ∨ ∃ t, r = '.' :: t) →
    (k ++ r).takeWhile (fun c => !(c == '.')) = k := by
  induction k with
  | nil =>
    intro r hr
    rcases hr with rfl | ⟨t, rfl⟩
    · rfl
    · simp [List.takeWhile]
  | cons c cs ih =>
    intro r hr
    have hc : (!(c == '.')) = true := by
      simpa using hk c (List.mem_cons_self _ _)
    rw [List.cons_append]
    simp only [List.takeWhile_cons, hc, if_true]
    rw [ih (fun x hx => hk x (List.mem_cons_of_mem _ hx)) r hr]

theorem rooted_decomp (path k p : String) (hpath : path ≠ "")
    (h : p = joinKey path k ∨ strHasLead p (joinKey path k ++ ".") = true) :
    ∃ r, p.data = path.data ++ '.' :: (k.data ++ r) ∧
      (r = [] ∨ ∃ t, r = '.' :: t) := by
  rcases h with rfl | h
  · refine ⟨[], ?_, Or.inl rfl⟩
    unfold joinKey
    rw [if_neg hpath, String.data_append, String.data_append]
    simp
  · obtain ⟨t, ht⟩ := listHasLead_exists _ _ h
    refine ⟨'.' :: t, ?_, Or.inr ⟨t, rfl⟩⟩
    rw [ht]
    show ((joinKey path k).data ++ (".").data) ++ t = _
    unfold joinKey
    rw [if_neg hpath, String.data_append, String.data_append]
    simp

theorem path_sep (path k m p : String) (hpath : path ≠ "")
    (hk : goodKey k = true) (hm : goodKey m = true) (hne : k ≠ m)
    (h1 : p = joinKey path k ∨ strHasLead p (joinKey path k ++ ".") = true)
    (h2 : p = joinKey path m ∨ strHasLead p (joinKey path m ++ ".") = true) :
    False := by
  obtain ⟨r1, hd1, hr1⟩ := rooted_decomp path k p hpath h1
  obtain ⟨r2, hd2, hr2⟩ := rooted_decomp path m p hpath h2
  have hcomb : path.data ++ '.' :: (k.data ++ r1) =
      path.data ++ '.' :: (m.data ++ r2) := by rw [← hd1, ← hd2]
  have htails : k.data ++ r1 = m.data ++ r2 := by
    have := List.append_cancel_left hcomb
    exact List.tail_eq_of_cons_eq this
  have hkeys : k.data = m.data := by
    have h1t := takeWhile_dotfree k.data (goodKey_spec k hk).2 r1 hr1
    have h2t := takeWhile_dotfree m.data (goodKey_spec m hm).2 r2 hr2
    rw [← h1t, ← h2t, htails]
  exact hne (stringDataEq _ _ hkeys)

theorem natCharsGo_spec : ∀ (fuel : Nat), ∀ (n : Nat) (acc : List Char),
    n < fuel → natCharsGo fuel n acc = natCharsAux n ++ acc := by
  intro fuel
  induction fuel using Nat.strong_induction_on with
  | _ fuel ih =>
    intro n acc hlt
    match fuel, hlt with
    | f + 1, hlt =>
      show natCharsGo (f + 1) n acc = natCharsAux n ++ acc
      unfold natCharsGo
      split
      · rename_i hn
        show _ = natCharsGo (n + 1) n [] ++ acc
        unfold natCharsGo
        rw [if_pos hn]
        rfl
      · rename_i hn
        have h10 : 10 ≤ n := Nat.le_of_not_lt hn
        have hdiv : n / 10 < n := Nat.div_lt_self (by omega) (by omega)
        have hle : n ≤ f := Nat.lt_succ_iff.mp hlt
        rw [ih f (Nat.lt_succ_self f) (n / 10) _ (by omega)]
        show _ = natCharsGo (n + 1) n [] ++ acc
        rw [show natCharsGo (n + 1) n [] =
            if n < 10 then Char.ofNat (48 + n) :: []
            else natCharsGo n (n / 10) (Char.ofNat (48 + n % 10) :: []) from rfl,
          if_neg hn, ih n hlt (n / 10) _ hdiv]
        simp

theorem natCharsAux_eq (n : Nat) :
    natCharsAux n = if n < 10 then [Char.ofNat (48 + n)]
      else natCharsAux (n / 10) ++ [Char.ofNat (48 + n % 10)] := by
  show natCharsGo (n + 1) n [] = _
  unfold natCharsGo
  split
  · rfl
  · rename_i hn
    have h10 : 10 ≤ n := Nat.le_of_not_lt hn
    exact natCharsGo_spec n (n / 10) _ (Nat.div_lt_self (by omega) (by omega))

theorem digitChar_inj (a b : Nat) (ha : a < 10) (hb : b < 10)
    (h : Char.ofNat (48 + a) = Char.ofNat (48 + b)) : a = b := by
  interval_cases a <;> interval_cases b <;>
    first
      | rfl
      | exact absurd h (by decide)

theorem natCharsAux_ne_nil (n : Nat) : natCharsAux n ≠ [] := natRepr_ne_nil n

theorem natCharsAux_inj : ∀ (a b : Nat), natCharsAux a = natCharsAux b → a = b := by
  intro a
  induction a using Nat.strong_induction_on with
  | _ a ih =>
    intro b h
    rw [natCharsAux_eq a, natCharsAux_eq b] at h
    by_cases ha : a < 10 <;> by_cases hb : b < 10
    · rw [if_pos ha, if_pos hb] at h
      exact digitChar_inj a b ha hb (List.singleton_injective h)
    · rw [if_pos ha, if_neg hb] at h
      have hlen := congrArg List.length h
      have hpos : 0 < (natCharsAux (b / 10)).length :=
        List.length_pos.mpr (natCharsAux_ne_nil _)
      simp only [List.length_append, List.length_cons, List.length_nil] at hlen
      omega
    · rw [if_neg ha, if_pos hb] at h
      have hlen := congrArg List.length h
      have hpos : 0 < (natCharsAux (a / 10)).length :=
        List.length_pos.mpr (natCharsAux_ne_nil _)
      simp only [List.length_append, List.length_cons, List.length_nil] at hlen
      omega
    · rw [if_neg ha, if_neg hb] at h
      obtain ⟨h1, h2⟩ := List.append_inj' h rfl
      have hdiv : a / 10 = b / 10 :=
        ih (a / 10) (Nat.div_lt_self (by omega) (by omega)) (b / 10) h1
      have hmod : a % 10 = b % 10 :=
        digitChar_inj _ _ (Nat.mod_lt _ (by omega)) (Nat.mod_lt _ (by omega))
          (List.singleton_injective h2)
      omega

theorem natRepr_inj (a b : Nat) (h : natRepr a = natRepr b) : a = b :=
  natCharsAux_inj a b (congrArg String.data h)

theorem idxKey_inj (i j : Nat) (h : idxKey i = idxKey j) : i = j := by
  have hd : (idxKey i).data = (idxKey j).data := congrArg String.data h
  rw [idxKey_data, idxKey_data] at hd
  have htail : (natRepr i).data ++ [']'] = (natRepr j).data ++ [']'] :=
    List.tail_eq_of_cons_eq hd
  have hrepr : (natRepr i).data = (natRepr j).data := by
    have := congrArg List.dropLast htail
    simpa using this
  exact natCharsAux_inj i j hrepr

theorem goodKey_idxKey (i : Nat) : goodKey (idxKey i) = true := by
  simp only [goodKey, Bool.and_eq_true, List.all_eq_true]
  refine ⟨?_, ?_⟩
  · rw [idxKey_data]
    rfl
  · intro c hc
    rw [idxKey_data] at hc
    simp only [List.mem_cons, List.mem_append, List.mem_singleton,
      List.not_mem_nil, or_false] at hc
    rcases hc with rfl | hc | rfl
    · decide
    · have hdig := natRepr_digits i c hc
      have hne : c ≠ '.' :=
        fun he => Bool.false_ne_true ((digit_plain false c hdig).2.2 he)
      simpa using hne
    · decide

theorem wfKeysF_mem : ∀ (fs : JsonFields) (k : String), wfKeysF fs = true →
    k ∈ fieldKeys fs → goodKey k = true
  | .nil, k, _, hmem => by simp [fieldKeys] at hmem
  | .cons k0 v r, k, hwf, hmem => by
    simp only [wfKeysF, Bool.and_eq_true] at hwf
    rcases List.mem_cons.mp hmem with rfl | hmem2
    · exact hwf.1.1
    · exact wfKeysF_mem r k hwf.2 hmem2

theorem distinctKeys_head (k : String) (r : List String)
    (h : distinctKeys (k :: r) = true) :
    (∀ m ∈ r, m ≠ k) ∧ distinctKeys r = true := by
  simp only [distinctKeys, Bool.and_eq_true, Bool.not_eq_true',
    List.any_eq_false] at h
  exact ⟨fun m hm => by simpa using h.1 m hm, h.2⟩

theorem not_self_under (cp k : String) (hcp : cp ≠ "")
    (h : cp = joinKey cp k ∨ strHasLead cp (joinKey cp k ++ ".") = true) :
    False := by
  have hjoin : (joinKey cp k).data = cp.data ++ '.' :: k.data := by
    unfold joinKey
    rw [if_neg hcp, String.data_append, String.data_append]
    simp
  rcases h with heq | hlead
  · have hd := congrArg String.data heq
    rw [hjoin] at hd
    have hlen := congrArg List.length hd
    simp only [List.length_append, List.length_cons] at hlen
    omega
  · have hlen := listHasLead_length _ _ hlead
    rw [String.data_append, hjoin,
      show (".").data = ['.'] from rfl] at hlen
    simp only [List.length_append, List.length_cons, List.length_nil] at hlen
    omega

theorem pfea_rooted : ∀ (fs : JsonFields) (path : String) (depth : Nat),
    path ≠ "" → ∀ n ∈ processFieldsWithExpandAll fs path depth,
    ∃ k, k ∈ fieldKeys fs ∧
      (n.path = joinKey path k ∨ strHasLead n.path (joinKey path k ++ ".") = true)
  | .nil, _, _, _, n, hmem => by simp [processFieldsWithExpandAll] at hmem
  | .cons k v r, path, depth, hpath, n, hmem => by
    simp only [processFieldsWithExpandAll, List.mem_append] at hmem
    rcases hmem with hmem | hmem
    · exact ⟨k, List.mem_cons_self _ _,
        pvea_path_lead v k path depth n (joinKey_ne_empty path k hpath) hmem⟩
    · obtain ⟨m, hm, hr⟩ := pfea_rooted r path depth hpath n hmem
      exact ⟨m, List.mem_cons_of_mem _ hm, hr⟩

theorem peea_rooted : ∀ (es : JsonElems) (i : Nat) (path : String) (depth : Nat),
    path ≠ "" → ∀ n ∈ processElemsWithExpandAll es i path depth,
    ∃ j, i ≤ j ∧
      (n.path = joinKey path (idxKey j) ∨
        strHasLead n.path (joinKey path (idxKey j) ++ ".") = true)
  | .nil, _, _, _, _, n, hmem => by simp [processElemsWithExpandAll] at hmem
  | .cons v r, i, path, depth, hpath, n, hmem => by
    simp only [processElemsWithExpandAll, List.mem_append] at hmem
    rcases hmem with hmem | hmem
    · exact ⟨i, Nat.le_refl i,
        pvea_path_lead v (idxKey i) path depth n
          (joinKey_ne_empty path (idxKey i) hpath) hmem⟩
    · obtain ⟨j, hj, hr⟩ := peea_rooted r (i + 1) path depth hpath n hmem
      exact ⟨j, by omega, hr⟩

mutual
theorem pvea_nodup : ∀ (v : JsonValue) (key path : String) (depth : Nat),
    wfKeys v = true → joinKey path key ≠ "" →
    ((processValueWithExpandAll v key path depth).map JsonNode.path).Nodup
  | .str s, _, _, _, _, _ => by simp [processValueWithExpandAll]
  | .num t, _, _, _, _, _ => by simp [processValueWithExpandAll]
  | .boolean b, _, _, _, _, _ => by simp [processValueWithExpandAll]
  | .null, _, _, _, _, _ => by simp [processValueWithExpandAll]
  | .obj fs, key, path, depth, hwf, hcp => by
    simp only [wfKeys, Bool.and_eq_true] at hwf
    simp only [processValueWithExpandAll, List.map_cons]
    refine List.nodup_cons.mpr ⟨?_, pfea_nodup fs (joinKey path key) (depth + 1)
      hwf.2 hwf.1 hcp⟩
    intro hmem
    obtain ⟨n, hn, hpathn⟩ := List.mem_map.mp hmem
    obtain ⟨k, _, hr⟩ := pfea_rooted fs (joinKey path key) (depth + 1) hcp n hn
    rw [hpathn] at hr
    exact not_self_under (joinKey path key) k hcp hr
  | .arr es, key, path, depth, hwf, hcp => by
    simp only [processValueWithExpandAll, List.map_cons]
    refine List.nodup_cons.mpr ⟨?_, peea_nodup es 0 (joinKey path key) (depth + 1)
      (by simpa [wfKeys] using hwf) hcp⟩
    intro hmem
    obtain ⟨n, hn, hpathn⟩ := List.mem_map.mp hmem
    obtain ⟨j, _, hr⟩ := peea_rooted es 0 (joinKey path key) (depth + 1) hcp n hn
    rw [hpathn] at hr
    exact not_self_under (joinKey path key) (idxKey j) hcp hr
theorem pfea_nodup : ∀ (fs : JsonFields) (path : String) (depth : Nat),
    wfKeysF fs = true → distinctKeys (fieldKeys fs) = true → path ≠ "" →
    ((processFieldsWithExpandAll fs path depth).map JsonNode.path).Nodup
  | .nil, _, _, _, _, _ => by simp [processFieldsWithExpandAll]
  | .cons k v r, path, depth, hwf, hdk, hpath => by
    simp only [wfKeysF, Bool.and_eq_true] at hwf
    have hd := distinctKeys_head k (fieldKeys r) hdk
    simp only [processFieldsWithExpandAll, List.map_append]
    refine List.nodup_append.mpr
      ⟨pvea_nodup v k path depth hwf.1.2 (joinKey_ne_empty path k hpath),
       pfea_nodup r path depth hwf.2 hd.2 hpath, ?_⟩
    intro a ha hb
    obtain ⟨n1, hn1, rfl⟩ := List.mem_map.mp ha
    obtain ⟨n2, hn2, hp2⟩ := List.mem_map.mp hb
    have h1 := pvea_path_lead v k path depth n1 (joinKey_ne_empty path k hpath) hn1
    obtain ⟨m, hm, h2⟩ := pfea_rooted r path depth hpath n2 hn2
    rw [hp2] at h2
    exact path_sep path k m n1.path hpath hwf.1.1 (wfKeysF_mem r m hwf.2 hm)
      (Ne.symm (hd.1 m hm)) h1 h2
theorem peea_nodup : ∀ (es : JsonElems) (i : Nat) (path : String) (depth : Nat),
    wfKeysE es = true → path ≠ "" →
    ((processElemsWithExpandAll es i path depth).map JsonNode.path).Nodup
  | .nil, _, _, _, _, _ => by simp [processElemsWithExpandAll]
  | .cons v r, i, path, depth, hwf, hpath => by
    simp only [wfKeysE, Bool.and_eq_true] at hwf
    simp only [processElemsWithExpandAll, List.map_append]
    refine List.nodup_append.mpr
      ⟨pvea_nodup v (idxKey i) path depth hwf.1
         (joinKey_ne_empty path (idxKey i) hpath),
       peea_nodup r (i + 1) path depth hwf.2 hpath, ?_⟩
    intro a ha hb
    obtain ⟨n1, hn1, rfl⟩ := List.mem_map.mp ha
    obtain ⟨n2, hn2, hp2⟩ := List.mem_map.mp hb
    have h1 := pvea_path_lead v (idxKey i) path depth n1
      (joinKey_ne_empty path (idxKey i) hpath) hn1
    obtain ⟨j, hj, h2⟩ := peea_rooted r (i + 1) path depth hpath n2 hn2
    rw [hp2] at h2
    refine path_sep path (idxKey i) (idxKey j) n1.path hpath (goodKey_idxKey i)
      (goodKey_idxKey j) (fun he => ?_) h1 h2
    have := idxKey_inj i j he
    omega
end

mutual
theorem pv_sub : ∀ (v : JsonValue) (key path : String) (depth : Nat)
    (st : JsonStats),
    ((processValue v key path depth st).1.map JsonNode.path).Sublist
      ((processValueWithExpandAll v key path depth).map JsonNode.path)
  | .str s, key, path, depth, st => by
    simp [processValue, processValueWithExpandAll]
  | .num t, key, path, depth, st => by
    simp [processValue, processValueWithExpandAll]
  | .boolean b, key, path, depth, st => by
    simp [processValue, processValueWithExpandAll]
  | .null, key, path, depth, st => by
    simp [processValue, processValueWithExpandAll]
  | .obj fs, key, path, depth, st => by
    simp only [processValue, processValueWithExpandAll, List.map_cons]
    split
    · simp only [List.map_cons]
      exact List.Sublist.cons₂ _ (pf_sub fs (joinKey path key) (depth + 1) _)
    · simp only [List.map_cons, List.map_nil]
      exact List.Sublist.cons₂ _ (List.nil_sublist _)
  | .arr es, key, path, depth, st => by
    simp only [processValue, processValueWithExpandAll, List.map_cons]
    split
    · simp only [List.map_cons]
      exact List.Sublist.cons₂ _ (pe_sub es 0 (joinKey path key) (depth + 1) _)
    · simp only [List.map_cons, List.map_nil]
      exact List.Sublist.cons₂ _ (List.nil_sublist _)
theorem pf_sub : ∀ (fs : JsonFields) (path : String) (depth : Nat)
    (st : JsonStats),
    ((processFields fs path depth st).1.map JsonNode.path).Sublist
      ((processFieldsWithExpandAll fs path depth).map JsonNode.path)
  | .nil, _, _, _ => by simp [processFields, processFieldsWithExpandAll]
  | .cons k v r, path, depth, st => by
    simp only [processFields, processFieldsWithExpandAll, List.map_append]
    exact List.Sublist.append (pv_sub v k path depth st) (pf_sub r path depth _)
theorem pe_sub : ∀ (es : JsonElems) (i : Nat) (path : String) (depth : Nat)
    (st : JsonStats),
    ((processElems es i path depth st).1.map JsonNode.path).Sublist
      ((processElemsWithExpandAll es i path depth).map JsonNode.path)
  | .nil, _, _, _, _ => by simp [processElems, processElemsWithExpandAll]
  | .cons v r, i, path, depth, st => by
    simp only [processElems, processElemsWithExpandAll, List.map_append]
    exact List.Sublist.append (pv_sub v (idxKey i) path depth st)
      (pe_sub r (i + 1) path depth _)
end

mutual
theorem pvws_sub : ∀ (v : JsonValue) (key path : String) (depth : Nat)
    (pte mp : List String),
    ((processValueWithSearch v key path depth pte mp).map JsonNode.path).Sublist
      ((processValueWithExpandAll v key path depth).map JsonNode.path)
  | .str s, key, path, depth, pte, mp => by
    simp [processValueWithSearch, processValueWithExpandAll]
  | .num t, key, path, depth, pte, mp => by
    simp [processValueWithSearch, processValueWithExpandAll]
  | .boolean b, key, path, depth, pte, mp => by
    simp [processValueWithSearch, processValueWithExpandAll]
  | .null, key, path, depth, pte, mp => by
    simp [processValueWithSearch, processValueWithExpandAll]
  | .obj fs, key, path, depth, pte, mp => by
    simp only [processValueWithSearch, processValueWithExpandAll, List.map_cons]
    split
    · simp only [List.map_cons]
      exact List.Sublist.cons₂ _
        (pfws_sub fs (joinKey path key) (depth + 1) pte mp)
    · simp only [List.map_cons, List.map_nil]
      exact List.Sublist.cons₂ _ (List.nil_sublist _)
  | .arr es, key, path, depth, pte, mp => by
    simp only [processValueWithSearch, processValueWithExpandAll, List.map_cons]
    split
    · simp only [List.map_cons]
      exact List.Sublist.cons₂ _
        (pews_sub es 0 (joinKey path key) (depth + 1) pte mp)
    · simp only [List.map_cons, List.map_nil]
      exact List.Sublist.cons₂ _ (List.nil_sublist _)
theorem pfws_sub : ∀ (fs : JsonFields) (path : String) (depth : Nat)
    (pte mp : List String),
    ((processFieldsWithSearch fs path depth pte mp).map JsonNode.path).Sublist
      ((processFieldsWithExpandAll fs path depth).map JsonNode.path)
  | .nil, _, _, _, _ => by
    simp [processFieldsWithSearch, processFieldsWithExpandAll]
  | .cons k v r, path, depth, pte, mp => by
    simp only [processFieldsWithSearch, processFieldsWithExpandAll,
      List.map_append]
    exact List.Sublist.append (pvws_sub v k path depth pte mp)
      (pfws_sub r path depth pte mp)
theorem pews_sub : ∀ (es : JsonElems) (i : Nat) (path : String) (depth : Nat)
    (pte mp : List String),
    ((processElemsWithSearch es i path depth pte mp).map JsonNode.path).Sublist
      ((processElemsWithExpandAll es i path depth).map JsonNode.path)
  | .nil, _, _, _, _, _ => by
    simp [processElemsWithSearch, processElemsWithExpandAll]
  | .cons v r, i, path, depth, pte, mp => by
    simp only [processElemsWithSearch, processElemsWithExpandAll,
      List.map_append]
    exact List.Sublist.append (pvws_sub v (idxKey i) path depth pte mp)
      (pews_sub r (i + 1) path depth pte mp)
end

mutual
theorem pv_facts : ∀ (v : JsonValue) (key path : String) (depth : Nat)
    (st : JsonStats) (r : Nat), wfKeys v = true → joinKey path key ≠ "" →
    depth ≤ 2 → countDots (joinKey path key).data = depth + r →
    ∀ n ∈ (processValue v key path depth st).1,
      wfKeys n.value = true ∧ n.type = getValueType n.value ∧
      n.isExpanded = decide (n.depth < 2) ∧ n.path ≠ "" ∧
      countDots n.path.data = n.depth + r ∧ n.depth ≤ 2
  | .str s, key, path, depth, st, r, hwf, hcp, hd2, hcd, n, hmem => by
    simp only [processValue, List.mem_singleton] at hmem
    subst hmem
    exact ⟨rfl, rfl, rfl, hcp, hcd, hd2⟩
  | .num t, key, path, depth, st, r, hwf, hcp, hd2, hcd, n, hmem => by
    simp only [processValue, List.mem_singleton] at hmem
    subst hmem
    exact ⟨rfl, rfl, rfl, hcp, hcd, hd2⟩
  | .boolean b, key, path, depth, st, r, hwf, hcp, hd2, hcd, n, hmem => by
    simp only [processValue, List.mem_singleton] at hmem
    subst hmem
    exact ⟨rfl, rfl, rfl, hcp, hcd, hd2⟩
  | .null, key, path, depth, st, r, hwf, hcp, hd2, hcd, n, hmem => by
    simp only [processValue, List.mem_singleton] at hmem
    subst hmem
    exact ⟨rfl, rfl, rfl, hcp, hcd, hd2⟩
  | .obj fs, key, path, depth, st, r, hwf, hcp, hd2, hcd, n, hmem => by
    have hwf2 := hwf
    simp only [wfKeys, Bool.and_eq_true] at hwf2
    simp only [processValue] at hmem
    split at hmem
    · rename_i hexp
      have hdlt : depth < 2 := of_decide_eq_true hexp
      rcases List.mem_cons.mp hmem with rfl | hmem2
      · exact ⟨hwf, rfl, rfl, hcp, hcd, hd2⟩
      · exact pf_facts fs (joinKey path key) (depth + 1) _ r hwf2.2 hcp
          (by omega) (by omega) n hmem2
    · simp only [List.mem_singleton] at hmem
      subst hmem
      exact ⟨hwf, rfl, rfl, hcp, hcd, hd2⟩
  | .arr es, key, path, depth, st, r, hwf, hcp, hd2, hcd, n, hmem => by
    simp only [processValue] at hmem
    split at hmem
    · rename_i hexp
      have hdlt : depth < 2 := of_decide_eq_true hexp
      rcases List.mem_cons.mp hmem with rfl | hmem2
      · exact ⟨hwf, rfl, rfl, hcp, hcd, hd2⟩
      · exact pe_facts es 0 (joinKey path key) (depth + 1) _ r
          (by simpa [wfKeys] using hwf) hcp (by omega) (by omega) n hmem2
    · simp only [List.mem_singleton] at hmem
      subst hmem
      exact ⟨hwf, rfl, rfl, hcp, hcd, hd2⟩
theorem pf_facts : ∀ (fs : JsonFields) (path : String) (depth : Nat)
    (st : JsonStats) (r : Nat), wfKeysF fs = true → path ≠ "" →
    depth ≤ 2 → countDots path.data + 1 = depth + r →
    ∀ n ∈ (processFields fs path depth st).1,
      wfKeys n.value = true ∧ n.type = getValueType n.value ∧
      n.isExpanded = decide (n.depth < 2) ∧ n.path ≠ "" ∧
      countDots n.path.data = n.depth + r ∧ n.depth ≤ 2
  | .nil, _, _, _, _, _, _, _, _, n, hmem => by
    simp [processFields] at hmem
  | .cons k v rest, path, depth, st, r, hwf, hpath, hd2, hcd, n, hmem => by
    simp only [wfKeysF, Bool.and_eq_true] at hwf
    simp only [processFields, List.mem_append] at hmem
    rcases hmem with hmem | hmem
    · refine pv_facts v k path depth st r hwf.1.2
        (joinKey_ne_empty path k hpath) hd2 ?_ n hmem
      rw [countDots_join path k hpath (goodKey_spec k hwf.1.1).2]
      omega
    · exact pf_facts rest path depth _ r hwf.2 hpath hd2 hcd n hmem
theorem pe_facts : ∀ (es : JsonElems) (i : Nat) (path : String) (depth : Nat)
    (st : JsonStats) (r : Nat), wfKeysE es = true → path ≠ "" →
    depth ≤ 2 → countDots path.data + 1 = depth + r →
    ∀ n ∈ (processElems es i path depth st).1,
      wfKeys n.value = true ∧ n.type = getValueType n.value ∧
      n.isExpanded = decide (n.depth < 2) ∧ n.path ≠ "" ∧
      countDots n.path.data = n.depth + r ∧ n.depth ≤ 2
  | .nil, _, _, _, _, _, _, _, _, _, n, hmem => by
    simp [processElems] at hmem
  | .cons v rest, i, path, depth, st, r, hwf, hpath, hd2, hcd, n, hmem => by
    simp only [wfKeysE, Bool.and_eq_true] at hwf
    simp only [processElems, List.mem_append] at hmem
    rcases hmem with hmem | hmem
    · refine pv_facts v (idxKey i) path depth st r hwf.1
        (joinKey_ne_empty path (idxKey i) hpath) hd2 ?_ n hmem
      rw [countDots_join path (idxKey i) hpath
        (goodKey_spec (idxKey i) (goodKey_idxKey i)).2]
      omega
    · exact pe_facts rest (i + 1) path depth _ r hwf.2 hpath hd2 hcd n hmem
end

theorem map_set_same : ∀ (l : List JsonNode) (i : Nat) (a b : JsonNode),
    l.get? i = some b → a.path = b.path →
    (l.set i a).map JsonNode.path = l.map JsonNode.path
  | [], i, _, _, h, _ => by simp at h
  | x :: xs, 0, a, b, h, hp => by
    obtain rfl : x = b := by simpa using h
    simp only [List.set, List.map_cons, hp]
  | x :: xs, i + 1, a, b, h, hp => by
    simp only [List.set, List.map_cons]
    rw [map_set_same xs i a b (by simpa using h) hp]

theorem collapseNode_paths_sub (nodes : List JsonNode) (t : String) :
    ((collapseNode nodes t).map JsonNode.path).Sublist
      (nodes.map JsonNode.path) := by
  cases hfind : findNode nodes t with
  | none =>
    have hcn : collapseNode nodes t = nodes := by
      unfold collapseNode
      rw [hfind]
    rw [hcn]
  | some im =>
    have hcn : collapseNode nodes t =
        (if (!im.2.isExpanded) = true then nodes
         else (nodes.set im.1 { im.2 with isExpanded := false }).take (im.1 + 1) ++
           ((nodes.set im.1 { im.2 with isExpanded := false }).drop
             (im.1 + 1)).dropWhile (descendantTest t)) := by
      unfold collapseNode
      rw [hfind]
    rw [hcn]
    by_cases hexp : (!im.2.isExpanded) = true
    · rw [if_pos hexp]
    · rw [if_neg hexp]
      have hs := findNode_sound nodes t im.1 im.2 (by rw [hfind])
      have hbase : ((nodes.set im.1 { im.2 with isExpanded := false }).map
          JsonNode.path) = nodes.map JsonNode.path :=
        map_set_same nodes im.1 _ im.2 hs.1 rfl
      have h1 : ((nodes.set im.1 { im.2 with isExpanded := false }).take (im.1 + 1) ++
          ((nodes.set im.1 { im.2 with isExpanded := false }).drop
            (im.1 + 1)).dropWhile (descendantTest t)).Sublist
          (nodes.set im.1 { im.2 with isExpanded := false }) := by
        conv_rhs => rw [← List.take_append_drop (im.1 + 1)
          (nodes.set im.1 { im.2 with isExpanded := false })]
        exact List.Sublist.append_left (List.dropWhile_sublist _) _
      have h2 := h1.map JsonNode.path
      rw [hbase] at h2
      exact h2

theorem foldl_collapse_paths_sub : ∀ (l : List JsonNode) (acc : List JsonNode),
    ((l.foldl (fun a n => collapseNode a n.path) acc).map JsonNode.path).Sublist
      (acc.map JsonNode.path)
  | [], acc => List.Sublist.refl _
  | x :: xs, acc =>
    (foldl_collapse_paths_sub xs (collapseNode acc x.path)).trans
      (collapseNode_paths_sub acc x.path)

theorem collapseAllNodes_paths_sub (nodes : List JsonNode) :
    ((collapseAllNodes nodes).map JsonNode.path).Sublist
      (nodes.map JsonNode.path) :=
  foldl_collapse_paths_sub _ nodes

theorem countDots_of_lead (p q : String) (h : strHasLead p (q ++ ".") = true) :
    countDots q.data + 1 ≤ countDots p.data := by
  obtain ⟨tl, htl⟩ := listHasLead_exists p.data (q ++ ".").data h
  rw [String.data_append] at htl
  have : countDots p.data = countDots q.data + 1 + countDots tl := by
    rw [htl, countDots_append, countDots_append,
      show countDots (".").data = 1 from rfl]
  omega

theorem expandChildren_cases (node : JsonNode) (st : JsonStats)
    (htype : node.type = getValueType node.value) :
    (expandChildren node st).1 = [] ∨
      (∃ es, node.value = .arr es ∧ (expandChildren node st).1 =
        (processElems es 0 node.path (node.depth + 1) st).1) ∨
      (∃ fs, node.value = .obj fs ∧ (expandChildren node st).1 =
        (processFields fs node.path (node.depth + 1) st).1) := by
  cases hv : node.value with
  | arr es =>
    exact Or.inr (Or.inl ⟨es, rfl, by simp [expandChildren, htype, hv, getValueType]⟩)
  | obj fs =>
    exact Or.inr (Or.inr ⟨fs, rfl, by simp [expandChildren, htype, hv, getValueType]⟩)
  | str s => exact Or.inl (by simp [expandChildren, htype, hv, getValueType])
  | num t => exact Or.inl (by simp [expandChildren, htype, hv, getValueType])
  | boolean b => exact Or.inl (by simp [expandChildren, htype, hv, getValueType])
  | null => exact Or.inl (by simp [expandChildren, htype, hv, getValueType])

theorem expandNode_paths_nodup (ns : List JsonNode) (t : String) (st : JsonStats)
    (hnodup : (ns.map JsonNode.path).Nodup)
    (hfacts : ∀ n ∈ ns, wfKeys n.value = true ∧ n.type = getValueType n.value ∧
      n.isExpanded = decide (n.depth < 2) ∧ n.path ≠ "" ∧
      countDots n.path.data = n.depth ∧ n.depth ≤ 2) :
    ((expandNode ns t st).1.map JsonNode.path).Nodup := by
  cases hfind : findNode ns t with
  | none =>
    have he : (expandNode ns t st).1 = ns := by
      unfold expandNode
      rw [hfind]
    rw [he]
    exact hnodup
  | some im =>
    have he : (expandNode ns t st).1 =
        (if im.2.isExpanded = true then (ns, st)
         else ((ns.set im.1 { im.2 with isExpanded := true }).take (im.1 + 1) ++
           (expandChildren im.2 st).1 ++
           (ns.set im.1 { im.2 with isExpanded := true }).drop (im.1 + 1),
           (expandChildren im.2 st).2)).1 := by
      unfold expandNode
      rw [hfind]
    by_cases hexp : im.2.isExpanded = true
    · rw [he, if_pos hexp]
      exact hnodup
    · rw [he, if_neg hexp]
      show (((ns.set im.1 { im.2 with isExpanded := true }).take (im.1 + 1) ++
          (expandChildren im.2 st).1 ++
          (ns.set im.1 { im.2 with isExpanded := true }).drop (im.1 + 1)).map
          JsonNode.path).Nodup
      obtain ⟨hget, hpatht, _⟩ := findNode_sound ns t im.1 im.2 (by rw [hfind])
      have hmem : im.2 ∈ ns := List.get?_mem hget
      obtain ⟨hwv, htype, hexpeq, hpne, hdots, hdle⟩ := hfacts im.2 hmem
      have hb : im.2.isExpanded = false := by
        revert hexp
        cases im.2.isExpanded <;> simp
      have hd2 : im.2.depth = 2 := by
        have hdec : decide (im.2.depth < 2) = false := by rw [← hexpeq, hb]
        have := of_decide_eq_false hdec
        omega
      have hbase : ((ns.set im.1 { im.2 with isExpanded := true }).map
          JsonNode.path) = ns.map JsonNode.path :=
        map_set_same ns im.1 _ im.2 hget rfl
      have hchild : ∀ n ∈ (expandChildren im.2 st).1,
          strHasLead n.path (im.2.path ++ ".") = true := by
        intro n hn
        rcases expandChildren_cases im.2 st htype with hnil | ⟨es, hv, hC⟩ | ⟨fs, hv, hC⟩
        · rw [hnil] at hn
          simp at hn
        · rw [hC] at hn
          have hsub := pe_sub es 0 im.2.path (im.2.depth + 1) st
          have hmm : n.path ∈ (processElemsWithExpandAll es 0 im.2.path
              (im.2.depth + 1)).map JsonNode.path :=
            hsub.subset (List.mem_map_of_mem _ hn)
          obtain ⟨m, hm, hpm⟩ := List.mem_map.mp hmm
          rw [← hpm]
          exact peea_path_lead es 0 im.2.path (im.2.depth + 1) m hpne hm
        · rw [hC] at hn
          have hsub := pf_sub fs im.2.path (im.2.depth + 1) st
          have hmm : n.path ∈ (processFieldsWithExpandAll fs im.2.path
              (im.2.depth + 1)).map JsonNode.path :=
            hsub.subset (List.mem_map_of_mem _ hn)
          obtain ⟨m, hm, hpm⟩ := List.mem_map.mp hmm
          rw [← hpm]
          exact pfea_path_lead fs im.2.path (im.2.depth + 1) m hpne hm
      have hchildnodup : ((expandChildren im.2 st).1.map JsonNode.path).Nodup := by
        rcases expandChildren_cases im.2 st htype with hnil | ⟨es, hv, hC⟩ | ⟨fs, hv, hC⟩
        · rw [hnil]
          simp
        · rw [hC]
          refine List.Nodup.sublist (pe_sub es 0 im.2.path (im.2.depth + 1) st) ?_
          refine peea_nodup es 0 im.2.path (im.2.depth + 1) ?_ hpne
          rw [hv] at hwv
          simpa [wfKeys] using hwv
        · rw [hC]
          refine List.Nodup.sublist (pf_sub fs im.2.path (im.2.depth + 1) st) ?_
          rw [hv] at hwv
          simp only [wfKeys, Bool.and_eq_true] at hwv
          exact pfea_nodup fs im.2.path (im.2.depth + 1) hwv.2 hwv.1 hpne
      have hcount_old : ∀ p ∈ ns.map JsonNode.path, countDots p.data ≤ 2 := by
        intro p hp
        obtain ⟨n, hn, rfl⟩ := List.mem_map.mp hp
        obtain ⟨_, _, _, _, hc, hdl⟩ := hfacts n hn
        omega
      have hcount_new : ∀ p ∈ (expandChildren im.2 st).1.map JsonNode.path,
          3 ≤ countDots p.data := by
        intro p hp
        obtain ⟨n, hn, rfl⟩ := List.mem_map.mp hp
        have hge := countDots_of_lead n.path im.2.path (hchild n hn)
        omega
      rw [List.map_append, List.map_append, List.map_take, List.map_drop, hbase]
      have hPn : ((ns.map JsonNode.path).take (im.1 + 1) ++
          (ns.map JsonNode.path).drop (im.1 + 1)).Nodup := by
        rw [List.take_append_drop]
        exact hnodup
      rw [List.nodup_append] at hPn
      refine List.nodup_append.mpr
        ⟨List.nodup_append.mpr ⟨hPn.1, hchildnodup, ?_⟩, hPn.2.1, ?_⟩
      · intro a ha hb
        have h2 := hcount_new a hb
        have h1 := hcount_old a (List.take_subset _ _ ha)
        omega
      · intro a ha hb
        rcases List.mem_append.mp ha with ha | ha
        · exact hPn.2.2 ha hb
        · have h2 := hcount_new a ha
          have h1 := hcount_old a (List.drop_subset _ _ hb)
          omega

theorem expandAllNodes_paths_nodup (ns : List JsonNode)
    (hnodup : (ns.map JsonNode.path).Nodup)
    (hwf : ∀ n ∈ ns, wfKeys n.value = true) :
    ((expandAllNodes ns).map JsonNode.path).Nodup := by
  cases hfind : ns.find? (fun n => n.key == "root") with
  | none =>
    have he : expandAllNodes ns = ns := by
      unfold expandAllNodes
      rw [hfind]
    rw [he]
    exact hnodup
  | some rootNode =>
    have he : expandAllNodes ns =
        processValueWithExpandAll rootNode.value "root" "" 0 := by
      unfold expandAllNodes
      rw [hfind]
    rw [he]
    have hmem : rootNode ∈ ns := List.mem_of_find?_eq_some hfind
    exact pvea_nodup rootNode.value "root" "" 0 (hwf rootNode hmem) (by decide)

theorem searchNodes_cases (ns : List JsonNode) (q : String) (cs : Bool) :
    (searchNodes ns q cs).1 = ns ∨
      ∃ rootNode pte mp, ns.find? (fun n => n.key == "root") = some rootNode ∧
        (searchNodes ns q cs).1 =
          processValueWithSearch rootNode.value "root" "" 0 pte mp := by
  unfold searchNodes
  by_cases ht : jsTrim q = ""
  · rw [if_pos ht]
    exact Or.inl rfl
  · rw [if_neg ht]
    cases hfind : ns.find? (fun n => n.key == "root") with
    | none => exact Or.inl rfl
    | some rootNode =>
      by_cases hempty : (findMatchingPaths rootNode.value "root" ""
          (if cs then q else lowerStr q) cs []).isEmpty = true
      · refine Or.inl ?_
        show (if (findMatchingPaths rootNode.value "root" ""
            (if cs then q else lowerStr q) cs []).isEmpty = true
          then (ns, ([] : List Nat)) else (_, _)).1 = ns
        rw [if_pos hempty]
      · refine Or.inr ⟨rootNode,
          buildPathsToExpand (findMatchingPaths rootNode.value "root" ""
            (if cs then q else lowerStr q) cs []),
          findMatchingPaths rootNode.value "root" ""
            (if cs then q else lowerStr q) cs [], rfl, ?_⟩
        show (if (findMatchingPaths rootNode.value "root" ""
            (if cs then q else lowerStr q) cs []).isEmpty = true
          then (ns, ([] : List Nat))
          else (processValueWithSearch rootNode.value "root" "" 0
            (buildPathsToExpand (findMatchingPaths rootNode.value "root" ""
              (if cs then q else lowerStr q) cs []))
            (findMatchingPaths rootNode.value "root" ""
              (if cs then q else lowerStr q) cs []), _)).1 = _
        rw [if_neg hempty]

theorem searchNodes_paths_nodup (ns : List JsonNode) (q : String) (cs : Bool)
    (hnodup : (ns.map JsonNode.path).Nodup)
    (hwf : ∀ n ∈ ns, wfKeys n.value = true) :
    ((searchNodes ns q cs).1.map JsonNode.path).Nodup := by
  rcases searchNodes_cases ns q cs with he | ⟨rootNode, pte, mp, hfind, he⟩
  · rw [he]
    exact hnodup
  · rw [he]
    have hmem : rootNode ∈ ns := List.mem_of_find?_eq_some hfind
    refine List.Nodup.sublist (pvws_sub rootNode.value "root" "" 0 pte mp) ?_
    exact pvea_nodup rootNode.value "root" "" 0 (hwf rootNode hmem) (by decide)

/-- C3 (amended): with every object key in the value nonempty, dot-free
and duplicate-free within its object, and a nonempty dot-free root key,
the paths of `convertToNodes(v, rootKey)` are pairwise distinct, and this
uniqueness is preserved by `expandNode`, `collapseNode`,
`expandAllNodes`, `collapseAllNodes` and `searchNodes` applied to that
sequence. The original claim's parenthetical — that uniqueness holds
even for object keys containing `.` or `[` — is refuted separately: a
dotted key collides with a nested path. -/
theorem c3_amended_path_uniqueness :
    ∀ (v : JsonValue) (rootKey : String), wfKeys v = true →
    goodKey rootKey = true →
    ((convertToNodes v rootKey).1.map JsonNode.path).Nodup ∧
      (∀ t st, ((expandNode (convertToNodes v rootKey).1 t st).1.map
        JsonNode.path).Nodup) ∧
      (∀ t, ((collapseNode (convertToNodes v rootKey).1 t).map
        JsonNode.path).Nodup) ∧
      ((expandAllNodes (convertToNodes v rootKey).1).map JsonNode.path).Nodup ∧
      ((collapseAllNodes (convertToNodes v rootKey).1).map JsonNode.path).Nodup ∧
      (∀ q cs, ((searchNodes (convertToNodes v rootKey).1 q cs).1.map
        JsonNode.path).Nodup) := by
  intro v rootKey hwf hroot
  have hrne : rootKey ≠ "" := by
    intro h
    exact (goodKey_spec rootKey hroot).1 (congrArg String.data h)
  have hfresh : ((convertToNodes v rootKey).1.map JsonNode.path).Nodup :=
    List.Nodup.sublist (pv_sub v rootKey "" 0 initStats)
      (pvea_nodup v rootKey "" 0 hwf hrne)
  have hfacts : ∀ n ∈ (convertToNodes v rootKey).1,
      wfKeys n.value = true ∧ n.type = getValueType n.value ∧
      n.isExpanded = decide (n.depth < 2) ∧ n.path ≠ "" ∧
      countDots n.path.data = n.depth ∧ n.depth ≤ 2 := by
    intro n hn
    obtain ⟨a, b, c, d, e, f⟩ := pv_facts v rootKey "" 0 initStats 0 hwf hrne
      (by omega) (countDots_of_dotfree rootKey.data (goodKey_spec rootKey hroot).2)
      n hn
    exact ⟨a, b, c, d, by omega, f⟩
  refine ⟨hfresh, ?_, ?_, ?_, ?_, ?_⟩
  · intro t st
    exact expandNode_paths_nodup (convertToNodes v rootKey).1 t st hfresh hfacts
  · intro t
    exact List.Nodup.sublist (collapseNode_paths_sub (convertToNodes v rootKey).1 t)
      hfresh
  · exact expandAllNodes_paths_nodup (convertToNodes v rootKey).1 hfresh
      (fun n hn => (hfacts n hn).1)
  · exact List.Nodup.sublist
      (collapseAllNodes_paths_sub (convertToNodes v rootKey).1) hfresh
  · intro q cs
    exact searchNodes_paths_nodup (convertToNodes v rootKey).1 q cs hfresh
      (fun n hn => (hfacts n hn).1)

/-- C3 witness: uniqueness and its preservation at a concrete nested
object, with a concrete expansion target and a concrete search query. -/
theorem c3_amended_witness :
    ((convertToNodes (jsonObjOf [("a", jsonObjOf [("b", JsonValue.num "1")])])
        "root").1.map JsonNode.path).Nodup ∧
      ((expandNode (convertToNodes (jsonObjOf [("a", jsonObjOf
          [("b", JsonValue.num "1")])]) "root").1 "root.a.b" initStats).1.map
        JsonNode.path).Nodup ∧
      ((searchNodes (convertToNodes (jsonObjOf [("a", jsonObjOf
          [("b", JsonValue.num "1")])]) "root").1 "b" false).1.map
        JsonNode.path).Nodup :=
  ⟨(c3_amended_path_uniqueness
      (jsonObjOf [("a", jsonObjOf [("b", JsonValue.num "1")])]) "root"
      (by decide) (by decide)).1,
   (c3_amended_path_uniqueness
      (jsonObjOf [("a", jsonObjOf [("b", JsonValue.num "1")])]) "root"
      (by decide) (by decide)).2.1 "root.a.b" initStats,
   (c3_amended_path_uniqueness
      (jsonObjOf [("a", jsonObjOf [("b", JsonValue.num "1")])]) "root"
      (by decide) (by decide)).2.2.2.2.2 "b" false⟩

/-! ## Claim C5 (amended): expand then collapse restores the fresh flatten -/

theorem get?_set_self {α : Type _} : ∀ (l : List α) (i : Nat) (a : α),
    i < l.length → (l.set i a).get? i = some a
  | [], i, _, h => by simp at h
  | x :: xs, 0, a, _ => rfl
  | x :: xs, i + 1, a, h => by
    simp only [List.set, List.get?]
    exact get?_set_self xs i a (by simpa using h)

theorem get?_set_ne {α : Type _} : ∀ (l : List α) (i j : Nat) (a : α),
    i ≠ j → (l.set i a).get? j = l.get? j
  | [], _, _, _, _ => by simp
  | x :: xs, 0, 0, a, h => absurd rfl h
  | x :: xs, 0, j + 1, a, _ => rfl
  | x :: xs, i + 1, 0, a, _ => rfl
  | x :: xs, i + 1, j + 1, a, h => by
    simp only [List.set, List.get?]
    exact get?_set_ne xs i j a (fun he => h (by omega))

theorem get?_take_lt {α : Type _} : ∀ (l : List α) (n j : Nat),
    j < n → (l.take n).get? j = l.get? j
  | [], _, _, _ => by simp
  | x :: xs, 0, j, h => by omega
  | x :: xs, n + 1, 0, _ => rfl
  | x :: xs, n + 1, j + 1, h => by
    simp only [List.take, List.get?]
    exact get?_take_lt xs n j (by omega)

theorem set_append_left {α : Type _} : ∀ (l₁ l₂ : List α) (i : Nat) (a : α),
    i < l₁.length → (l₁ ++ l₂).set i a = l₁.set i a ++ l₂
  | [], _, i, _, h => by simp at h
  | x :: xs, l₂, 0, a, _ => rfl
  | x :: xs, l₂, i + 1, a, h => by
    simp only [List.cons_append, List.set]
    exact congrArg (x :: ·) (set_append_left xs l₂ i a (by simpa using h))

theorem take_set_comm {α : Type _} : ∀ (l : List α) (i : Nat) (a : α) (n : Nat),
    (l.set i a).take n = (l.take n).set i a
  | [], _, _, _ => by simp
  | x :: xs, 0, a, 0 => rfl
  | x :: xs, 0, a, n + 1 => rfl
  | x :: xs, i + 1, a, 0 => rfl
  | x :: xs, i + 1, a, n + 1 => by
    simp only [List.set, List.take]
    rw [take_set_comm xs i a n]

theorem set_set_again {α : Type _} : ∀ (l : List α) (i : Nat) (a b : α),
    (l.set i a).set i b = l.set i b
  | [], _, _, _ => by simp
  | x :: xs, 0, a, b => rfl
  | x :: xs, i + 1, a, b => by
    simp only [List.set]
    rw [set_set_again xs i a b]

theorem set_same {α : Type _} : ∀ (l : List α) (i : Nat) (a : α),
    l.get? i = some a → l.set i a = l
  | [], _, _, h => by simp at h
  | x :: xs, 0, a, h => by
    obtain rfl : x = a := by simpa using h
    rfl
  | x :: xs, i + 1, a, h => by
    simp only [List.set]
    rw [set_same xs i a (by simpa using h)]

theorem drop_set_lt {α : Type _} : ∀ (l : List α) (i : Nat) (a : α) (n : Nat),
    i < n → (l.set i a).drop n = l.drop n
  | [], _, _, _, _ => by simp
  | x :: xs, 0, a, n + 1, _ => rfl
  | x :: xs, i + 1, a, n + 1, h => by
    simp only [List.set, List.drop]
    exact drop_set_lt xs i a n (by omega)

theorem dropWhile_append_all {α : Type _} (p : α → Bool) :
    ∀ (c b : List α), (∀ x ∈ c, p x = true) →
    (c ++ b).dropWhile p = b.dropWhile p
  | [], b, _ => rfl
  | x :: xs, b, h => by
    rw [List.cons_append, List.dropWhile_cons_of_pos (h x (by simp))]
    exact dropWhile_append_all p xs b (fun y hy => h y (by simp [hy]))

theorem findNode_intro : ∀ (l : List JsonNode) (t : String) (i : Nat)
    (node : JsonNode), l.get? i = some node → node.path = t →
    (∀ j, j < i → ∀ m, l.get? j = some m → m.path ≠ t) →
    findNode l t = some (i, node)
  | [], _, i, _, h, _, _ => by simp at h
  | x :: xs, t, 0, node, h, hp, _ => by
    obtain rfl : x = node := by simpa using h
    unfold findNode
    rw [if_pos (by simpa using hp)]
  | x :: xs, t, i + 1, node, h, hp, hj => by
    have hx : x.path ≠ t := hj 0 (by omega) x rfl
    unfold findNode
    rw [if_neg (by simpa using hx),
      findNode_intro xs t i node (by simpa using h) hp
        (fun j hji m hm => hj (j + 1) (by omega) m (by simpa using hm))]
    rfl

/-- Bracket-free key text. -/
def brFree (k : String) : Bool := k.data.all (fun c => !(c == '['))

/-- A key that cannot collide with the path grammar: nonempty, dot-free
and bracket-free. -/
def cleanKey (k : String) : Bool := goodKey k && brFree k

/-- Segment well-formedness for the expand/collapse round trip. -/
def segClean : PathSeg → Bool
  | .key s => cleanKey s
  | .idx _ => true

theorem segClean_dotfree (sg : PathSeg) (h : segClean sg = true) :
    ∀ c ∈ (segKey sg).data, c ≠ '.' := by
  cases sg with
  | key s =>
    simp only [segClean, cleanKey, Bool.and_eq_true] at h
    exact (goodKey_spec s h.1).2
  | idx n => exact (goodKey_spec _ (goodKey_idxKey n)).2

theorem segClean_ne_nil (sg : PathSeg) (h : segClean sg = true) :
    (segKey sg).data ≠ [] := by
  cases sg with
  | key s =>
    simp only [segClean, cleanKey, Bool.and_eq_true] at h
    exact (goodKey_spec s h.1).1
  | idx n => exact (goodKey_spec _ (goodKey_idxKey n)).1

theorem brFree_spec (k : String) (h : brFree k = true) : '[' ∉ k.data := by
  simp only [brFree, List.all_eq_true] at h
  intro hmem
  have := h '[' hmem
  simp at this

theorem count_lbrack_idxKey (n : Nat) :
    List.count '[' (idxKey n).data = 1 := by
  rw [idxKey_data, List.count_cons, List.count_append]
  have h1 : List.count '[' (natRepr n).data = 0 :=
    List.count_eq_zero.mpr (fun hmem =>
      (digit_plain false '[' (natRepr_digits n '[' hmem)).1 rfl)
  rw [h1]
  rfl

theorem seg_no_bracket_ext (τ σ : PathSeg) (r : List Char)
    (hτ : segClean τ = true) (hσ : segClean σ = true)
    (heq : (segKey σ).data = (segKey τ).data ++ '[' :: r) : False := by
  cases σ with
  | key s =>
    simp only [segClean, cleanKey, Bool.and_eq_true] at hσ
    refine brFree_spec s hσ.2 ?_
    show '[' ∈ (segKey (.key s)).data
    rw [heq]
    exact List.mem_append_right _ (List.mem_cons_self _ _)
  | idx m =>
    cases τ with
    | key s =>
      simp only [segClean, cleanKey, Bool.and_eq_true] at hτ
      obtain ⟨hne, _⟩ := goodKey_spec s hτ.1
      cases hsdata : s.data with
      | nil => exact hne hsdata
      | cons c cs =>
        refine brFree_spec s hτ.2 ?_
        have h2 : (idxKey m).data = c :: (cs ++ '[' :: r) := by
          rw [show (idxKey m).data = (segKey (PathSeg.idx m)).data from rfl, heq]
          show s.data ++ '[' :: r = _
          rw [hsdata]
          rfl
        rw [idxKey_data] at h2
        have hc : '[' = c := by simpa using congrArg List.head? h2
        rw [hsdata, ← hc]
        exact List.mem_cons_self _ _
    | idx m2 =>
      have hcnt := congrArg (List.count '[') heq
      rw [show (segKey (PathSeg.idx m)).data = (idxKey m).data from rfl,
        count_lbrack_idxKey, List.count_append,
        show (segKey (PathSeg.idx m2)).data = (idxKey m2).data from rfl,
        count_lbrack_idxKey, List.count_cons] at hcnt
      simp at hcnt

theorem chunks_no_bracket_ext : ∀ (st sq : List PathSeg) (r : List Char),
    (∀ sg ∈ st, segClean sg = true) → (∀ sg ∈ sq, segClean sg = true) →
    sq.length = st.length →
    chunksCat true sq = chunksCat true st ++ '[' :: r → False
  | [], [], r, _, _, _, heq => by simp [chunksCat] at heq
  | [], sg :: _, r, _, _, hlen, _ => by simp at hlen
  | sg :: _, [], r, _, _, hlen, _ => by simp at hlen
  | τ :: st2, σ :: sq2, r, hst, hsq, hlen, heq => by
    have htc := hst τ (List.mem_cons_self _ _)
    have hsc := hsq σ (List.mem_cons_self _ _)
    rw [chunksCat, chunksCat, chunkOf_true, chunkOf_true, List.cons_append,
      List.cons_append, List.cons_append] at heq
    have htails : (segKey σ).data ++ chunksCat true sq2 =
        (segKey τ).data ++ (chunksCat true st2 ++ '[' :: r) := by
      have := List.tail_eq_of_cons_eq heq
      rw [this, List.append_assoc]
    cases st2 with
    | nil =>
      have hnil : sq2 = [] := List.length_eq_zero.mp (by simpa using hlen)
      subst hnil
      simp only [chunksCat, List.append_nil, List.nil_append] at htails
      exact seg_no_bracket_ext τ σ r htc hsc htails
    | cons τ2 st3 =>
      cases sq2 with
      | nil => simp at hlen
      | cons σ2 sq3 =>
        have hsg1 :
            (List.takeWhile (fun c => !(c == '.')) ((segKey σ).data ++
              chunksCat true (σ2 :: sq3))) = (segKey σ).data := by
          refine takeWhile_dotfree (segKey σ).data (segClean_dotfree σ hsc) _ ?_
          right
          exact ⟨(segKey σ2).data ++ chunksCat true sq3,
            by rw [chunksCat, chunkOf_true]; rfl⟩
        have htg1 :
            (List.takeWhile (fun c => !(c == '.')) ((segKey τ).data ++
              (chunksCat true (τ2 :: st3) ++ '[' :: r))) = (segKey τ).data := by
          refine takeWhile_dotfree (segKey τ).data (segClean_dotfree τ htc) _ ?_
          right
          exact ⟨((segKey τ2).data ++ chunksCat true st3) ++ '[' :: r,
            by rw [chunksCat, chunkOf_true]; rfl⟩
        have hkeys : (segKey σ).data = (segKey τ).data := by
          rw [← hsg1, ← htg1, htails]
        rw [hkeys] at htails
        have hrest := List.append_cancel_left htails
        exact chunks_no_bracket_ext (τ2 :: st3) (σ2 :: sq3) r
          (fun sg h => hst sg (List.mem_cons_of_mem _ h))
          (fun sg h => hsq sg (List.mem_cons_of_mem _ h))
          (by simpa using hlen) hrest

mutual
theorem pv_seg : ∀ (v : JsonValue) (key path : String) (depth : Nat)
    (st : JsonStats), keysAll cleanKey v = true →
    ∀ n ∈ (processValue v key path depth st).1,
    ∃ segs : List PathSeg, (∀ sg ∈ segs, segClean sg = true) ∧
      segs.length + depth = n.depth ∧
      n.path = segs.foldl codeStep (joinKey path key)
  | .str s, key, path, depth, st, _, n, hmem => by
    simp only [processValue, List.mem_singleton] at hmem
    subst hmem
    exact ⟨[], by simp, by simp, rfl⟩
  | .num t, key, path, depth, st, _, n, hmem => by
    simp only [processValue, List.mem_singleton] at hmem
    subst hmem
    exact ⟨[], by simp, by simp, rfl⟩
  | .boolean b, key, path, depth, st, _, n, hmem => by
    simp only [processValue, List.mem_singleton] at hmem
    subst hmem
    exact ⟨[], by simp, by simp, rfl⟩
  | .null, key, path, depth, st, _, n, hmem => by
    simp only [processValue, List.mem_singleton] at hmem
    subst hmem
    exact ⟨[], by simp, by simp, rfl⟩
  | .obj fs, key, path, depth, st, hcl, n, hmem => by
    simp only [processValue] at hmem
    split at hmem
    · rcases List.mem_cons.mp hmem with rfl | hmem2
      · exact ⟨[], by simp, by simp, rfl⟩
      · obtain ⟨segs, hc, hlen, hp⟩ := pf_seg fs (joinKey path key) (depth + 1) _
          (by simpa [keysAll] using hcl) n hmem2
        exact ⟨segs, hc, by omega, hp⟩
    · simp only [List.mem_singleton] at hmem
      subst hmem
      exact ⟨[], by simp, by simp, rfl⟩
  | .arr es, key, path, depth, st, hcl, n, hmem => by
    simp only [processValue] at hmem
    split at hmem
    · rcases List.mem_cons.mp hmem with rfl | hmem2
      · exact ⟨[], by simp, by simp, rfl⟩
      · obtain ⟨segs, hc, hlen, hp⟩ := pe_seg es 0 (joinKey path key) (depth + 1) _
          (by simpa [keysAll] using hcl) n hmem2
        exact ⟨segs, hc, by omega, hp⟩
    · simp only [List.mem_singleton] at hmem
      subst hmem
      exact ⟨[], by simp, by simp, rfl⟩
theorem pf_seg : ∀ (fs : JsonFields) (path : String) (depth : Nat)
    (st : JsonStats), keysAllF cleanKey fs = true →
    ∀ n ∈ (processFields fs path depth st).1,
    ∃ segs : List PathSeg, (∀ sg ∈ segs, segClean sg = true) ∧
      segs.length + depth = n.depth + 1 ∧
      n.path = segs.foldl codeStep path
  | .nil, _, _, _, _, n, hmem => by simp [processFields] at hmem
  | .cons k v rest, path, depth, st, hcl, n, hmem => by
    simp only [keysAllF, Bool.and_eq_true] at hcl
    simp only [processFields, List.mem_append] at hmem
    rcases hmem with hmem | hmem
    · obtain ⟨segs, hc, hlen, hp⟩ := pv_seg v k path depth st hcl.1.2 n hmem
      refine ⟨PathSeg.key k :: segs, ?_, by simp; omega, hp⟩
      intro sg hsg
      rcases List.mem_cons.mp hsg with rfl | hsg2
      · exact hcl.1.1
      · exact hc sg hsg2
    · exact pf_seg rest path depth _ hcl.2 n hmem
theorem pe_seg : ∀ (es : JsonElems) (i : Nat) (path : String) (depth : Nat)
    (st : JsonStats), keysAllE cleanKey es = true →
    ∀ n ∈ (processElems es i path depth st).1,
    ∃ segs : List PathSeg, (∀ sg ∈ segs, segClean sg = true) ∧
      segs.length + depth = n.depth + 1 ∧
      n.path = segs.foldl codeStep path
  | .nil, _, _, _, _, _, n, hmem => by simp [processElems] at hmem
  | .cons v rest, i, path, depth, st, hcl, n, hmem => by
    simp only [keysAllE, Bool.and_eq_true] at hcl
    simp only [processElems, List.mem_append] at hmem
    rcases hmem with hmem | hmem
    · obtain ⟨segs, hc, hlen, hp⟩ := pv_seg v (idxKey i) path depth st hcl.1 n hmem
      refine ⟨PathSeg.idx i :: segs, ?_, by simp; omega, hp⟩
      intro sg hsg
      rcases List.mem_cons.mp hsg with rfl | hsg2
      · rfl
      · exact hc sg hsg2
    · exact pe_seg rest (i + 1) path depth _ hcl.2 n hmem
end

theorem expandChildren_lead (node : JsonNode) (st : JsonStats)
    (htype : node.type = getValueType node.value) (hpne : node.path ≠ "") :
    ∀ n ∈ (expandChildren node st).1,
    strHasLead n.path (node.path ++ ".") = true := by
  intro n hn
  rcases expandChildren_cases node st htype with hnil | ⟨es, hv, hC⟩ | ⟨fs, hv, hC⟩
  · rw [hnil] at hn
    simp at hn
  · rw [hC] at hn
    have hsub := pe_sub es 0 node.path (node.depth + 1) st
    have hmm : n.path ∈ (processElemsWithExpandAll es 0 node.path
        (node.depth + 1)).map JsonNode.path :=
      hsub.subset (List.mem_map_of_mem _ hn)
    obtain ⟨m, hm, hpm⟩ := List.mem_map.mp hmm
    rw [← hpm]
    exact peea_path_lead es 0 node.path (node.depth + 1) m hpne hm
  · rw [hC] at hn
    have hsub := pf_sub fs node.path (node.depth + 1) st
    have hmm : n.path ∈ (processFieldsWithExpandAll fs node.path
        (node.depth + 1)).map JsonNode.path :=
      hsub.subset (List.mem_map_of_mem _ hn)
    obtain ⟨m, hm, hpm⟩ := List.mem_map.mp hmm
    rw [← hpm]
    exact pfea_path_lead fs node.path (node.depth + 1) m hpne hm

theorem fresh_no_descendant (ns : List JsonNode) (rootKey t : String)
    (hrne : rootKey ≠ "")
    (hdots : ∀ n ∈ ns, countDots n.path.data = n.depth ∧ n.depth ≤ 2)
    (hseg : ∀ n ∈ ns, ∃ segs : List PathSeg,
      (∀ sg ∈ segs, segClean sg = true) ∧ segs.length = n.depth ∧
      n.path = segs.foldl codeStep rootKey)
    (node : JsonNode) (hmem : node ∈ ns) (ht : node.path = t)
    (hd2 : node.depth = 2) :
    ∀ b ∈ ns, descendantTest t b = false := by
  intro b hb
  obtain ⟨hbd, hble⟩ := hdots b hb
  obtain ⟨htd, _⟩ := hdots node hmem
  rw [ht] at htd
  unfold descendantTest
  rw [Bool.or_eq_false_iff]
  constructor
  · by_contra h
    have h1 : strHasLead b.path (t ++ ".") = true := by
      revert h
      cases strHasLead b.path (t ++ ".") <;> simp
    have := countDots_of_lead b.path t h1
    omega
  · by_contra h
    have h1 : strHasLead b.path (t ++ "[") = true := by
      revert h
      cases strHasLead b.path (t ++ "[") <;> simp
    obtain ⟨r, hr⟩ := listHasLead_exists b.path.data (t ++ "[").data h1
    rw [String.data_append, show ("[").data = ['['] from rfl] at hr
    have hr2 : b.path.data = t.data ++ '[' :: r := by
      rw [hr, List.append_assoc]
      rfl
    have hge : countDots t.data ≤ countDots b.path.data := by
      rw [hr2, countDots_append]
      omega
    obtain ⟨sb, hsbc, hsbl, hsbp⟩ := hseg b hb
    obtain ⟨st2, hstc, hstl, hstp⟩ := hseg node hmem
    rw [ht] at hstp
    have hbdata : b.path.data = rootKey.data ++ chunksCat true sb := by
      rw [hsbp]
      exact renderFold_code sb rootKey hrne
    have htdata : t.data = rootKey.data ++ chunksCat true st2 := by
      rw [hstp]
      exact renderFold_code st2 rootKey hrne
    rw [hbdata, htdata, List.append_assoc] at hr2
    have hcc := List.append_cancel_left hr2
    exact chunks_no_bracket_ext st2 sb r hstc hsbc (by omega) hcc

theorem expand_collapse_restore (ns : List JsonNode) (t : String)
    (st : JsonStats) (i : Nat) (node : JsonNode)
    (hfind : findNode ns t = some (i, node))
    (hcoll : node.isExpanded = false)
    (hDall : ∀ b ∈ ns, descendantTest t b = false)
    (hClead : ∀ c ∈ (expandChildren node st).1, descendantTest t c = true) :
    collapseNode (expandNode ns t st).1 t = ns := by
  obtain ⟨hget, hpatht, hfirst⟩ := findNode_sound ns t i node hfind
  have hilt : i < ns.length := by
    by_contra h
    have hnone : ns.get? i = none := List.get?_eq_none.mpr (by omega)
    rw [hnone] at hget
    exact absurd hget (by simp)
  have hEif : (expandNode ns t st).1 =
      (if node.isExpanded = true then (ns, st)
       else ((ns.set i { node with isExpanded := true }).take (i + 1) ++
         (expandChildren node st).1 ++
         (ns.set i { node with isExpanded := true }).drop (i + 1),
         (expandChildren node st).2)).1 := by
    unfold expandNode
    rw [hfind]
  have hE : (expandNode ns t st).1 =
      (ns.set i { node with isExpanded := true }).take (i + 1) ++
        (expandChildren node st).1 ++
        (ns.set i { node with isExpanded := true }).drop (i + 1) := by
    rw [hEif, if_neg (by simp [hcoll])]
  have hlenA : ((ns.set i { node with isExpanded := true }).take (i + 1)).length
      = i + 1 := by
    rw [List.length_take, List.length_set]
    omega
  have hEgeti : (expandNode ns t st).1.get? i =
      some { node with isExpanded := true } := by
    rw [hE, List.get?_append (by rw [List.length_append, hlenA]; omega),
      List.get?_append (by rw [hlenA]; omega),
      get?_take_lt _ _ _ (by omega)]
    exact get?_set_self ns i _ hilt
  have hEgetj : ∀ j, j < i → ∀ m, (expandNode ns t st).1.get? j = some m →
      m.path ≠ t := by
    intro j hj m hm
    rw [hE, List.get?_append (by rw [List.length_append, hlenA]; omega),
      List.get?_append (by rw [hlenA]; omega),
      get?_take_lt _ _ _ (by omega), get?_set_ne ns i j _ (by omega)] at hm
    exact hfirst j hj m hm
  have hfind2 : findNode (expandNode ns t st).1 t =
      some (i, { node with isExpanded := true }) :=
    findNode_intro _ t i _ hEgeti hpatht hEgetj
  have hback : ({ ({ node with isExpanded := true } : JsonNode) with
      isExpanded := false } : JsonNode) = node := by
    cases node
    simp_all
  have hCif : collapseNode (expandNode ns t st).1 t =
      (if (!({ node with isExpanded := true } : JsonNode).isExpanded) = true
       then (expandNode ns t st).1
       else ((expandNode ns t st).1.set i
           ({ ({ node with isExpanded := true } : JsonNode) with
             isExpanded := false })).take (i + 1) ++
         (((expandNode ns t st).1.set i
           ({ ({ node with isExpanded := true } : JsonNode) with
             isExpanded := false })).drop (i + 1)).dropWhile
           (descendantTest t)) := by
    unfold collapseNode
    rw [hfind2]
  rw [hCif, if_neg (by simp), hback]
  have hsetE : (expandNode ns t st).1.set i node =
      ns.take (i + 1) ++ (expandChildren node st).1 ++ ns.drop (i + 1) := by
    rw [hE, set_append_left _ _ _ _ (by rw [List.length_append, hlenA]; omega),
      set_append_left _ _ _ _ (by rw [hlenA]; omega),
      ← take_set_comm, set_set_again, set_same ns i node hget,
      drop_set_lt _ _ _ _ (by omega)]
  rw [hsetE]
  have hT : ((ns.take (i + 1) ++ (expandChildren node st).1 ++
      ns.drop (i + 1)).take (i + 1)) = ns.take (i + 1) := by
    rw [List.append_assoc]
    exact List.take_left' (by rw [List.length_take]; omega)
  have hD : ((ns.take (i + 1) ++ (expandChildren node st).1 ++
      ns.drop (i + 1)).drop (i + 1)) =
      (expandChildren node st).1 ++ ns.drop (i + 1) := by
    rw [List.append_assoc]
    exact List.drop_left' (by rw [List.length_take]; omega)
  rw [hT, hD, dropWhile_append_all (descendantTest t) _ _ hClead]
  cases hB : ns.drop (i + 1) with
  | nil =>
    show ns.take (i + 1) ++ [].dropWhile (descendantTest t) = ns
    rw [List.dropWhile_nil, List.append_nil]
    have := List.take_append_drop (i + 1) ns
    rw [hB, List.append_nil] at this
    exact this
  | cons b bs =>
    have hbmem : b ∈ ns :=
      List.drop_subset (i + 1) ns (by rw [hB]; exact List.mem_cons_self _ _)
    rw [List.dropWhile_cons_of_neg (by simp [hDall b hbmem]), ← hB,
      List.take_append_drop]

/-- C5 (amended): on a freshly flattened sequence whose object keys are
nonempty, dot-free and bracket-free and whose root key is nonempty and
dot-free, `collapseNode(expandNode(nodes, p), p)` restores `nodes`
whenever `p` is the path of a node found COLLAPSED (in a fresh flatten
that is exactly the depth-2 frontier, containers included); for expanded
container targets — every container of depth 0 or 1, which the original
claim also covers — the round trip shrinks the sequence instead, because
`expandNode` is a no-op on an expanded node while `collapseNode` is
not. -/
theorem c5_amended_expand_collapse :
    ∀ (v : JsonValue) (rootKey : String), wfKeys v = true →
    keysAll cleanKey v = true → goodKey rootKey = true →
    ∀ (t : String) (st : JsonStats) (i : Nat) (node : JsonNode),
    findNode (convertToNodes v rootKey).1 t = some (i, node) →
    node.isExpanded = false →
    collapseNode (expandNode (convertToNodes v rootKey).1 t st).1 t =
      (convertToNodes v rootKey).1 := by
  intro v rootKey hwf hclean hroot t st i node hfind hcoll
  have hrne : rootKey ≠ "" := fun h =>
    (goodKey_spec rootKey hroot).1 (congrArg String.data h)
  have hfacts : ∀ n ∈ (convertToNodes v rootKey).1,
      wfKeys n.value = true ∧ n.type = getValueType n.value ∧
      n.isExpanded = decide (n.depth < 2) ∧ n.path ≠ "" ∧
      countDots n.path.data = n.depth ∧ n.depth ≤ 2 := by
    intro n hn
    obtain ⟨a, b, c, d, e, f⟩ := pv_facts v rootKey "" 0 initStats 0 hwf hrne
      (by omega) (countDots_of_dotfree rootKey.data (goodKey_spec rootKey hroot).2)
      n hn
    exact ⟨a, b, c, d, by omega, f⟩
  obtain ⟨hget, hpatht, _⟩ := findNode_sound _ t i node hfind
  have hmemt : node ∈ (convertToNodes v rootKey).1 := List.get?_mem hget
  obtain ⟨hwv, htype, hexpeq, hpne, hdots0, hdle⟩ := hfacts node hmemt
  have hd2 : node.depth = 2 := by
    have hdec : decide (node.depth < 2) = false := by rw [← hexpeq, hcoll]
    have := of_decide_eq_false hdec
    omega
  have hseg : ∀ n ∈ (convertToNodes v rootKey).1, ∃ segs : List PathSeg,
      (∀ sg ∈ segs, segClean sg = true) ∧ segs.length = n.depth ∧
      n.path = segs.foldl codeStep rootKey := by
    intro n hn
    obtain ⟨segs, hc, hlen, hp⟩ := pv_seg v rootKey "" 0 initStats hclean n hn
    exact ⟨segs, hc, by omega, hp⟩
  have hDall := fresh_no_descendant (convertToNodes v rootKey).1 rootKey t hrne
    (fun n hn => ⟨(hfacts n hn).2.2.2.2.1, (hfacts n hn).2.2.2.2.2⟩)
    hseg node hmemt hpatht hd2
  have hClead : ∀ c ∈ (expandChildren node st).1,
      descendantTest t c = true := by
    intro c hc
    have hl := expandChildren_lead node st htype hpne c hc
    rw [hpatht] at hl
    unfold descendantTest
    rw [hl]
    rfl
  exact expand_collapse_restore (convertToNodes v rootKey).1 t st i node hfind
    hcoll hDall hClead

/-- C5 witness: the round trip at a concrete collapsed depth-2 container. -/
theorem c5_amended_witness :
    collapseNode (expandNode (convertToNodes (jsonObjOf [("a", jsonObjOf
        [("b", jsonObjOf [("c", JsonValue.num "1")])])]) "root").1 "root.a.b"
      initStats).1 "root.a.b" =
      (convertToNodes (jsonObjOf [("a", jsonObjOf
        [("b", jsonObjOf [("c", JsonValue.num "1")])])]) "root").1 :=
  c5_amended_expand_collapse
    (jsonObjOf [("a", jsonObjOf [("b", jsonObjOf [("c", JsonValue.num "1")])])])
    "root" (by decide) (by decide) (by decide) "root.a.b" initStats 2
    ⟨"b", jsonObjOf [("c", JsonValue.num "1")], "object", "root.a.b", 2, false,
      some 1⟩ (by decide) (by decide)
